import Mathlib

/-!
# SSZ (Simple Serialize): a shallow embedding of package `ssz`

The Go package implements the SSZ codec as a family of type descriptors that
all satisfy the interface `SSZType`; composite descriptors hold child
descriptors and call them through the interface.  The embedding follows that
design: `SSZType` is a record of functions, every Go method is a Lean function
named after it (`BitListType.SerializeTo`, `readOffsets`, ...), and a
descriptor constructor packs the methods of one Go struct into a record.

Conventions of the embedding.

* Bytes are natural numbers; a buffer (`[]byte`) is a `List Nat`.  A write
  into a caller-supplied buffer returns the updated buffer.
* A Go call can return normally, return an `error`, or abort with a run-time
  fault (index or slice out of range, integer division by zero, a faulting
  `reflect` call).  `Res` keeps the three apart.  `SerializeTo` mutates its
  buffer before it may return an error, so its result `Wr` carries the buffer
  in the error case as well.
* `start` and `end` are never negative in the source (they are sums of
  non-negative terms starting from `0` and `len(b)`), so they are `Nat`;
  every difference `end - start` is taken in `Int`.
* `uint32(x)` is `x % 2^32` and `uint(x)` of a negative `int` `x` is
  `x + 2^64`.  Lengths of slices, byte sizes of values and limits stay below
  `2^63` (a Go slice is far shorter), so `int(x)` of such an `x` is `x` and
  sums of them are not reduced.  `FixedSize() * Length` of a vector is the
  byte size of every value of the vector and is not reduced either; a product
  with a limit is not the size of any value and is reduced (`wrap64`).
* Values are dynamically typed (`interface{}`), modelled by `Value`.  A typed
  slice `[]T` is `Value.slice`; `[]byte` is a slice of `uint8` values.  The
  model does not distinguish `nil` from empty slices nor `*BitArray` from
  `BitArray`, and it does not track the static element type of a slice: an
  empty `Value.slice` stands for the empty slice of the type the callee
  expects.  Where `reflect` tests the type of a decoded element against the
  element type of a slice, the test is made on the descriptor (`setIndex`).
* The two-chunk hash `Hash64` (SHA-256 over 64 bytes, from `gohashtree`) is a
  parameter `H` of everything that hashes.
-/

namespace Ssz

/-! ## Outcomes of a call -/

/-- Families of `error` values the package returns (one per kind of message). -/
inductive Err where
  | typeMismatch
  | lengthMismatch
  | lengthExceedsLimit
  | outOfRange
  | invalidBool
  | invalidOffset
  | lastByteZero
  | extraneousBits
  | unaligned
  | unsupportedBitlen
  | indexOutOfRange
  deriving DecidableEq, Repr

/-- Outcome of a Go call that returns `(T, error)`: a value, an error, or a run-time fault. -/
inductive Res (α : Type) where
  | ok (a : α)
  | error (e : Err)
  | panic
  deriving DecidableEq, Repr

/-- Sequencing of fallible calls: the first error or fault ends the computation. -/
def Res.bind {α β : Type} (r : Res α) (f : α → Res β) : Res β :=
  match r with
  | .ok a => f a
  | .error e => .error e
  | .panic => .panic

instance : Monad Res where
  pure := Res.ok
  bind := Res.bind

/-- The call returned a value. -/
def Res.isOk {α : Type} : Res α → Bool
  | .ok _ => true
  | _ => false

/-- The call returned an `error` (it did not fault). -/
def Res.isError {α : Type} : Res α → Bool
  | .error _ => true
  | _ => false

abbrev Buf := List Nat

/-- Outcome of `SerializeTo`: the buffer after the call, with the error if one was returned. -/
inductive Wr where
  | done (b : Buf)
  | fail (e : Err) (b : Buf)
  | panic
  deriving DecidableEq, Repr

/-- What `Serialize` does with the outcome of `SerializeTo`: `return nil, err` or `return b, nil`. -/
def Wr.toRes : Wr → Res Buf
  | .done b => .ok b
  | .fail e _ => .error e
  | .panic => .panic

/-- Outcome of a buffer write that can only fault (an index or a slice out of range). -/
def Wr.ofRes : Res Buf → Wr
  | .ok b => .done b
  | _ => .panic

/-! ## Values -/

/-- Unsigned integer kinds of `reflect` (`Uint8` ... `Uint64`, `Uint`). -/
inductive UKind where
  | u8 | u16 | u32 | u64 | u
  deriving DecidableEq, Repr

/-- Signed integer kinds of `reflect` (`Int8` ... `Int64`, `Int`). -/
inductive IKind where
  | i8 | i16 | i32 | i64 | i
  deriving DecidableEq, Repr

/-- Type `BitArray` of bitarray.go: packed bits with an explicit bit length. -/
structure BitArray where
  Data : List Nat
  Bitlen : Nat
  deriving DecidableEq, Repr

/-- Dynamically typed values handed to and returned by the descriptors. -/
inductive Value where
  | nil
  | bool (b : Bool)
  | uint (k : UKind) (n : Nat)
  | int (k : IKind) (n : Int)
  | bitArray (ba : BitArray)
  | slice (elems : List Value)
  | struct (typ : String) (fields : List Value)

/-- A `[]byte` value. -/
def Value.ofBytes (bs : List Nat) : Value :=
  .slice (bs.map (fun x => Value.uint .u8 x))

/-- Elements of a slice all of whose elements are `uint8`. -/
def asBytesList : List Value → Option (List Nat)
  | [] => some []
  | .uint .u8 n :: rest =>
    match asBytesList rest with
    | some bs => some (n :: bs)
    | none => none
  | _ :: _ => none

/-- The type assertion `v.([]byte)`: the elements must all be `uint8`.  An empty slice carries
no element, and passes as the empty `[]byte`. -/
def Value.asBytes : Value → Option (List Nat)
  | .slice l => asBytesList l
  | _ => none

/-! ## Machine integers and buffers -/

/-- `uint(x)` for an `int` `x`: a negative `x` wraps around. -/
def toUint64 (x : Int) : Nat := if 0 ≤ x then x.toNat else (x + 2 ^ 64).toNat

/-- `uint32(x)`. -/
def toUint32 (x : Nat) : Nat := x % 2 ^ 32

/-- `a - b` on `uint`. -/
def uintSub (a b : Nat) : Nat := if b ≤ a then a - b else a + 2 ^ 64 - b

/-- The result of a multiplication on `uint`, which is reduced modulo `2^64`. -/
def wrap64 (x : Nat) : Nat := x % 2 ^ 64

/-- `make([]byte, n)`. -/
def zeros (n : Nat) : Buf := List.replicate n 0

/-- Every element is a byte. -/
def IsBytes (b : List Nat) : Prop := ∀ x ∈ b, x < 256

instance (b : List Nat) : Decidable (IsBytes b) := by
  unfold IsBytes; infer_instance

/-- The read `b[i]`. -/
def index (b : Buf) (i : Nat) : Res Nat :=
  match b[i]? with
  | some x => .ok x
  | none => .panic

/-- The slice expression `b[lo:hi]` (the buffers of this package have `cap = len`). -/
def sliceBuf (b : Buf) (lo hi : Nat) : Res Buf :=
  if lo ≤ hi ∧ hi ≤ b.length then .ok ((b.take hi).drop lo) else .panic

/-- Buffer `b` with the bytes from `pos` on replaced by `src` (which must fit). -/
def overwrite (b : Buf) (pos : Nat) (src : List Nat) : Buf :=
  b.take pos ++ src ++ b.drop (pos + src.length)

/-- The call `copy(b[pos:pos+n], src)` for an in-range window: `min n (len src)` bytes are copied. -/
def copyAt (b : Buf) (pos n : Nat) (src : List Nat) : Buf :=
  overwrite b pos (src.take n)

/-- The call `copy(dst, src)` into a fresh `dst = make([]byte, n)`. -/
def copyFresh (n : Nat) (src : List Nat) : Buf :=
  copyAt (zeros n) 0 n src

/-- The write `b[i] = x`. -/
def setByte (b : Buf) (i : Nat) (x : Nat) : Res Buf :=
  if i < b.length then .ok (overwrite b i [x]) else .panic

/-- Little-endian bytes of `x`, `w` of them (the value is truncated to `w` bytes). -/
def leBytes : Nat → Nat → List Nat
  | 0, _ => []
  | w + 1, x => x % 256 :: leBytes w (x / 256)

/-- Little-endian value of a byte string. -/
def leValue : List Nat → Nat
  | [] => 0
  | x :: rest => x + 256 * leValue rest

/-- The call `binary.LittleEndian.PutUintN(b[pos:], x)` with `N = 8 * w`. -/
def putUintAt (w : Nat) (b : Buf) (pos : Nat) (x : Nat) : Res Buf :=
  if pos + w ≤ b.length then .ok (overwrite b pos (leBytes w x)) else .panic

/-- The call `binary.LittleEndian.UintN(b[pos:])` with `N = 8 * w`. -/
def getUintAt (w : Nat) (b : Buf) (pos : Nat) : Res Nat :=
  if pos + w ≤ b.length then .ok (leValue ((b.drop pos).take w)) else .panic

/-- Function `bits.Len` on at most `fuel` bits: the number of bits needed to write `x`. -/
def bitsLenAux : Nat → Nat → Nat
  | 0, _ => 0
  | fuel + 1, x => if x = 0 then 0 else bitsLenAux fuel (x / 2) + 1

/-- Function `bits.Len` on a `uint`. -/
def bitsLen (x : Nat) : Nat := bitsLenAux 64 x

/-- Function `bits.LeadingZeros8`. -/
def LeadingZeros8 (x : Nat) : Nat := 8 - bitsLenAux 8 x

/-! ## util.go -/

abbrev Chunk := List Nat

def BYTES_PER_CHUNK : Nat := 32

def BYTES_PER_LENGTH_OFFSET : Nat := 4

def BITS_PER_BYTE : Nat := 8

def chunksToDepth (n : Nat) : Nat :=
  if n = 0 then 0 else bitsLen (n - 1)

def sizeToChunks (size : Nat) : Nat := (size + 31) / 32

/-- Function `Pack`: chunk `i` is a zero chunk overwritten by `copy(chunk[:], b[i*32:])`. -/
def Pack (b : List Nat) : List Chunk :=
  (List.range ((b.length + 31) / 32)).map (fun i => copyFresh 32 (b.drop (i * 32)))

/-- Function `gohashtree.HashChunks`: digest `i` is the hash of chunks `2i` and `2i+1`. -/
def HashChunks (H : Chunk → Chunk → Chunk) : List Chunk → List Chunk
  | a :: b :: rest => H a b :: HashChunks H rest
  | _ => []

/-- Function `ZeroHash`: the table starts with one all-zero chunk and is extended by hashing. -/
def ZeroHash (H : Chunk → Chunk → Chunk) : Nat → Chunk
  | 0 => zeros 32
  | d + 1 => H (ZeroHash H d) (ZeroHash H d)

/-- The loop of `Merkleize`: `n` more layers, the next one being layer `i`. -/
def MerkleizeLoop (H : Chunk → Chunk → Chunk) : Nat → Nat → List Chunk → List Chunk
  | 0, _, chunks => chunks
  | n + 1, i, chunks =>
    let padded := if chunks.length % 2 = 1 then chunks ++ [ZeroHash H i] else chunks
    MerkleizeLoop H n (i + 1) (HashChunks H padded)

/-- Function `Merkleize`.  The final `chunks[0]` cannot fault: a non-empty layer stays non-empty. -/
def Merkleize (H : Chunk → Chunk → Chunk) (chunks : List Chunk) (limit : Nat) : Chunk :=
  let layerCount := bitsLen (uintSub limit 1)
  if chunks.length = 0 then ZeroHash H layerCount
  else (MerkleizeLoop H layerCount 0 chunks).headD (zeros 32)

/-- Function `MixInLength`. -/
def MixInLength (H : Chunk → Chunk → Chunk) (root : Chunk) (length : Nat) : Chunk :=
  H root (leBytes 8 length ++ zeros 24)

/-! ## type.go: the interface -/

/-- Which Go struct stands behind an `SSZType` value (what a type switch sees). -/
inductive Kind where
  | bool | uint | bitVector | bitList | byteVector | byteList | vector | list | container
  deriving DecidableEq, Repr

/-- Interface `SSZType`.  `Zero` is the zero value of `Type()`, which is what
`reflect.MakeSlice` fills a new slice with. -/
structure SSZType where
  Kind : Kind
  Default : Value
  Zero : Value
  IsVariableSize : Bool
  FixedSize : Nat
  Size : Value → Res Nat
  HashTreeRoot : (Chunk → Chunk → Chunk) → Value → Res Chunk
  SerializeTo : Value → Buf → Nat → Wr
  Serialize : Value → Res Buf
  DeserializeFrom : Buf → Nat → Nat → Res Value
  Deserialize : Buf → Res Value

def isBasicType (t : SSZType) : Bool :=
  match t.Kind with
  | .bool => true
  | .uint => true
  | _ => false

/-! ## bitarray.go -/

def MakeBitArrayFromBitlen (bitlen : Nat) : BitArray :=
  { Data := zeros ((bitlen + 7) / 8), Bitlen := bitlen }

/-- Method `GetBit`: `ba.Data[i/8] & mask == mask` with `mask = 1 << (i%8)`. -/
def BitArray.GetBit (ba : BitArray) (i : Nat) : Res Bool := do
  let x ← index ba.Data (i / 8)
  pure (x &&& (1 <<< (i % 8)) == 1 <<< (i % 8))

/-- Method `SetBit`. -/
def BitArray.SetBit (ba : BitArray) (i : Nat) (b : Bool) : Res BitArray :=
  if i ≥ ba.Bitlen then .error .indexOutOfRange
  else do
    let x ← index ba.Data (i / 8)
    let y := if b then x ||| (1 <<< (i % 8)) else x &&& (255 - (1 <<< (i % 8)))
    let d ← setByte ba.Data (i / 8) y
    pure { Data := d, Bitlen := ba.Bitlen }

/-- The loop of `MakeBitArrayFromBoolSlice`, from index `i` on. -/
def MakeBitArrayLoop : List Bool → Nat → List Nat → Res (List Nat)
  | [], _, d => .ok d
  | b :: rest, i, d =>
    if b then do
      let x ← index d (i / 8)
      let d1 ← setByte d (i / 8) (x ||| (1 <<< (i % 8)))
      MakeBitArrayLoop rest (i + 1) d1
    else MakeBitArrayLoop rest (i + 1) d

def MakeBitArrayFromBoolSlice (v : List Bool) : Res BitArray := do
  let d ← MakeBitArrayLoop v 0 (MakeBitArrayFromBitlen v.length).Data
  pure { Data := d, Bitlen := v.length }

/-- The loop of `GetBoolSlice`: bits `i`, `i+1`, ... (`n` of them). -/
def GetBoolSliceLoop (ba : BitArray) : Nat → Nat → Res (List Bool)
  | 0, _ => .ok []
  | n + 1, i => do
    let x ← ba.GetBit i
    let rest ← GetBoolSliceLoop ba n (i + 1)
    pure (x :: rest)

def BitArray.GetBoolSlice (ba : BitArray) : Res (List Bool) :=
  GetBoolSliceLoop ba ba.Bitlen 0

/-! ## bool.go -/

def BoolType.Size (_v : Value) : Res Nat := .ok 1

def BoolType.SerializeTo (v : Value) (b : Buf) (start : Nat) : Wr :=
  match v with
  | .bool v_ => Wr.ofRes (setByte b start (if v_ then 1 else 0))
  | _ => .fail .typeMismatch b

def BoolType.HashTreeRoot (v : Value) : Res Chunk :=
  (BoolType.SerializeTo v (zeros 32) 0).toRes

def BoolType.Serialize (v : Value) : Res Buf :=
  (BoolType.SerializeTo v (zeros 1) 0).toRes

def BoolType.DeserializeFrom (b : Buf) (start end_ : Nat) : Res Value :=
  if (end_ : Int) - start ≠ 1 then .error .lengthMismatch
  else do
    let x ← index b start
    if x = 0 then pure (.bool false)
    else if x = 1 then pure (.bool true)
    else .error .invalidBool

def BoolType.Deserialize (b : Buf) : Res Value :=
  BoolType.DeserializeFrom b 0 b.length

/-- Constructor `Bool()`. -/
def SszBool : SSZType :=
  { Kind := .bool
    Default := .bool false
    Zero := .bool false
    IsVariableSize := false
    FixedSize := 1
    Size := BoolType.Size
    HashTreeRoot := fun _ v => BoolType.HashTreeRoot v
    SerializeTo := BoolType.SerializeTo
    Serialize := BoolType.Serialize
    DeserializeFrom := BoolType.DeserializeFrom
    Deserialize := BoolType.Deserialize }

/-! ## uint.go -/

/-- Struct `UintType`. -/
structure UintType where
  Bitlen : Nat
  fixedSize : Nat

def UintType.Default (t : UintType) : Value :=
  if t.Bitlen = 8 then .uint .u8 0
  else if t.Bitlen = 16 then .uint .u16 0
  else if t.Bitlen = 32 then .uint .u32 0
  else if t.Bitlen = 64 then .uint .u64 0
  else .nil

def UintType.Max (t : UintType) : Nat :=
  if t.Bitlen = 8 then 2 ^ 8 - 1
  else if t.Bitlen = 16 then 2 ^ 16 - 1
  else if t.Bitlen = 32 then 2 ^ 32 - 1
  else if t.Bitlen = 64 then 2 ^ 64 - 1
  else 0

def UintType.Size (t : UintType) (_v : Value) : Res Nat := .ok t.fixedSize

/-- The second `switch` of `SerializeTo`: the write of `u` in `Bitlen / 8` bytes. -/
def UintType.put (t : UintType) (u : Nat) (b : Buf) (start : Nat) : Wr :=
  if t.Bitlen = 8 then Wr.ofRes (setByte b start (u % 256))
  else if t.Bitlen = 16 then Wr.ofRes (putUintAt 2 b start u)
  else if t.Bitlen = 32 then Wr.ofRes (putUintAt 4 b start u)
  else if t.Bitlen = 64 then Wr.ofRes (putUintAt 8 b start u)
  else .fail .unsupportedBitlen b

/-- Method `SerializeTo`.  An unsigned value above `Max()` faults: the error message is built
with `val.Int()`, which `reflect` refuses on an unsigned kind; `val.Type()` faults on `nil`. -/
def UintType.SerializeTo (t : UintType) (v : Value) (b : Buf) (start : Nat) : Wr :=
  match v with
  | .uint _ n => if n > t.Max then .panic else t.put n b start
  | .int _ n => if n < 0 ∨ toUint64 n > t.Max then .fail .outOfRange b else t.put (toUint64 n) b start
  | .nil => .panic
  | _ => .fail .typeMismatch b

def UintType.HashTreeRoot (t : UintType) (v : Value) : Res Chunk :=
  (t.SerializeTo v (zeros 32) 0).toRes

def UintType.Serialize (t : UintType) (v : Value) : Res Buf :=
  (t.SerializeTo v (zeros t.fixedSize) 0).toRes

def UintType.DeserializeFrom (t : UintType) (b : Buf) (start end_ : Nat) : Res Value :=
  if (end_ : Int) - start ≠ (t.fixedSize : Int) then .error .lengthMismatch
  else if t.Bitlen = 8 then do
    let v ← index b start
    pure (.uint .u8 v)
  else if t.Bitlen = 16 then do
    let s ← sliceBuf b start end_
    pure (.uint .u16 (leValue (s.take 2)))
  else if t.Bitlen = 32 then do
    let s ← sliceBuf b start end_
    pure (.uint .u32 (leValue (s.take 4)))
  else if t.Bitlen = 64 then do
    let s ← sliceBuf b start end_
    pure (.uint .u64 (leValue (s.take 8)))
  else .error .unsupportedBitlen

def UintType.Deserialize (t : UintType) (b : Buf) : Res Value :=
  t.DeserializeFrom b 0 b.length

def UintType.toSSZType (t : UintType) : SSZType :=
  { Kind := .uint
    Default := t.Default
    Zero := t.Default
    IsVariableSize := false
    FixedSize := t.fixedSize
    Size := t.Size
    HashTreeRoot := fun _ v => t.HashTreeRoot v
    SerializeTo := t.SerializeTo
    Serialize := t.Serialize
    DeserializeFrom := t.DeserializeFrom
    Deserialize := t.Deserialize }

/-- Constructor `Uint(bitlen)`. -/
def Uint (bitlen : Nat) : SSZType :=
  UintType.toSSZType { Bitlen := bitlen, fixedSize := bitlen / 8 }

/-! ## bitvector.go -/

def BitVectorType.FixedSize (Length : Nat) : Nat := (Length + 7) / 8

def BitVectorType.Default (Length : Nat) : Value :=
  .bitArray { Data := zeros ((Length + 7) / 8), Bitlen := Length }

def BitVectorType.Size (Length : Nat) (v : Value) : Res Nat :=
  match v with
  | .bitArray _ => .ok (BitVectorType.FixedSize Length)
  | _ => .error .typeMismatch

def BitVectorType.HashTreeRoot (Length : Nat) (H : Chunk → Chunk → Chunk) (v : Value) : Res Chunk :=
  match v with
  | .bitArray vv => .ok (Merkleize H (Pack vv.Data) ((Length + 255) / 256))
  | _ => .error .typeMismatch

def BitVectorType.SerializeTo (Length : Nat) (v : Value) (b : Buf) (start : Nat) : Wr :=
  match v with
  | .bitArray vv =>
    if vv.Bitlen ≠ Length then .fail .lengthMismatch b
    else
      let s := (Length + 7) / 8
      if start + s ≤ b.length then .done (copyAt b start s vv.Data) else .panic
  | _ => .fail .typeMismatch b

def BitVectorType.Serialize (Length : Nat) (v : Value) : Res Buf := do
  let size ← BitVectorType.Size Length v
  (BitVectorType.SerializeTo Length v (zeros size) 0).toRes

def BitVectorType.DeserializeFrom (Length : Nat) (b : Buf) (start end_ : Nat) : Res Value :=
  let bytelen : Int := (end_ : Int) - start
  if bytelen ≠ (BitVectorType.FixedSize Length : Int) then .error .lengthMismatch
  else if end_ = 0 then .panic
  else do
    let last ← index b (end_ - 1)
    let l0s := LeadingZeros8 last
    let lastbytebitlen := Length % 8
    if lastbytebitlen > 0 ∧ lastbytebitlen + l0s < 8 then .error .extraneousBits
    else do
      let src ← sliceBuf b start end_
      pure (.bitArray { Data := copyFresh bytelen.toNat src, Bitlen := Length })

def BitVectorType.Deserialize (Length : Nat) (b : Buf) : Res Value :=
  BitVectorType.DeserializeFrom Length b 0 b.length

/-- Constructor `BitVector(length)`. -/
def BitVector (length : Nat) : SSZType :=
  { Kind := .bitVector
    Default := BitVectorType.Default length
    Zero := .bitArray { Data := [], Bitlen := 0 }
    IsVariableSize := false
    FixedSize := BitVectorType.FixedSize length
    Size := BitVectorType.Size length
    HashTreeRoot := BitVectorType.HashTreeRoot length
    SerializeTo := BitVectorType.SerializeTo length
    Serialize := BitVectorType.Serialize length
    DeserializeFrom := BitVectorType.DeserializeFrom length
    Deserialize := BitVectorType.Deserialize length }

/-! ## bitlist.go -/

def BitListType.Default : Value := .bitArray { Data := [], Bitlen := 0 }

def BitListType.Size (v : Value) : Res Nat :=
  match v with
  | .bitArray vv => .ok ((vv.Bitlen + 8) / 8)
  | _ => .error .typeMismatch

def BitListType.HashTreeRoot (Limit : Nat) (H : Chunk → Chunk → Chunk) (v : Value) : Res Chunk :=
  match v with
  | .bitArray vv => .ok (MixInLength H (Merkleize H (Pack vv.Data) ((Limit + 255) / 256)) vv.Bitlen)
  | _ => .error .typeMismatch

/-- Method `SerializeTo`: `copy(b[start:start+s], vv.Data[:])`, then the padding bit. -/
def BitListType.SerializeTo (Limit : Nat) (v : Value) (b : Buf) (start : Nat) : Wr :=
  match v with
  | .bitArray vv =>
    if vv.Bitlen > Limit then .fail .lengthExceedsLimit b
    else
      let s := (vv.Bitlen + 7) / 8
      if start + s ≤ b.length then
        let b1 := copyAt b start s vv.Data
        if vv.Bitlen % 8 = 0 then Wr.ofRes (setByte b1 (start + s) 1)
        else
          match index b1 (start + s - 1) with
          | .ok x => Wr.ofRes (setByte b1 (start + s - 1) (x ||| (1 <<< (vv.Bitlen % 8))))
          | _ => .panic
      else .panic
  | _ => .fail .typeMismatch b

def BitListType.Serialize (Limit : Nat) (v : Value) : Res Buf := do
  let size ← BitListType.Size v
  (BitListType.SerializeTo Limit v (zeros size) 0).toRes

/-- Method `DeserializeFrom`.  `bitlen` is computed on `uint`, so it wraps around when
`bytelen` is `0`. -/
def BitListType.DeserializeFrom (Limit : Nat) (b : Buf) (start end_ : Nat) : Res Value :=
  let bytelen : Int := (end_ : Int) - start
  if end_ = 0 then .panic
  else do
    let last ← index b (end_ - 1)
    let l0s := LeadingZeros8 last
    if l0s = 8 then .error .lastByteZero
    else
      let bitlen := toUint64 (bytelen * 8 - l0s - 1)
      if bitlen > Limit then .error .lengthExceedsLimit
      else
        let n := (bitlen + 7) / 8
        if bitlen % 8 = 0 then do
          let src ← sliceBuf b start (end_ - 1)
          pure (.bitArray { Data := copyFresh n src, Bitlen := bitlen })
        else do
          let src ← sliceBuf b start end_
          let d := copyFresh n src
          if n = 0 then .panic
          else do
            let x ← index d (n - 1)
            let d1 ← setByte d (n - 1) (x &&& (255 >>> (l0s + 1)))
            pure (.bitArray { Data := d1, Bitlen := bitlen })

def BitListType.Deserialize (Limit : Nat) (b : Buf) : Res Value :=
  BitListType.DeserializeFrom Limit b 0 b.length

/-- Constructor `BitList(limit)`. -/
def BitList (limit : Nat) : SSZType :=
  { Kind := .bitList
    Default := BitListType.Default
    Zero := .bitArray { Data := [], Bitlen := 0 }
    IsVariableSize := true
    FixedSize := 0
    Size := BitListType.Size
    HashTreeRoot := BitListType.HashTreeRoot limit
    SerializeTo := BitListType.SerializeTo limit
    Serialize := BitListType.Serialize limit
    DeserializeFrom := BitListType.DeserializeFrom limit
    Deserialize := BitListType.Deserialize limit }

/-! ## bytevector.go -/

def ByteVectorType.Default (Length : Nat) : Value := Value.ofBytes (zeros Length)

def ByteVectorType.Size (Length : Nat) (_v : Value) : Res Nat := .ok Length

/-- Method `SerializeTo`: `copy(b[start:], vv)` copies as many bytes as fit. -/
def ByteVectorType.SerializeTo (Length : Nat) (v : Value) (b : Buf) (start : Nat) : Wr :=
  match v.asBytes with
  | some vv =>
    if vv.length ≠ Length then .fail .lengthMismatch b
    else if start ≤ b.length then .done (copyAt b start (b.length - start) vv)
    else .panic
  | none => .fail .typeMismatch b

def ByteVectorType.Serialize (Length : Nat) (v : Value) : Res Buf :=
  (ByteVectorType.SerializeTo Length v (zeros Length) 0).toRes

def ByteVectorType.HashTreeRoot (Length : Nat) (H : Chunk → Chunk → Chunk) (v : Value) : Res Chunk := do
  let s ← ByteVectorType.Serialize Length v
  let chunks := Pack s
  pure (Merkleize H chunks chunks.length)

def ByteVectorType.DeserializeFrom (Length : Nat) (b : Buf) (start end_ : Nat) : Res Value :=
  if (end_ : Int) - start ≠ (Length : Int) then .error .lengthMismatch
  else do
    let src ← sliceBuf b start end_
    let n := min Length src.length
    if n ≠ Length then .error .lengthMismatch
    else pure (Value.ofBytes (copyFresh Length src))

def ByteVectorType.Deserialize (Length : Nat) (b : Buf) : Res Value :=
  ByteVectorType.DeserializeFrom Length b 0 b.length

/-- Constructor `ByteVector(length)`. -/
def ByteVector (length : Nat) : SSZType :=
  { Kind := .byteVector
    Default := ByteVectorType.Default length
    Zero := .slice []
    IsVariableSize := false
    FixedSize := length
    Size := ByteVectorType.Size length
    HashTreeRoot := ByteVectorType.HashTreeRoot length
    SerializeTo := ByteVectorType.SerializeTo length
    Serialize := ByteVectorType.Serialize length
    DeserializeFrom := ByteVectorType.DeserializeFrom length
    Deserialize := ByteVectorType.Deserialize length }

/-! ## bytelist.go -/

def ByteListType.Size (v : Value) : Res Nat :=
  match v.asBytes with
  | some vv => .ok vv.length
  | none => .error .typeMismatch

def ByteListType.SerializeTo (Limit : Nat) (v : Value) (b : Buf) (start : Nat) : Wr :=
  match v.asBytes with
  | some vv =>
    if vv.length > Limit then .fail .lengthExceedsLimit b
    else if start ≤ b.length then .done (copyAt b start (b.length - start) vv)
    else .panic
  | none => .fail .typeMismatch b

def ByteListType.Serialize (Limit : Nat) (v : Value) : Res Buf := do
  let s ← ByteListType.Size v
  (ByteListType.SerializeTo Limit v (zeros s) 0).toRes

/-- Method `HashTreeRoot`; the final `v.([]byte)` cannot fail after `Serialize` succeeded. -/
def ByteListType.HashTreeRoot (Limit : Nat) (H : Chunk → Chunk → Chunk) (v : Value) : Res Chunk := do
  let s ← ByteListType.Serialize Limit v
  let chunks := Pack s
  let chunkCount := (Limit + 31) / 32
  match v.asBytes with
  | some vv => pure (MixInLength H (Merkleize H chunks chunkCount) vv.length)
  | none => .panic

/-- Method `DeserializeFrom`; `make([]byte, l)` faults on a negative `l`. -/
def ByteListType.DeserializeFrom (Limit : Nat) (b : Buf) (start end_ : Nat) : Res Value :=
  let l : Int := (end_ : Int) - start
  if toUint64 l > Limit then .error .lengthExceedsLimit
  else if l < 0 then .panic
  else do
    let src ← sliceBuf b start end_
    pure (Value.ofBytes (copyFresh l.toNat src))

def ByteListType.Deserialize (Limit : Nat) (b : Buf) : Res Value :=
  ByteListType.DeserializeFrom Limit b 0 b.length

/-- Constructor `ByteList(limit)`. -/
def ByteList (limit : Nat) : SSZType :=
  { Kind := .byteList
    Default := Value.ofBytes []
    Zero := .slice []
    IsVariableSize := true
    FixedSize := 0
    Size := ByteListType.Size
    HashTreeRoot := ByteListType.HashTreeRoot limit
    SerializeTo := ByteListType.SerializeTo limit
    Serialize := ByteListType.Serialize limit
    DeserializeFrom := ByteListType.DeserializeFrom limit
    Deserialize := ByteListType.Deserialize limit }

/-! ## Loops shared by vector.go and list.go -/

/-- Whether `DeserializeFrom` of a descriptor returns a value of the descriptor's own `Type()`.
`BitVectorType.DeserializeFrom` and `BitListType.DeserializeFrom` return a `*BitArray`, while
their `Type()` is the type of `Default()`, a `BitArray`; every other descriptor returns a
value of its `Type()`.  (`Value` writes a `*BitArray` and a `BitArray` alike, so the
difference is read off the descriptor.) -/
def returnsOwnType (t : SSZType) : Bool :=
  match t.Kind with
  | .bitVector => false
  | .bitList => false
  | _ => true

/-- The write `v.Index(i).Set(reflect.ValueOf(e))` of an element `e` that the element
descriptor `elem` has read, into a slice made with `reflect.SliceOf(elem.Type())`.  It faults
when `i` is out of range, and when `e` is not assignable to the element type of the slice
(a `*BitArray` is not assignable to a `BitArray`). -/
def setIndex (elem : SSZType) (v : List Value) (i : Nat) (e : Value) : Res (List Value) :=
  if i < v.length ∧ returnsOwnType elem = true then .ok (v.set i e) else .panic

/-- The loop `for i := 0; i < l; i++ { s, err := ElementType.Size(e); size += s }`. -/
def sizeLoop (elem : SSZType) : List Value → Nat → Res Nat
  | [], size => .ok size
  | e :: rest, size => do
    let s ← elem.Size e
    sizeLoop elem rest (size + s)

/-- The loop that hashes every element and appends the roots. -/
def hashLoop (elem : SSZType) (H : Chunk → Chunk → Chunk) : List Value → List Chunk → Res (List Chunk)
  | [], chunks => .ok chunks
  | e :: rest, chunks => do
    let r ← elem.HashTreeRoot H e
    hashLoop elem H rest (chunks ++ [r])

/-- The loop of `SerializeTo` for fixed-size elements: element `i` goes to `start + i*FixedSize`. -/
def serializeFixedLoop (elem : SSZType) (start : Nat) : List Value → Nat → Buf → Wr
  | [], _, b => .done b
  | e :: rest, i, b =>
    match elem.SerializeTo e b (start + i * elem.FixedSize) with
    | .done b1 => serializeFixedLoop elem start rest (i + 1) b1
    | .fail err b1 => .fail err b1
    | .panic => .panic

/-- The loop of `SerializeTo` for variable-size elements.  The `err` of the element's
`SerializeTo` is overwritten by the `err` of `Size` before it is looked at. -/
def serializeVarLoop (elem : SSZType) (start : Nat) : List Value → Nat → Nat → Buf → Wr
  | [], _, _, b => .done b
  | e :: rest, i, offset, b =>
    match putUintAt 4 b (start + i * 4) (toUint32 offset) with
    | .ok b1 =>
      match elem.SerializeTo e b1 (start + offset) with
      | .panic => .panic
      | .done b2 | .fail _ b2 =>
        match elem.Size e with
        | .ok s => serializeVarLoop elem start rest (i + 1) (offset + s) b2
        | .error err => .fail err b2
        | .panic => .panic
    | _ => .panic

/-- The loop of `DeserializeFrom` for fixed-size elements: `n` more elements, the next is `i`. -/
def deserializeFixedLoop (elem : SSZType) (b : Buf) (start fixedSize : Nat) :
    Nat → Nat → List Value → Res (List Value)
  | 0, _, v => .ok v
  | n + 1, i, v => do
    let e ← elem.DeserializeFrom b (start + i * fixedSize) (start + (i + 1) * fixedSize)
    let v1 ← setIndex elem v i e
    deserializeFixedLoop elem b start fixedSize n (i + 1) v1

/-- The loop `for i := 1; i < l; i++` of `DeserializeFrom` for variable-size elements: `n`
more rounds, the next is `i`, `prev` is `offsets[i-1]`.  The element read in round `i` is
stored at index `i - shift` (`shift` is `1` in vector.go and `0` in list.go).  It returns the
slice and the last offset. -/
def deserializeVarLoop (elem : SSZType) (b : Buf) (start shift : Nat) :
    Nat → Nat → Nat → List Value → Res (List Value × Nat)
  | 0, _, prev, v => .ok (v, prev)
  | n + 1, i, prev, v => do
    let offset ← getUintAt 4 b (start + i * 4)
    if offset ≤ prev then .error .invalidOffset
    else do
      let e ← elem.DeserializeFrom b (start + prev) (start + offset)
      let v1 ← setIndex elem v (i - shift) e
      deserializeVarLoop elem b start shift n (i + 1) offset v1

/-! ## vector.go -/

/-- Struct `VectorType`. -/
structure VectorType where
  ElementType : SSZType
  Length : Nat

def VectorType.Default (t : VectorType) : Value :=
  .slice (List.replicate t.Length t.ElementType.Zero)

def VectorType.IsVariableSize (t : VectorType) : Bool := t.ElementType.IsVariableSize

/-- Method `FixedSize`.  The product is the byte size of every value of the vector. -/
def VectorType.FixedSize (t : VectorType) : Nat := t.ElementType.FixedSize * t.Length

def VectorType.Size (t : VectorType) (v : Value) : Res Nat :=
  if !t.ElementType.IsVariableSize then .ok (t.ElementType.FixedSize * t.Length)
  else
    match v with
    | .slice vv =>
      if vv.length ≠ t.Length then .error .lengthMismatch
      else do
        let size ← sizeLoop t.ElementType vv 0
        pure (size + 4 * t.Length)
    | _ => .error .typeMismatch

def VectorType.SerializeTo (t : VectorType) (v : Value) (b : Buf) (start : Nat) : Wr :=
  match v with
  | .slice vv =>
    if vv.length ≠ t.Length then .fail .lengthMismatch b
    else if !t.ElementType.IsVariableSize then serializeFixedLoop t.ElementType start vv 0 b
    else serializeVarLoop t.ElementType start vv 0 (4 * t.Length) b
  | _ => .fail .typeMismatch b

def VectorType.Serialize (t : VectorType) (v : Value) : Res Buf := do
  let s ← t.Size v
  (t.SerializeTo v (zeros s) 0).toRes

def VectorType.HashTreeRoot (t : VectorType) (H : Chunk → Chunk → Chunk) (v : Value) : Res Chunk :=
  if isBasicType t.ElementType then do
    let s ← t.Serialize v
    let chunks := Pack s
    let chunkCount := wrap64 (wrap64 (t.Length * t.ElementType.FixedSize) + 31) / 32
    pure (Merkleize H chunks chunkCount)
  else
    match v with
    | .slice vv =>
      if vv.length ≠ t.Length then .error .lengthMismatch
      else do
        let chunks ← hashLoop t.ElementType H vv []
        pure (Merkleize H chunks t.Length)
    | _ => .error .typeMismatch

/-- Method `DeserializeFrom`.  With `Length = 0` the index `offsets[t.Length-1]` is out of range. -/
def VectorType.DeserializeFrom (t : VectorType) (b : Buf) (start end_ : Nat) : Res Value :=
  if !t.ElementType.IsVariableSize then
    let fixedSize := t.ElementType.FixedSize
    if (end_ : Int) - start ≠ ((fixedSize * t.Length : Nat) : Int) then .error .lengthMismatch
    else do
      let v ← deserializeFixedLoop t.ElementType b start fixedSize t.Length 0
        (List.replicate t.Length t.ElementType.Zero)
      pure (.slice v)
  else do
    let firstOffset ← getUintAt 4 b start
    if firstOffset ≠ toUint32 (4 * t.Length) then .error .invalidOffset
    else if firstOffset % 4 ≠ 0 then .error .invalidOffset
    else do
      let (v, last) ← deserializeVarLoop t.ElementType b start 1 (t.Length - 1) 1 firstOffset
        (List.replicate t.Length t.ElementType.Zero)
      if t.Length = 0 then .panic
      else do
        let e ← t.ElementType.DeserializeFrom b (start + last) end_
        let v1 ← setIndex t.ElementType v (t.Length - 1) e
        pure (.slice v1)

def VectorType.Deserialize (t : VectorType) (b : Buf) : Res Value :=
  t.DeserializeFrom b 0 b.length

def VectorType.toSSZType (t : VectorType) : SSZType :=
  { Kind := .vector
    Default := t.Default
    Zero := .slice []
    IsVariableSize := t.IsVariableSize
    FixedSize := t.FixedSize
    Size := t.Size
    HashTreeRoot := t.HashTreeRoot
    SerializeTo := t.SerializeTo
    Serialize := t.Serialize
    DeserializeFrom := t.DeserializeFrom
    Deserialize := t.Deserialize }

/-- Constructor `Vector(elementType, length)`. -/
def Vector (elementType : SSZType) (length : Nat) : SSZType :=
  VectorType.toSSZType { ElementType := elementType, Length := length }

/-! ## list.go -/

/-- Struct `ListType`. -/
structure ListType where
  ElementType : SSZType
  Limit : Nat

def ListType.Size (t : ListType) (v : Value) : Res Nat :=
  match v with
  | .slice vv =>
    if vv.length > t.Limit then .error .lengthExceedsLimit
    else if isBasicType t.ElementType then .ok (t.ElementType.FixedSize * vv.length)
    else do
      let size ← sizeLoop t.ElementType vv 0
      pure (size + 4 * vv.length)
  | _ => .error .typeMismatch

def ListType.SerializeTo (t : ListType) (v : Value) (b : Buf) (start : Nat) : Wr :=
  match v with
  | .slice vv =>
    if vv.length > t.Limit then .fail .lengthExceedsLimit b
    else if !t.ElementType.IsVariableSize then serializeFixedLoop t.ElementType start vv 0 b
    else serializeVarLoop t.ElementType start vv 0 (4 * vv.length) b
  | _ => .fail .typeMismatch b

def ListType.Serialize (t : ListType) (v : Value) : Res Buf := do
  let s ← t.Size v
  (t.SerializeTo v (zeros s) 0).toRes

def ListType.HashTreeRoot (t : ListType) (H : Chunk → Chunk → Chunk) (v : Value) : Res Chunk :=
  match v with
  | .slice vv =>
    if vv.length > t.Limit then .error .lengthExceedsLimit
    else if isBasicType t.ElementType then do
      let s ← t.Serialize v
      let chunks := Pack s
      let chunkCount := wrap64 (wrap64 (t.Limit * t.ElementType.FixedSize) + 31) / 32
      pure (MixInLength H (Merkleize H chunks chunkCount) vv.length)
    else do
      let chunks ← hashLoop t.ElementType H vv []
      pure (MixInLength H (Merkleize H chunks t.Limit) vv.length)
  | _ => .error .typeMismatch

/-- Method `DeserializeFrom`.  Go's `/` and `%` on `int` truncate towards zero and fault on a
zero divisor; `reflect.MakeSlice` faults on a negative length; with `l = 0` the index
`offsets[l-1]` is out of range.  In the loop over the offsets the element is stored with
`v.Index(i)`. -/
def ListType.DeserializeFrom (t : ListType) (b : Buf) (start end_ : Nat) : Res Value :=
  if !t.ElementType.IsVariableSize then
    let fixedSize := t.ElementType.FixedSize
    if fixedSize = 0 then .panic
    else
      let l : Int := Int.tdiv ((end_ : Int) - start) fixedSize
      if Int.tmod ((end_ : Int) - start) fixedSize ≠ 0 then .error .unaligned
      else if l > (t.Limit : Int) then .error .lengthExceedsLimit
      else if l < 0 then .panic
      else do
        let v ← deserializeFixedLoop t.ElementType b start fixedSize l.toNat 0
          (List.replicate l.toNat t.ElementType.Zero)
        pure (.slice v)
  else do
    let firstOffset ← getUintAt 4 b start
    if firstOffset % 4 ≠ 0 then .error .invalidOffset
    else
      let l := firstOffset / 4
      if l > t.Limit then .error .lengthExceedsLimit
      else do
        let (v, last) ← deserializeVarLoop t.ElementType b start 0 (l - 1) 1 firstOffset
          (List.replicate l t.ElementType.Zero)
        if l = 0 then .panic
        else do
          let e ← t.ElementType.DeserializeFrom b (start + last) end_
          let v1 ← setIndex t.ElementType v (l - 1) e
          pure (.slice v1)

def ListType.Deserialize (t : ListType) (b : Buf) : Res Value :=
  t.DeserializeFrom b 0 b.length

def ListType.toSSZType (t : ListType) : SSZType :=
  { Kind := .list
    Default := .slice []
    Zero := .slice []
    IsVariableSize := true
    FixedSize := 0
    Size := t.Size
    HashTreeRoot := t.HashTreeRoot
    SerializeTo := t.SerializeTo
    Serialize := t.Serialize
    DeserializeFrom := t.DeserializeFrom
    Deserialize := t.Deserialize }

/-- Constructor `List(elementType, limit)`. -/
def SszList (elementType : SSZType) (limit : Nat) : SSZType :=
  ListType.toSSZType { ElementType := elementType, Limit := limit }

/-! ## container.go -/

/-- Struct `Field`. -/
structure Field where
  K : String
  V : SSZType

/-- Struct `ContainerType`; `typ` is the name of the Go struct type the values have. -/
structure ContainerType where
  FieldNames : List String
  FieldTypes : List SSZType
  typ : String
  variableOffsets : List Nat
  fixedFieldRanges : List (Nat × Nat)
  fixedEnd : Nat

/-- The loop of `preCalculateFieldRanges`. -/
def preCalculateLoop : List SSZType → List (Nat × Nat) → List Nat → Nat →
    List (Nat × Nat) × List Nat × Nat
  | [], fixedFieldRanges, variableOffsets, offset => (fixedFieldRanges, variableOffsets, offset)
  | ft :: rest, fixedFieldRanges, variableOffsets, offset =>
    if !ft.IsVariableSize then
      let s := ft.FixedSize
      preCalculateLoop rest (fixedFieldRanges ++ [(offset, offset + s)]) variableOffsets (offset + s)
    else
      preCalculateLoop rest fixedFieldRanges (variableOffsets ++ [offset]) (offset + 4)

def preCalculateFieldRanges (fieldTypes : List SSZType) : List (Nat × Nat) × List Nat × Nat :=
  preCalculateLoop fieldTypes [] [] 0

/-- Constructor `Container(fields, typ)`, up to the wrapping into the interface. -/
def ContainerType.make (fields : List Field) (typ : String) : ContainerType :=
  let fieldTypes := fields.map (fun f => f.V)
  let r := preCalculateFieldRanges fieldTypes
  { FieldNames := fields.map (fun f => f.K)
    FieldTypes := fieldTypes
    typ := typ
    fixedFieldRanges := r.1
    variableOffsets := r.2.1
    fixedEnd := r.2.2 }

/-- Method `GetFieldValues`.  The descriptor is taken to list the fields of the Go struct type
in their order, so a value of that type has one field value per field name. -/
def ContainerType.GetFieldValues (t : ContainerType) (v : Value) : Res (List Value) :=
  match v with
  | .struct typ fields =>
    if typ ≠ t.typ then .error .typeMismatch
    else if fields.length ≠ t.FieldNames.length then .error .typeMismatch
    else .ok fields
  | _ => .error .typeMismatch

/-- Method `SetFieldValues` on a new value of the struct type. -/
def ContainerType.SetFieldValues (t : ContainerType) (fieldValues : List Value) : Res Value :=
  if fieldValues.length ≠ t.FieldNames.length then .panic
  else .ok (.struct t.typ fieldValues)

/-- Method `Default`.  It hands `reflect.New(t.typ)`, a `reflect.Value`, to `SetFieldValues`,
whose test `val.Type() != t.Type()` fails on it; the error is dropped and the `nil` that
`SetFieldValues` returns with it is the result. -/
def ContainerType.Default (_t : ContainerType) : Value := .nil

def ContainerType.IsVariableSize (t : ContainerType) : Bool :=
  t.FieldTypes.any (fun ft => ft.IsVariableSize)

/-- The loop of `FixedSize`. -/
def fixedSizeLoop : List SSZType → Nat → Nat
  | [], size => size
  | ft :: rest, size => if ft.IsVariableSize then 0 else fixedSizeLoop rest (size + ft.FixedSize)

def ContainerType.FixedSize (t : ContainerType) : Nat := fixedSizeLoop t.FieldTypes 0

/-- The loop of `Size`, over the field values; `fts` are the descriptors from index `i` on. -/
def containerSizeLoop : List SSZType → List Value → Nat → Res Nat
  | _, [], size => .ok size
  | [], _ :: _, _ => .panic
  | ft :: fts, e :: rest, size =>
    if !ft.IsVariableSize then containerSizeLoop fts rest (size + ft.FixedSize)
    else do
      let s ← ft.Size e
      containerSizeLoop fts rest (size + (4 + s))

def ContainerType.Size (t : ContainerType) (v : Value) : Res Nat := do
  let fieldValues ← t.GetFieldValues v
  containerSizeLoop t.FieldTypes fieldValues 0

/-- The loop of `HashTreeRoot`, over the field descriptors. -/
def containerHashLoop (H : Chunk → Chunk → Chunk) : List SSZType → List Value → List Chunk →
    Res (List Chunk)
  | [], _, chunks => .ok chunks
  | _ :: _, [], _ => .panic
  | ft :: fts, e :: rest, chunks => do
    let chunk ← ft.HashTreeRoot H e
    containerHashLoop H fts rest (chunks ++ [chunk])

def ContainerType.HashTreeRoot (t : ContainerType) (H : Chunk → Chunk → Chunk) (v : Value) :
    Res Chunk := do
  let fieldValues ← t.GetFieldValues v
  let chunks ← containerHashLoop H t.FieldTypes fieldValues []
  pure (Merkleize H chunks chunks.length)

/-- The loop of `SerializeTo`; `fts` and `fvs` are the descriptors and values from index `i` on. -/
def containerSerializeLoop (t : ContainerType) (start : Nat) :
    List SSZType → List Value → Nat → Nat → Nat → Buf → Wr
  | [], _, _, _, _, b => .done b
  | _ :: _, [], _, _, _, _ => .panic
  | fieldType :: fts, fieldValue :: fvs, variableIx, fixedIx, variableIndex, b =>
    if !fieldType.IsVariableSize then
      match t.fixedFieldRanges[fixedIx]? with
      | none => .panic
      | some r =>
        match fieldType.SerializeTo fieldValue b (start + r.1) with
        | .done b1 => containerSerializeLoop t start fts fvs variableIx (fixedIx + 1) variableIndex b1
        | .fail err b1 => .fail err b1
        | .panic => .panic
    else
      match t.variableOffsets[variableIx]? with
      | none => .panic
      | some o =>
        match putUintAt 4 b (start + o) (toUint32 (variableIndex - start)) with
        | .ok b1 =>
          match fieldType.Size fieldValue with
          | .ok s =>
            match fieldType.SerializeTo fieldValue b1 variableIndex with
            | .done b2 =>
              containerSerializeLoop t start fts fvs (variableIx + 1) fixedIx (variableIndex + s) b2
            | .fail err b2 => .fail err b2
            | .panic => .panic
          | .error err => .fail err b1
          | .panic => .panic
        | _ => .panic

def ContainerType.SerializeTo (t : ContainerType) (v : Value) (b : Buf) (start : Nat) : Wr :=
  match t.GetFieldValues v with
  | .ok fieldValues =>
    containerSerializeLoop t start t.FieldTypes fieldValues 0 0 (start + t.fixedEnd) b
  | .error err => .fail err b
  | .panic => .panic

def ContainerType.Serialize (t : ContainerType) (v : Value) : Res Buf := do
  let s ← t.Size v
  (t.SerializeTo v (zeros s) 0).toRes

/-- The loop of `readOffsets`: slot `i` is at `o`, `prev` is `offsets[i-1]`. -/
def readOffsetsLoop (t : ContainerType) (b : Buf) (start : Nat) (size : Int) :
    List Nat → Nat → Nat → List Nat → Res (List Nat)
  | [], _, _, offsets => .ok offsets
  | o :: rest, i, prev, offsets => do
    let offset ← getUintAt 4 b (start + o)
    if (offset : Int) > size then .error .invalidOffset
    else if i = 0 ∧ offset ≠ t.fixedEnd then .error .invalidOffset
    else if i ≠ 0 ∧ offset < prev then .error .invalidOffset
    else readOffsetsLoop t b start size rest (i + 1) offset (offsets ++ [offset])

/-- Function `readOffsets`. -/
def readOffsets (t : ContainerType) (b : Buf) (start end_ : Nat) : Res (List Nat) := do
  let size : Int := (end_ : Int) - start
  let offsets ← readOffsetsLoop t b start size t.variableOffsets 0 0 []
  pure (offsets ++ [size.toNat])

/-- The loop of `DeserializeFrom` over the fields. -/
def containerDeserializeLoop (t : ContainerType) (b : Buf) (start : Nat) (offsets : List Nat) :
    List SSZType → Nat → Nat → List Value → Res (List Value)
  | [], _, _, fieldValues => .ok fieldValues
  | ft :: fts, variableIx, fixedIx, fieldValues =>
    if !ft.IsVariableSize then
      match t.fixedFieldRanges[fixedIx]? with
      | none => .panic
      | some r => do
        let fieldValue ← ft.DeserializeFrom b (start + r.1) (start + r.2)
        containerDeserializeLoop t b start offsets fts variableIx (fixedIx + 1)
          (fieldValues ++ [fieldValue])
    else
      match offsets[variableIx]?, offsets[variableIx + 1]? with
      | some r0, some r1 => do
        let fieldValue ← ft.DeserializeFrom b (start + r0) (start + r1)
        containerDeserializeLoop t b start offsets fts (variableIx + 1) fixedIx
          (fieldValues ++ [fieldValue])
      | _, _ => .panic

def ContainerType.DeserializeFrom (t : ContainerType) (b : Buf) (start end_ : Nat) : Res Value :=
  if !t.IsVariableSize ∧ (end_ : Int) - start ≠ (t.fixedEnd : Int) then .error .lengthMismatch
  else do
    let offsets ← readOffsets t b start end_
    let fieldValues ← containerDeserializeLoop t b start offsets t.FieldTypes 0 0 []
    t.SetFieldValues fieldValues

def ContainerType.Deserialize (t : ContainerType) (b : Buf) : Res Value :=
  t.DeserializeFrom b 0 b.length

def ContainerType.toSSZType (t : ContainerType) : SSZType :=
  { Kind := .container
    Default := t.Default
    Zero := .struct t.typ (t.FieldTypes.map (fun ft => ft.Zero))
    IsVariableSize := t.IsVariableSize
    FixedSize := t.FixedSize
    Size := t.Size
    HashTreeRoot := t.HashTreeRoot
    SerializeTo := t.SerializeTo
    Serialize := t.Serialize
    DeserializeFrom := t.DeserializeFrom
    Deserialize := t.Deserialize }

/-- Constructor `Container(fields, typ)`. -/
def Container (fields : List Field) (typ : String) : SSZType :=
  (ContainerType.make fields typ).toSSZType

/-! ## Descriptors of the test suite (spec_generic_test.go) -/

def VarTestFields : List Field :=
  [⟨"A", Uint 16⟩, ⟨"B", SszList (Uint 16) 1024⟩, ⟨"C", Uint 8⟩]

def VarTestStruct : SSZType := Container VarTestFields "VarTestStruct"

/-- The value `{A = 0xAABB, B = [0x1111, 0x2222], C = 0x77}` of `VarTestStruct`. -/
def VarTestValue : List Value :=
  [.uint .u16 0xAABB, .slice [.uint .u16 0x1111, .uint .u16 0x2222], .uint .u8 0x77]

/-! ## Vocabulary of the specification -/

/-- Bit `i` of a packed byte string: `data[i/8] & (1 << (i%8))`. -/
def bitAt (data : List Nat) (i : Nat) : Bool := (data.getD (i / 8) 0).testBit (i % 8)

/-- A well-formed bit array: exactly `ceil(Bitlen/8)` data bytes and no bit set at an index
`>= Bitlen`. -/
def BitArray.WellFormed (ba : BitArray) : Prop :=
  ba.Data.length = (ba.Bitlen + 7) / 8 ∧ IsBytes ba.Data ∧ ∀ i, ba.Bitlen ≤ i → bitAt ba.Data i = false

/-- Byte string `data` with bit `i` cleared (unchanged when byte `i/8` does not exist). -/
def clearBit (data : List Nat) (i : Nat) : List Nat :=
  data.set (i / 8) (data.getD (i / 8) 0 &&& (255 - 2 ^ (i % 8)))

/-- Root of the perfect binary hash tree of depth `d` over `2^d` leaves: a leaf is its own
root, an interior node is `H(left, right)`. -/
def treeRoot (H : Chunk → Chunk → Chunk) : Nat → List Chunk → Chunk
  | 0, leaves => leaves.headD (zeros 32)
  | d + 1, leaves =>
    H (treeRoot H d (leaves.take (2 ^ d))) (treeRoot H d (leaves.drop (2 ^ d)))

/-- The chunks followed by copies of `z` up to `2^d` leaves. -/
def padTo (z : Chunk) (d : Nat) (chunks : List Chunk) : List Chunk :=
  chunks ++ List.replicate (2 ^ d - chunks.length) z

/-- Descriptor `t` writes value `x` as the byte string `enc`, wherever in a buffer the bytes
reserved for it are: `Size` reports `len(enc)` and `SerializeTo` replaces the reserved zero
bytes by `enc`. -/
structure Encodes (t : SSZType) (x : Value) (enc : List Nat) : Prop where
  size : t.Size x = .ok enc.length
  fixed : t.IsVariableSize = false → enc.length = t.FixedSize
  ser : ∀ pre post, t.SerializeTo x (pre ++ zeros enc.length ++ post) pre.length
    = .done (pre ++ enc ++ post)

/-- Descriptor `t` reads the byte string `enc` back as `x`, wherever in a buffer it lies. -/
def Decodes (t : SSZType) (enc : List Nat) (x : Value) : Prop :=
  ∀ pre post, t.DeserializeFrom (pre ++ enc ++ post) pre.length (pre.length + enc.length) = .ok x

/-- Field by field: the descriptors, the field values and their encodings. -/
inductive FieldsEncode : List SSZType → List Value → List (List Nat) → Prop where
  | nil : FieldsEncode [] [] []
  | cons {ft : SSZType} {x : Value} {enc : List Nat} {fts : List SSZType} {xs : List Value}
      {encs : List (List Nat)} :
      Encodes ft x enc → FieldsEncode fts xs encs → FieldsEncode (ft :: fts) (x :: xs) (enc :: encs)

/-- Field by field: every encoding is read back as the field value. -/
inductive FieldsDecode : List SSZType → List (List Nat) → List Value → Prop where
  | nil : FieldsDecode [] [] []
  | cons {ft : SSZType} {x : Value} {enc : List Nat} {fts : List SSZType} {xs : List Value}
      {encs : List (List Nat)} :
      Decodes ft enc x → FieldsDecode fts encs xs → FieldsDecode (ft :: fts) (enc :: encs) (x :: xs)

/-- Byte length `F` of the fixed region: `FixedSize()` per fixed-size field, 4 per offset slot. -/
def fixedLen : List SSZType → Nat
  | [] => 0
  | ft :: fts => (if ft.IsVariableSize then 4 else ft.FixedSize) + fixedLen fts

/-- The fixed region: in field order, the encoding of a fixed-size field or the 4-byte
little-endian offset `voff` of the payload of a variable-size field. -/
def layoutFixed : List SSZType → List (List Nat) → Nat → List Nat
  | ft :: fts, enc :: encs, voff =>
    if ft.IsVariableSize then leBytes 4 voff ++ layoutFixed fts encs (voff + enc.length)
    else enc ++ layoutFixed fts encs voff
  | _, _, _ => []

/-- The variable region: the payloads of the variable-size fields, in field order. -/
def layoutVar : List SSZType → List (List Nat) → List Nat
  | ft :: fts, enc :: encs =>
    if ft.IsVariableSize then enc ++ layoutVar fts encs else layoutVar fts encs
  | _, _ => []

/-- Sum of the sizes of the variable-size fields. -/
def varSizeSum : List SSZType → List (List Nat) → Nat
  | ft :: fts, enc :: encs =>
    (if ft.IsVariableSize then enc.length else 0) + varSizeSum fts encs
  | _, _ => 0

/-- Entries of `fixedFieldRanges` for the fields from offset `off` on. -/
def rangesFrom : List SSZType → Nat → List (Nat × Nat)
  | [], _ => []
  | ft :: fts, off =>
    if ft.IsVariableSize then rangesFrom fts (off + 4)
    else (off, off + ft.FixedSize) :: rangesFrom fts (off + ft.FixedSize)

/-- Entries of `variableOffsets` for the fields from offset `off` on. -/
def slotsFrom : List SSZType → Nat → List Nat
  | [], _ => []
  | ft :: fts, off =>
    if ft.IsVariableSize then off :: slotsFrom fts (off + 4)
    else slotsFrom fts (off + ft.FixedSize)

/-- The Go type of the values `Uint(w).Deserialize` returns. -/
def uintKind (w : Nat) : UKind :=
  if w = 8 then .u8 else if w = 16 then .u16 else if w = 32 then .u32 else .u64

/-- The valid values of the basic descriptors (`Bool`, `Uint(8/16/32/64)`) with their encodings:
a `bool`, or an unsigned integer of the descriptor's width. -/
inductive BasicValue : SSZType → Value → List Nat → Prop where
  | bool (b : Bool) : BasicValue SszBool (.bool b) [if b then 1 else 0]
  | uint (w n : Nat) (hw : w = 8 ∨ w = 16 ∨ w = 32 ∨ w = 64) (hn : n < 2 ^ w) :
      BasicValue (Uint w) (.uint (uintKind w) n) (leBytes (w / 8) n)

/-- Starts of the payloads of the variable-size fields, the first one being at `voff`. -/
def varStarts : List SSZType → List (List Nat) → Nat → List Nat
  | ft :: fts, enc :: encs, voff =>
    if ft.IsVariableSize then voff :: varStarts fts encs (voff + enc.length)
    else varStarts fts encs voff
  | _, _, _ => []

/-- A container with two variable-size fields (two byte lists of limit 4). -/
def TwoListsFields : List Field := [⟨"A", ByteList 4⟩, ⟨"B", ByteList 4⟩]

/-- A stand-in for the hash of two chunks whose value does not depend on the chunks; it is only
used to evaluate roots at concrete inputs. -/
def constHash : Chunk → Chunk → Chunk := fun _ _ => [1]

/-- Elements `i`, `i+1`, ... (`n` of them) of a sequence of fixed-size elements, each read by
the element decoder from the bytes `[j*s, (j+1)*s)` of `b`; the first failure ends the read. -/
def decodeRange (elem : SSZType) (b : Buf) (s : Nat) : Nat → Nat → Res (List Value)
  | 0, _ => .ok []
  | n + 1, i => do
    let e ← elem.DeserializeFrom b (i * s) ((i + 1) * s)
    let rest ← decodeRange elem b s n (i + 1)
    pure (e :: rest)

/-- The buffer a write leaves behind has `n` bytes. -/
def Wr.HasLength (n : Nat) : Wr → Prop
  | .done b => b.length = n
  | .fail _ b => b.length = n
  | .panic => True

/-- The descriptors the constructors of the package build, for any argument. -/
inductive Descriptor : SSZType → Prop where
  | bool : Descriptor SszBool
  | uint (w : Nat) : Descriptor (Uint w)
  | bitVector (L : Nat) : Descriptor (BitVector L)
  | bitList (L : Nat) : Descriptor (BitList L)
  | byteVector (L : Nat) : Descriptor (ByteVector L)
  | byteList (L : Nat) : Descriptor (ByteList L)
  | vector (E : SSZType) (N : Nat) : Descriptor E → Descriptor (Vector E N)
  | list (E : SSZType) (L : Nat) : Descriptor E → Descriptor (SszList E L)
  | container (fields : List Field) (typ : String) :
      (∀ f ∈ fields, Descriptor f.V) → Descriptor (Container fields typ)

/-- `Serialize` writes into a new buffer of `Size(v)` zero bytes, and `SerializeTo` keeps the
length of the buffer it writes into. -/
structure Sized (t : SSZType) : Prop where
  serialize_eq : ∀ v, t.Serialize v
    = (t.Size v >>= fun n => (t.SerializeTo v (zeros n) 0).toRes)
  ser_length : ∀ v b s, (t.SerializeTo v b s).HasLength b.length

/-- The offsets of a sequence of variable-size elements: the first is `off`, each further one
is the one before it plus the length of the encoding before it. -/
def seqOffsets : List (List Nat) → Nat → List Nat
  | [], _ => []
  | enc :: encs, off => off :: seqOffsets encs (off + enc.length)

/-- The offset table of a sequence: the offsets as 4-byte little-endian slots, in order. -/
def seqTable : List (List Nat) → Nat → List Nat
  | [], _ => []
  | enc :: encs, off => leBytes 4 off ++ seqTable encs (off + enc.length)

/-- The encodings of the variable-size fields (the payloads), in field order. -/
def varEncs : List SSZType → List (List Nat) → List (List Nat)
  | ft :: fts, enc :: encs =>
    if ft.IsVariableSize then enc :: varEncs fts encs else varEncs fts encs
  | _, _ => []

/-! ## Basic facts about outcomes and buffers -/

@[simp] theorem Res.ok_bind {α β : Type} (a : α) (f : α → Res β) : (Res.ok a >>= f) = f a := rfl

@[simp] theorem Res.error_bind {α β : Type} (e : Err) (f : α → Res β) :
    ((Res.error e : Res α) >>= f) = Res.error e := rfl

@[simp] theorem Res.panic_bind {α β : Type} (f : α → Res β) :
    ((Res.panic : Res α) >>= f) = Res.panic := rfl

@[simp] theorem Res.pure_eq {α : Type} (a : α) : (pure a : Res α) = Res.ok a := rfl

theorem Res.bind_eq_ok {α β : Type} {r : Res α} {f : α → Res β} {y : β}
    (h : (r >>= f) = Res.ok y) : ∃ a, r = Res.ok a ∧ f a = Res.ok y := by
  cases r with
  | ok a => exact ⟨a, rfl, h⟩
  | error e => exact absurd h (by simp)
  | panic => exact absurd h (by simp)

@[simp] theorem Wr.ofRes_ok (b : Buf) : Wr.ofRes (.ok b) = .done b := rfl

@[simp] theorem Wr.ofRes_panic : Wr.ofRes .panic = .panic := rfl

@[simp] theorem Wr.toRes_done (b : Buf) : (Wr.done b).toRes = .ok b := rfl

@[simp] theorem zeros_length (n : Nat) : (zeros n).length = n := by simp [zeros]

theorem overwrite_length (b : Buf) (pos : Nat) (src : List Nat) (h : pos + src.length ≤ b.length) :
    (overwrite b pos src).length = b.length := by
  simp [overwrite]; omega

theorem copyFresh_of_length (n : Nat) (src : List Nat) (h : src.length = n) :
    copyFresh n src = src := by
  subst h
  simp [copyFresh, copyAt, overwrite, zeros]

theorem sliceBuf_full (b : Buf) : sliceBuf b 0 b.length = .ok b := by
  simp [sliceBuf]

theorem index_append_singleton (init : List Nat) (x : Nat) :
    index (init ++ [x]) init.length = .ok x := by
  simp [index]

/-! ## Facts about single bytes, checked on all 256 values -/

set_option maxRecDepth 1000000 in
theorem byte_extraneous : ∀ x < 256, ∀ r < 8,
    (0 < r ∧ r + LeadingZeros8 x < 8) ↔ (0 < r ∧ ∃ j < 8, r ≤ j ∧ x.testBit j = true) := by
  decide

set_option maxRecDepth 1000000 in
theorem byte_lz_or : ∀ r < 8, ∀ x < 2 ^ r, LeadingZeros8 (x ||| 1 <<< r) = 7 - r
    ∧ (x ||| 1 <<< r) &&& (255 >>> (7 - r + 1)) = x ∧ (x ||| 1 <<< r) < 256
    ∧ (x ||| 1 <<< r) ≠ 0 := by
  decide

set_option maxRecDepth 1000000 in
theorem byte_lz : ∀ x < 256, x ≠ 0 → LeadingZeros8 x < 8 ∧
    x &&& (255 >>> (LeadingZeros8 x + 1)) = x &&& (255 - 2 ^ (7 - LeadingZeros8 x)) := by
  decide

theorem LeadingZeros8_zero : LeadingZeros8 0 = 8 := by decide

theorem getLast_lt_of_isBytes {b : List Nat} (hb : IsBytes b) (hne : b ≠ []) :
    b.getLast hne < 256 := hb _ (List.getLast_mem hne)

theorem toUint64_natCast (n : Nat) : toUint64 (n : Int) = n := by
  simp [toUint64]

/-- Explicit form of the decoding of a bit list whose last byte is `x`. -/
theorem BitList_Deserialize_snoc (L : Nat) (init : List Nat) (x : Nat) (hx : x < 256) :
    BitListType.Deserialize L (init ++ [x]) =
      if x = 0 then .error .lastByteZero
      else if 8 * init.length + (7 - LeadingZeros8 x) > L then .error .lengthExceedsLimit
      else .ok (.bitArray
        { Data := if LeadingZeros8 x = 7 then init
                  else init ++ [x &&& (255 >>> (LeadingZeros8 x + 1))]
          Bitlen := 8 * init.length + (7 - LeadingZeros8 x) }) := by
  unfold BitListType.Deserialize BitListType.DeserializeFrom
  have hlen : (init ++ [x]).length = init.length + 1 := by simp
  simp only [hlen, Nat.add_sub_cancel, index_append_singleton, Res.ok_bind]
  by_cases hx0 : x = 0
  · subst hx0
    simp [LeadingZeros8_zero]
  · have hz := (byte_lz x hx hx0).1
    have hbl : toUint64 ((((init.length + 1 : Nat) : Int) - ((0 : Nat) : Int)) * 8 - (LeadingZeros8 x : Int) - 1)
        = 8 * init.length + (7 - LeadingZeros8 x) := by
      have : (((init.length + 1 : Nat) : Int) - ((0 : Nat) : Int)) * 8 - (LeadingZeros8 x : Int) - 1
          = ((8 * init.length + (7 - LeadingZeros8 x) : Nat) : Int) := by
        omega
      rw [this, toUint64_natCast]
    simp only [Nat.add_one_ne_zero, ↓reduceIte, Nat.ne_of_lt hz, hx0, hbl]
    by_cases hL : 8 * init.length + (7 - LeadingZeros8 x) > L
    · simp [hL]
    · simp only [hL, ↓reduceIte]
      by_cases h7 : LeadingZeros8 x = 7
      · have h8 : (8 * init.length + (7 - LeadingZeros8 x)) % 8 = 0 := by omega
        have hn : (8 * init.length + (7 - LeadingZeros8 x) + 7) / 8 = init.length := by omega
        have hs : sliceBuf (init ++ [x]) 0 init.length = .ok init := by
          simp [sliceBuf]
        simp only [h8, ↓reduceIte, hn, hs, Res.ok_bind, copyFresh_of_length _ _ rfl, Res.pure_eq]
        simp [h7]
      · have h8 : (8 * init.length + (7 - LeadingZeros8 x)) % 8 ≠ 0 := by omega
        have hn : (8 * init.length + (7 - LeadingZeros8 x) + 7) / 8 = init.length + 1 := by omega
        have hs : sliceBuf (init ++ [x]) 0 (init.length + 1) = .ok (init ++ [x]) := by
          simp [sliceBuf]
        simp only [h8, ↓reduceIte, hn, hs, Res.ok_bind, copyFresh_of_length _ _ hlen,
          Nat.add_one_ne_zero, Nat.add_sub_cancel, index_append_singleton]
        simp [setByte, overwrite, h7]


theorem clearBit_snoc_last (init : List Nat) (x i : Nat) (hi : i / 8 = init.length) :
    clearBit (init ++ [x]) i = init ++ [x &&& (255 - 2 ^ (i % 8))] := by
  unfold clearBit
  rw [hi]
  simp [List.getD_eq_getElem?_getD]

theorem clearBit_of_le (d : List Nat) (i : Nat) (hi : d.length ≤ i / 8) : clearBit d i = d := by
  unfold clearBit
  exact List.set_eq_of_length_le hi

theorem C5_aux (L : Nat) (init : List Nat) (x : Nat) (hx : x < 256) :
    (((BitList L).Deserialize (init ++ [x])).isError = true ↔
      (x = 0 ∨ 8 * (init ++ [x]).length - LeadingZeros8 x - 1 > L)) ∧
    (¬ (x = 0 ∨ 8 * (init ++ [x]).length - LeadingZeros8 x - 1 > L) →
      (BitList L).Deserialize (init ++ [x]) = .ok (.bitArray
        { Data := clearBit ((init ++ [x]).take
            ((8 * (init ++ [x]).length - LeadingZeros8 x - 1 + 7) / 8))
            (8 * (init ++ [x]).length - LeadingZeros8 x - 1)
          Bitlen := 8 * (init ++ [x]).length - LeadingZeros8 x - 1 })) := by
  have hD : (BitList L).Deserialize (init ++ [x]) = BitListType.Deserialize L (init ++ [x]) := rfl
  rw [hD, BitList_Deserialize_snoc L init x hx]
  have hlen : (init ++ [x]).length = init.length + 1 := by simp
  rw [hlen]
  by_cases hx0 : x = 0
  · simp [hx0, Res.isError]
  · have hz := (byte_lz x hx hx0).1
    have hm := (byte_lz x hx hx0).2
    have hB : 8 * (init.length + 1) - LeadingZeros8 x - 1 = 8 * init.length + (7 - LeadingZeros8 x) := by
      omega
    rw [hB]
    by_cases hL : 8 * init.length + (7 - LeadingZeros8 x) > L
    · simp [hx0, hL, Res.isError]
    · simp only [hx0, hL, ↓reduceIte, Res.isError, false_or, not_false_eq_true, true_implies]
      refine ⟨by simp, ?_⟩
      by_cases h7 : LeadingZeros8 x = 7
      · have hn : (8 * init.length + (7 - LeadingZeros8 x) + 7) / 8 = init.length := by omega
        rw [hn]
        simp only [h7, ↓reduceIte, List.take_left']
        rw [clearBit_of_le]
        omega
      · have hn : (8 * init.length + (7 - LeadingZeros8 x) + 7) / 8 = init.length + 1 := by omega
        rw [hn]
        have ht : (init ++ [x]).take (init.length + 1) = init ++ [x] := by
          apply List.take_of_length_le; simp
        rw [ht, clearBit_snoc_last _ _ _ (by omega)]
        have hr : (8 * init.length + (7 - LeadingZeros8 x)) % 8 = 7 - LeadingZeros8 x := by omega
        rw [hr, ← hm]
        simp [h7]

/-- **C5.** BitList decode of a non-empty byte string `b`: with `z` the number of leading zero
bits of the final byte and `B = 8*len(b) - z - 1`, `Deserialize` returns an error exactly when
the final byte is `0x00` or `B > L`; otherwise it returns the bit array of bit length `B` whose
data is the first `ceil(B/8)` bytes of `b` with the delimiter bit (bit `B`) cleared. -/
theorem C5_bitlist_decode (L : Nat) (b : List Nat) (hne : b ≠ []) (hb : IsBytes b) :
    (((BitList L).Deserialize b).isError = true ↔
      (b.getLast hne = 0 ∨ 8 * b.length - LeadingZeros8 (b.getLast hne) - 1 > L)) ∧
    (¬ (b.getLast hne = 0 ∨ 8 * b.length - LeadingZeros8 (b.getLast hne) - 1 > L) →
      (BitList L).Deserialize b = .ok (.bitArray
        { Data := clearBit (b.take ((8 * b.length - LeadingZeros8 (b.getLast hne) - 1 + 7) / 8))
            (8 * b.length - LeadingZeros8 (b.getLast hne) - 1)
          Bitlen := 8 * b.length - LeadingZeros8 (b.getLast hne) - 1 })) := by
  have hx := getLast_lt_of_isBytes hb hne
  have h := C5_aux L b.dropLast (b.getLast hne) hx
  rw [List.dropLast_append_getLast hne] at h
  exact h

/-- Witness for C5: with `L = 5` the single byte `0x20` decodes to the 5-bit array of zeros. -/
theorem C5_bitlist_decode_witness :
    ([0x20] ≠ [] ∧ IsBytes [0x20]) ∧
    (BitList 5).Deserialize [0x20] = .ok (.bitArray { Data := [0], Bitlen := 5 }) :=
  ⟨⟨by decide, by decide⟩,
   ((C5_bitlist_decode 5 [0x20] (by decide) (by decide)).2 (by decide)).trans (by rfl)⟩

theorem BitList_Serialize_aligned (L : Nat) (d : List Nat) (B : Nat)
    (hlen : d.length = B / 8) (h8 : B % 8 = 0) (hB : B ≤ L) :
    BitListType.Serialize L (.bitArray { Data := d, Bitlen := B }) = .ok (d ++ [1]) := by
  have hs : (B + 7) / 8 = d.length := by omega
  have hn : (B + 8) / 8 = d.length + 1 := by omega
  simp only [BitListType.Serialize, BitListType.Size, Res.ok_bind, BitListType.SerializeTo,
    Nat.not_lt.mpr hB, ↓reduceIte, hs, hn, zeros_length, Nat.zero_add, h8]
  simp [copyAt, overwrite, zeros, setByte, Wr.toRes, List.replicate_succ]

theorem BitList_Serialize_unaligned (L : Nat) (init : List Nat) (x B : Nat)
    (hlen : init.length = B / 8) (h8 : B % 8 ≠ 0) (hB : B ≤ L) :
    BitListType.Serialize L (.bitArray { Data := init ++ [x], Bitlen := B })
      = .ok (init ++ [x ||| 1 <<< (B % 8)]) := by
  have hs : (B + 7) / 8 = init.length + 1 := by omega
  have hn : (B + 8) / 8 = init.length + 1 := by omega
  simp only [BitListType.Serialize, BitListType.Size, Res.ok_bind, BitListType.SerializeTo,
    Nat.not_lt.mpr hB, ↓reduceIte, hs, hn, zeros_length, Nat.zero_add, h8, Nat.le_refl]
  have hc : copyAt (zeros (init.length + 1)) 0 (init.length + 1) (init ++ [x]) = init ++ [x] := by
    simp [copyAt, overwrite, zeros]
  simp only [hc, Nat.add_sub_cancel, index_append_singleton]
  simp [setByte, overwrite, Wr.toRes]


theorem bitAt_append_left (l1 l2 : List Nat) (i : Nat) (h : i / 8 < l1.length) :
    bitAt (l1 ++ l2) i = bitAt l1 i := by
  simp [bitAt, List.getD_eq_getElem?_getD, List.getElem?_append_left h]

theorem bitAt_snoc_last (init : List Nat) (x i : Nat) (h : i / 8 = init.length) :
    bitAt (init ++ [x]) i = x.testBit (i % 8) := by
  simp [bitAt, List.getD_eq_getElem?_getD, h]

theorem bitAt_of_le (d : List Nat) (i : Nat) (h : d.length ≤ i / 8) : bitAt d i = false := by
  simp [bitAt, List.getD_eq_getElem?_getD, List.getElem?_eq_none h]

theorem isBytes_append {l1 l2 : List Nat} : IsBytes (l1 ++ l2) ↔ IsBytes l1 ∧ IsBytes l2 := by
  simp [IsBytes, or_imp, forall_and]

theorem testBit_one (j : Nat) : Nat.testBit 1 j = decide (j = 0) := by
  have := @Nat.testBit_two_pow 0 j
  simpa [eq_comm] using this

/-- A well-formed bit array whose length is not a multiple of 8 ends in a byte below `2^(B%8)`. -/
theorem wellFormed_snoc {v : BitArray} (hv : v.WellFormed) (h8 : v.Bitlen % 8 ≠ 0) :
    ∃ init x, v.Data = init ++ [x] ∧ init.length = v.Bitlen / 8 ∧ x < 2 ^ (v.Bitlen % 8)
      ∧ IsBytes init := by
  obtain ⟨hlen, hb, hbits⟩ := hv
  have hne : v.Data ≠ [] := by
    intro h; rw [h] at hlen; simp at hlen; omega
  refine ⟨v.Data.dropLast, v.Data.getLast hne, (List.dropLast_append_getLast hne).symm, ?_, ?_, ?_⟩
  · simp [hlen]; omega
  · have hx := getLast_lt_of_isBytes hb hne
    apply Nat.lt_pow_two_of_testBit
    intro j hj
    by_cases hj8 : j < 8
    · have h := hbits (8 * (v.Bitlen / 8) + j) (by omega)
      rw [← List.dropLast_append_getLast hne,
        bitAt_snoc_last _ _ _ (by simp [hlen]; omega)] at h
      have : (8 * (v.Bitlen / 8) + j) % 8 = j := by omega
      rwa [this] at h
    · apply Nat.testBit_lt_two_pow
      calc v.Data.getLast hne < 2 ^ 8 := hx
        _ ≤ 2 ^ j := Nat.pow_le_pow_right (by decide) (by omega)
  · intro y hy
    exact hb y (List.mem_of_mem_dropLast hy)

/-- **C6.** BitList encode and delimiter invariant: for a well-formed bit array `v` with bit
length `B <= L`, `Serialize(v)` has `floor(B/8)+1` bytes, bit `i` of the output is bit `i` of
`v` for every `i < B`, bit `B` (the delimiter) is set, no bit above `B` is set, and when
`B % 8 = 0` the delimiter is a fresh trailing `0x01` byte. -/
theorem C6_bitlist_encode (L : Nat) (v : BitArray) (hv : v.WellFormed) (hB : v.Bitlen ≤ L) :
    ∃ out, (BitList L).Serialize (.bitArray v) = .ok out ∧
      out.length = v.Bitlen / 8 + 1 ∧ IsBytes out ∧
      (∀ i, i < v.Bitlen → bitAt out i = bitAt v.Data i) ∧
      bitAt out v.Bitlen = true ∧
      (∀ i, v.Bitlen < i → bitAt out i = false) ∧
      (v.Bitlen % 8 = 0 → out = v.Data ++ [1]) := by
  have hS : ∀ w, (BitList L).Serialize w = BitListType.Serialize L w := fun _ => rfl
  by_cases h8 : v.Bitlen % 8 = 0
  · obtain ⟨hlen, hb, hbits⟩ := hv
    have hl : v.Data.length = v.Bitlen / 8 := by omega
    refine ⟨v.Data ++ [1], ?_, ?_, ?_, ?_, ?_, ?_, fun _ => rfl⟩
    · rw [hS]; exact BitList_Serialize_aligned L v.Data v.Bitlen hl h8 hB
    · simp [hl]
    · exact isBytes_append.mpr ⟨hb, by decide⟩
    · intro i hi
      exact bitAt_append_left _ _ _ (by omega)
    · rw [bitAt_snoc_last _ _ _ hl.symm, h8]; decide
    · intro i hi
      by_cases hi8 : i / 8 = v.Data.length
      · rw [bitAt_snoc_last _ _ _ hi8, testBit_one]
        simp; omega
      · exact bitAt_of_le _ _ (by simp; omega)
  · obtain ⟨init, x, hd, hl, hx, hinit⟩ := wellFormed_snoc hv h8
    obtain ⟨hlen, hb, hbits⟩ := hv
    have hr : v.Bitlen % 8 < 8 := Nat.mod_lt _ (by decide)
    have hy := byte_lz_or _ hr x hx
    refine ⟨init ++ [x ||| 1 <<< (v.Bitlen % 8)], ?_, ?_, ?_, ?_, ?_, ?_, fun h => absurd h h8⟩
    · rw [hS]
      have := BitList_Serialize_unaligned L init x v.Bitlen hl h8 hB
      rw [← hd] at this
      exact this
    · simp [hl]
    · refine isBytes_append.mpr ⟨hinit, ?_⟩
      intro y hy'
      simp at hy'
      rw [hy']; exact hy.2.2.1
    · intro i hi
      rw [hd]
      by_cases hi8 : i / 8 < init.length
      · rw [bitAt_append_left _ _ _ hi8, bitAt_append_left _ _ _ hi8]
      · have hi8' : i / 8 = init.length := by omega
        rw [bitAt_snoc_last _ _ _ hi8', bitAt_snoc_last _ _ _ hi8', Nat.testBit_or,
          Nat.one_shiftLeft, Nat.testBit_two_pow]
        have : v.Bitlen % 8 ≠ i % 8 := by omega
        simp [this]
    · rw [bitAt_snoc_last _ _ _ hl.symm, Nat.testBit_or, Nat.one_shiftLeft, Nat.testBit_two_pow]
      simp
    · intro i hi
      by_cases hi8 : i / 8 = init.length
      · rw [bitAt_snoc_last _ _ _ hi8, Nat.testBit_or, Nat.one_shiftLeft, Nat.testBit_two_pow]
        have h1 : v.Bitlen % 8 ≠ i % 8 := by omega
        have h2 := hbits i (by omega)
        rw [hd, bitAt_snoc_last _ _ _ hi8] at h2
        simp [h1, h2]
      · exact bitAt_of_le _ _ (by simp; omega)

/-- Witness for C6: `BitList(4)` of `[true, false, true]` serializes to the single byte `0x0D`. -/
theorem C6_bitlist_encode_witness :
    (BitArray.WellFormed { Data := [5], Bitlen := 3 } ∧ 3 ≤ 4) ∧
    (BitList 4).Serialize (.bitArray { Data := [5], Bitlen := 3 }) = .ok [0x0D] ∧
    ∃ out, (BitList 4).Serialize (.bitArray { Data := [5], Bitlen := 3 }) = .ok out ∧
      out.length = 3 / 8 + 1 ∧ bitAt out 3 = true :=
  have hwf : BitArray.WellFormed { Data := [5], Bitlen := 3 } := by
    refine ⟨by decide, by decide, ?_⟩
    intro i hi
    by_cases h : i / 8 = 0
    · have h5 : ∀ j < 8, 3 ≤ j → Nat.testBit 5 j = false := by decide
      have := h5 (i % 8) (Nat.mod_lt _ (by decide)) (by simp only at hi; omega)
      simpa [bitAt, h] using this
    · exact bitAt_of_le _ _ (by simp; omega)
  ⟨⟨hwf, by decide⟩, by decide,
    match C6_bitlist_encode 4 { Data := [5], Bitlen := 3 } hwf (by decide) with
    | ⟨out, h1, h2, _, _, h5, _⟩ => ⟨out, h1, h2, h5⟩⟩

/-- **C8.** BitList round trip: for a well-formed bit array `v` with bit length `B <= L`
(`B = 0` included), `Deserialize(Serialize(v))` succeeds and returns a bit array with the bit
length and the data bytes of `v`. -/
theorem C8_bitlist_roundtrip (L : Nat) (v : BitArray) (hv : v.WellFormed) (hB : v.Bitlen ≤ L) :
    ∃ out, (BitList L).Serialize (.bitArray v) = .ok out ∧
      (BitList L).Deserialize out = .ok (.bitArray v) := by
  have hS : ∀ w, (BitList L).Serialize w = BitListType.Serialize L w := fun _ => rfl
  have hD : ∀ w, (BitList L).Deserialize w = BitListType.Deserialize L w := fun _ => rfl
  by_cases h8 : v.Bitlen % 8 = 0
  · obtain ⟨hlen, hb, hbits⟩ := hv
    have hl : v.Data.length = v.Bitlen / 8 := by omega
    refine ⟨v.Data ++ [1], ?_, ?_⟩
    · rw [hS]; exact BitList_Serialize_aligned L v.Data v.Bitlen hl h8 hB
    · rw [hD, BitList_Deserialize_snoc L v.Data 1 (by decide)]
      have h1 : LeadingZeros8 1 = 7 := by decide
      have hb' : 8 * v.Data.length + (7 - 7) = v.Bitlen := by omega
      simp only [h1, hb', Nat.not_lt.mpr hB, ↓reduceIte]
      simp
  · obtain ⟨init, x, hd, hl, hx, hinit⟩ := wellFormed_snoc hv h8
    have hr : v.Bitlen % 8 < 8 := Nat.mod_lt _ (by decide)
    obtain ⟨hz, hm, hlt, hne⟩ := byte_lz_or _ hr x hx
    refine ⟨init ++ [x ||| 1 <<< (v.Bitlen % 8)], ?_, ?_⟩
    · rw [hS]
      have := BitList_Serialize_unaligned L init x v.Bitlen hl h8 hB
      rw [← hd] at this
      exact this
    · rw [hD, BitList_Deserialize_snoc L init _ hlt]
      have hb' : 8 * init.length + (7 - (7 - v.Bitlen % 8)) = v.Bitlen := by omega
      have h7 : 7 - v.Bitlen % 8 ≠ 7 := by omega
      simp only [hne, hz, hb', Nat.not_lt.mpr hB, ↓reduceIte, h7, hm]
      rw [← hd]

/-- Witness for C8: the empty bit list and the 3-bit list `[true, false, true]` under limit 4. -/
theorem C8_bitlist_roundtrip_witness :
    (BitArray.WellFormed { Data := [], Bitlen := 0 } ∧ 0 ≤ 4) ∧
    (∃ out, (BitList 4).Serialize (.bitArray { Data := [], Bitlen := 0 }) = .ok out ∧
      (BitList 4).Deserialize out = .ok (.bitArray { Data := [], Bitlen := 0 })) ∧
    (BitList 4).Deserialize [0x0D] = .ok (.bitArray { Data := [5], Bitlen := 3 }) :=
  have hwf : BitArray.WellFormed { Data := [], Bitlen := 0 } :=
    ⟨by decide, by decide, fun i _ => bitAt_of_le _ _ (by simp)⟩
  ⟨⟨hwf, by decide⟩, C8_bitlist_roundtrip 4 { Data := [], Bitlen := 0 } hwf (by decide), by rfl⟩

theorem int_len_ne (a m : Nat) : (((a : Nat) : Int) - ((0 : Nat) : Int) ≠ (m : Int)) ↔ a ≠ m := by
  omega

theorem int_len_toNat (a : Nat) : (((a : Nat) : Int) - ((0 : Nat) : Int)).toNat = a := by
  omega

theorem BitVector_Deserialize_length (L : Nat) (b : List Nat) (h : b.length ≠ (L + 7) / 8) :
    BitVectorType.Deserialize L b = .error .lengthMismatch := by
  unfold BitVectorType.Deserialize BitVectorType.DeserializeFrom BitVectorType.FixedSize
  simp only [int_len_ne, h, ne_eq, not_false_eq_true, ↓reduceIte]

theorem BitVector_Deserialize_snoc (L : Nat) (init : List Nat) (x : Nat)
    (hlen : init.length + 1 = (L + 7) / 8) :
    BitVectorType.Deserialize L (init ++ [x]) =
      if 0 < L % 8 ∧ L % 8 + LeadingZeros8 x < 8 then .error .extraneousBits
      else .ok (.bitArray { Data := init ++ [x], Bitlen := L }) := by
  unfold BitVectorType.Deserialize BitVectorType.DeserializeFrom BitVectorType.FixedSize
  have hl : (init ++ [x]).length = init.length + 1 := by simp
  simp only [int_len_ne, int_len_toNat, hl, hlen, ne_eq, not_true_eq_false, ↓reduceIte]
  rw [← hlen]
  simp only [Nat.add_one_ne_zero, ↓reduceIte, Nat.add_sub_cancel, index_append_singleton,
    Res.ok_bind]
  by_cases hx : 0 < L % 8 ∧ L % 8 + LeadingZeros8 x < 8
  · simp [hx]
  · simp only [hx, ↓reduceIte, gt_iff_lt]
    rw [← hl, sliceBuf_full, Res.ok_bind, copyFresh_of_length _ _ rfl]
    rfl

theorem C7_aux (L : Nat) (init : List Nat) (x : Nat) (hx : x < 256)
    (hlen : init.length + 1 = (L + 7) / 8) :
    (0 < L % 8 ∧ L % 8 + LeadingZeros8 x < 8) ↔
      ¬ ∀ i, i < 8 * (init.length + 1) → L ≤ i → bitAt (init ++ [x]) i = false := by
  have hr : L % 8 < 8 := Nat.mod_lt _ (by decide)
  rw [byte_extraneous x hx _ hr]
  constructor
  · rintro ⟨h0, j, hj, hrj, hbit⟩ hall
    have h := hall (8 * init.length + j) (by omega) (by omega)
    rw [bitAt_snoc_last _ _ _ (by omega)] at h
    have : (8 * init.length + j) % 8 = j := by omega
    rw [this, hbit] at h
    exact absurd h (by decide)
  · intro hall
    by_contra hcon
    apply hall
    intro i hi hLi
    rw [bitAt_snoc_last _ _ _ (by omega)]
    by_contra hbit
    apply hcon
    refine ⟨by omega, i % 8, Nat.mod_lt _ (by decide), by omega, ?_⟩
    simpa using hbit

/-- **C7.** BitVector decode: for `L > 0`, `Deserialize(b)` succeeds exactly when
`len(b) = ceil(L/8)` and every bit of `b` at a bit index `>= L` (these lie in the last byte)
is zero; on success it returns the bit array with data `b` and bit length `L`. -/
theorem C7_bitvector_decode (L : Nat) (hL : 0 < L) (b : List Nat) (hb : IsBytes b) :
    (((BitVector L).Deserialize b).isOk = true ↔
      (b.length = (L + 7) / 8 ∧ ∀ i, i < 8 * b.length → L ≤ i → bitAt b i = false)) ∧
    (((BitVector L).Deserialize b).isOk = true →
      (BitVector L).Deserialize b = .ok (.bitArray { Data := b, Bitlen := L })) := by
  have hD : (BitVector L).Deserialize b = BitVectorType.Deserialize L b := rfl
  rw [hD]
  by_cases hlen : b.length = (L + 7) / 8
  · have hne : b ≠ [] := by
      intro h; rw [h] at hlen; simp at hlen; omega
    have hx := getLast_lt_of_isBytes hb hne
    have hb' := List.dropLast_append_getLast hne
    have hl : b.dropLast.length + 1 = (L + 7) / 8 := by
      rw [← hlen]; simp; omega
    have hl2 : b.length = b.dropLast.length + 1 := by omega
    have haux := C7_aux L b.dropLast (b.getLast hne) hx hl
    have hds := BitVector_Deserialize_snoc L b.dropLast (b.getLast hne) hl
    rw [hb'] at haux hds
    rw [hds, hl2]
    by_cases hc : 0 < L % 8 ∧ L % 8 + LeadingZeros8 (b.getLast hne) < 8
    · have := haux.mp hc
      simp only [hc, and_self, ↓reduceIte, Res.isOk, Bool.false_eq_true, false_iff, not_and,
        false_implies, and_true]
      exact fun _ => this
    · have := not_not.mp (mt haux.mpr hc)
      simp only [hc, ↓reduceIte, Res.isOk, true_iff, implies_true, and_true]
      exact ⟨hl, this⟩
  · rw [BitVector_Deserialize_length L b hlen]
    simp [Res.isOk, hlen]

/-- Witness for C7: for `BitVector(9)`, `FF 01` is accepted and `FF FF` is rejected. -/
theorem C7_bitvector_decode_witness :
    (0 < 9 ∧ IsBytes [0xFF, 0x01]) ∧
    (BitVector 9).Deserialize [0xFF, 0x01] = .ok (.bitArray { Data := [0xFF, 0x01], Bitlen := 9 }) ∧
    ((BitVector 9).Deserialize [0xFF, 0xFF]).isOk = false ∧
    ¬ ([0xFF, 0xFF].length = (9 + 7) / 8 ∧
        ∀ i, i < 8 * [0xFF, 0xFF].length → 9 ≤ i → bitAt [0xFF, 0xFF] i = false) :=
  ⟨⟨by decide, by decide⟩,
   (C7_bitvector_decode 9 (by decide) [0xFF, 0x01] (by decide)).2 (by decide),
   by decide,
   fun h => absurd ((C7_bitvector_decode 9 (by decide) [0xFF, 0xFF] (by decide)).1.mpr h) (by decide)⟩

theorem bitsLenAux_spec : ∀ (fuel x : Nat), x < 2 ^ fuel →
    x < 2 ^ bitsLenAux fuel x ∧ (bitsLenAux fuel x ≠ 0 → 2 ^ (bitsLenAux fuel x - 1) ≤ x) := by
  intro fuel
  induction fuel with
  | zero => intro x hx; simp at hx; subst hx; simp [bitsLenAux]
  | succ n ih =>
    intro x hx
    unfold bitsLenAux
    by_cases h0 : x = 0
    · simp [h0]
    · have hx2 : x / 2 < 2 ^ n := by
        rw [Nat.pow_succ] at hx; omega
      obtain ⟨h1, h2⟩ := ih (x / 2) hx2
      simp only [h0, ↓reduceIte, ne_eq, Nat.add_one_ne_zero, not_false_eq_true, Nat.add_sub_cancel,
        true_implies]
      constructor
      · rw [Nat.pow_succ]; omega
      · by_cases hb : bitsLenAux n (x / 2) = 0
        · rw [hb]; simp; omega
        · have := h2 hb
          have hp : 2 ^ bitsLenAux n (x / 2) = 2 ^ (bitsLenAux n (x / 2) - 1) * 2 := by
            rw [← Nat.pow_succ]; congr 1; omega
          omega

theorem HashChunks_length (H : Chunk → Chunk → Chunk) : ∀ (n : Nat) (l : List Chunk),
    l.length = n → (HashChunks H l).length = n / 2 := by
  intro n
  induction n using Nat.strong_induction_on with
  | _ n ih =>
    intro l hl
    match l, hl with
    | [], hl => simp at hl; subst hl; simp [HashChunks]
    | [a], hl => simp at hl; subst hl; simp [HashChunks]
    | a :: b :: rest, hl =>
      simp only [HashChunks, List.length_cons] at hl ⊢
      rw [ih rest.length (by omega) rest rfl]; omega

theorem HashChunks_append (H : Chunk → Chunk → Chunk) : ∀ (n : Nat) (l1 l2 : List Chunk),
    l1.length = 2 * n → HashChunks H (l1 ++ l2) = HashChunks H l1 ++ HashChunks H l2 := by
  intro n
  induction n with
  | zero => intro l1 l2 h; simp at h; subst h; simp [HashChunks]
  | succ n ih =>
    intro l1 l2 h
    match l1, h with
    | a :: b :: rest, h =>
      simp only [List.length_cons] at h
      have := ih rest l2 (by omega)
      simp [HashChunks, this]

theorem HashChunks_replicate (H : Chunk → Chunk → Chunk) (z : Chunk) : ∀ n : Nat,
    HashChunks H (List.replicate (2 * n) z) = List.replicate n (H z z) := by
  intro n
  induction n with
  | zero => simp [HashChunks]
  | succ n ih =>
    have : 2 * (n + 1) = (2 * n + 1) + 1 := by omega
    rw [this, List.replicate_succ, List.replicate_succ, HashChunks, ih, List.replicate_succ]

theorem HashChunks_take (H : Chunk → Chunk → Chunk) : ∀ (m : Nat) (l : List Chunk),
    (HashChunks H l).take m = HashChunks H (l.take (2 * m)) := by
  intro m
  induction m with
  | zero => intro l; simp [HashChunks]
  | succ m ih =>
    intro l
    match l with
    | [] => simp [HashChunks]
    | [a] => simp [HashChunks]
    | a :: b :: rest =>
      have : 2 * (m + 1) = (2 * m + 1) + 1 := by omega
      rw [this]
      simp only [HashChunks, List.take_succ_cons, ih]

theorem HashChunks_drop (H : Chunk → Chunk → Chunk) : ∀ (m : Nat) (l : List Chunk),
    l.length % 2 = 0 → (HashChunks H l).drop m = HashChunks H (l.drop (2 * m)) := by
  intro m
  induction m with
  | zero => intro l _; simp
  | succ m ih =>
    intro l hl
    match l, hl with
    | [], _ => simp [HashChunks]
    | [a], hl => simp at hl
    | a :: b :: rest, hl =>
      have : 2 * (m + 1) = (2 * m + 1) + 1 := by omega
      rw [this]
      simp only [HashChunks, List.drop_succ_cons]
      exact ih rest (by simp only [List.length_cons] at hl; omega)


/-- Hashing the leaves pairwise gives the leaves of the tree that is one level lower. -/
theorem treeRoot_succ_eq (H : Chunk → Chunk → Chunk) : ∀ (k : Nat) (ws : List Chunk),
    ws.length = 2 ^ (k + 1) → treeRoot H (k + 1) ws = treeRoot H k (HashChunks H ws) := by
  intro k
  induction k with
  | zero =>
    intro ws h
    match ws, h with
    | [a, b], _ => simp [treeRoot, HashChunks, List.take]
  | succ k ih =>
    intro ws h
    have hp : 2 ^ (k + 1 + 1) = 2 * 2 ^ (k + 1) := by rw [Nat.pow_succ]; omega
    have h1 : (ws.take (2 ^ (k + 1))).length = 2 ^ (k + 1) := by
      rw [List.length_take]; omega
    have h2 : (ws.drop (2 ^ (k + 1))).length = 2 ^ (k + 1) := by
      rw [List.length_drop]; omega
    have hk : 2 ^ (k + 1) = 2 * 2 ^ k := by rw [Nat.pow_succ]; omega
    rw [treeRoot, ih _ h1, ih _ h2]
    conv_rhs => rw [treeRoot]
    rw [HashChunks_take, HashChunks_drop _ _ _ (by omega), ← hk]

theorem HashChunks_padTo (H : Chunk → Chunk → Chunk) (z : Chunk) (k : Nat) (ys : List Chunk)
    (h : ys.length ≤ 2 ^ (k + 1)) :
    HashChunks H (padTo z (k + 1) ys) =
      padTo (H z z) k (HashChunks H (if ys.length % 2 = 1 then ys ++ [z] else ys)) := by
  have hp : 2 ^ (k + 1) = 2 * 2 ^ k := by rw [Nat.pow_succ]; omega
  unfold padTo
  by_cases hodd : ys.length % 2 = 1
  · simp only [hodd, ↓reduceIte]
    have hlen : (ys ++ [z]).length = 2 * ((ys.length + 1) / 2) := by simp; omega
    have hrep : List.replicate (2 ^ (k + 1) - ys.length) z
        = [z] ++ List.replicate (2 * (2 ^ k - (ys.length + 1) / 2)) z := by
      have : 2 ^ (k + 1) - ys.length = (2 * (2 ^ k - (ys.length + 1) / 2)) + 1 := by omega
      rw [this, List.replicate_succ]; rfl
    rw [hrep, ← List.append_assoc, HashChunks_append H _ _ _ hlen, HashChunks_replicate,
      HashChunks_length H _ _ hlen]
    congr 2
    omega
  · simp only [hodd, ↓reduceIte]
    have hlen : ys.length = 2 * (ys.length / 2) := by omega
    have hrep : 2 ^ (k + 1) - ys.length = 2 * (2 ^ k - ys.length / 2) := by omega
    rw [hrep, HashChunks_append H _ _ _ hlen, HashChunks_replicate, HashChunks_length H _ _ rfl]

theorem padTo_length (z : Chunk) (d : Nat) (ys : List Chunk) (h : ys.length ≤ 2 ^ d) :
    (padTo z d ys).length = 2 ^ d := by
  simp [padTo]; omega

/-- The loop of `Merkleize` computes the root of the tree padded with the zero hash of the
current layer. -/
theorem MerkleizeLoop_eq (H : Chunk → Chunk → Chunk) : ∀ (k i : Nat) (ys : List Chunk),
    1 ≤ ys.length → ys.length ≤ 2 ^ k →
    (MerkleizeLoop H k i ys).headD (zeros 32) = treeRoot H k (padTo (ZeroHash H i) k ys) := by
  intro k
  induction k with
  | zero =>
    intro i ys h1 h2
    simp only [pow_zero] at h2
    have : ys.length = 1 := by omega
    simp [MerkleizeLoop, treeRoot, padTo, this]
  | succ k ih =>
    intro i ys h1 h2
    have hp : 2 ^ (k + 1) = 2 * 2 ^ k := by rw [Nat.pow_succ]; omega
    rw [MerkleizeLoop, treeRoot_succ_eq H k _ (padTo_length _ _ _ h2), HashChunks_padTo H _ _ _ h2]
    have hl : (HashChunks H (if ys.length % 2 = 1 then ys ++ [ZeroHash H i] else ys)).length
        = (ys.length + 1) / 2 := by
      by_cases hodd : ys.length % 2 = 1
      · simp only [hodd, ↓reduceIte]
        rw [HashChunks_length H _ _ rfl]; simp
      · simp only [hodd, ↓reduceIte]
        rw [HashChunks_length H _ _ rfl]; omega
    exact ih (i + 1) _ (by omega) (by omega)

/-- **C4.** Merkleize equals the reference tree: for `limit >= 1` and `1 <= len(chunks) <= limit`,
with `L = ceil(log2(limit))` (the least `L` with `limit <= 2^L`), `Merkleize(chunks, limit)` is
the root of the perfect binary hash tree of depth `L` whose `2^L` leaves are the chunks followed
by all-zero 32-byte chunks; in particular `Merkleize([c], 1) = c`. -/
theorem C4_merkleize_reference (H : Chunk → Chunk → Chunk) (chunks : List Chunk) (limit L : Nat)
    (hlim : limit < 2 ^ 64) (h1 : 1 ≤ chunks.length) (h2 : chunks.length ≤ limit)
    (hL : limit ≤ 2 ^ L) (hmin : ∀ k, limit ≤ 2 ^ k → L ≤ k) :
    Merkleize H chunks limit
      = treeRoot H L (chunks ++ List.replicate (2 ^ L - chunks.length) (zeros 32))
    ∧ ∀ c : Chunk, Merkleize H [c] 1 = c := by
  refine ⟨?_, fun c => by simp [Merkleize, uintSub, bitsLen, bitsLenAux, MerkleizeLoop]⟩
  have hsub : uintSub limit 1 = limit - 1 := by
    unfold uintSub; rw [if_pos (by omega)]
  obtain ⟨hs1, hs2⟩ := bitsLenAux_spec 64 (limit - 1) (by omega)
  have hLc : L = bitsLen (uintSub limit 1) := by
    rw [hsub]
    unfold bitsLen
    apply Nat.le_antisymm
    · exact hmin _ (by omega)
    · by_cases hb : bitsLenAux 64 (limit - 1) = 0
      · omega
      · have h3 := hs2 hb
        have h4 : 2 ^ (bitsLenAux 64 (limit - 1) - 1) < 2 ^ L := by omega
        have := (Nat.pow_lt_pow_iff_right (by decide : 1 < 2)).mp h4
        omega
  unfold Merkleize
  simp only [← hLc]
  rw [if_neg (by omega)]
  exact MerkleizeLoop_eq H L 0 chunks h1 (by omega)

/-- Witness for C4: three chunks under limit 3 (depth 2), with a toy hash. -/
theorem C4_merkleize_reference_witness :
    ((3 : Nat) < 2 ^ 64 ∧ 1 ≤ [[1], [2], [3]].length ∧ [[1], [2], [3]].length ≤ 3 ∧ 3 ≤ 2 ^ 2
      ∧ ∀ k, 3 ≤ 2 ^ k → 2 ≤ k) ∧
    Merkleize (fun l r => l ++ r) [[1], [2], [3]] 3
      = treeRoot (fun l r => l ++ r) 2 ([[1], [2], [3]] ++ List.replicate (2 ^ 2 - 3) (zeros 32)) :=
  have hmin : ∀ k, 3 ≤ 2 ^ k → 2 ≤ k := by
    intro k hk
    match k, hk with
    | 0, hk => simp at hk
    | 1, hk => simp at hk
    | k + 2, _ => omega
  ⟨⟨by decide, by decide, by decide, by decide, hmin⟩,
   (C4_merkleize_reference (fun l r => l ++ r) [[1], [2], [3]] 3 2 (by decide) (by decide)
      (by decide) (by decide) hmin).1⟩

theorem preCalculateLoop_eq : ∀ (fts : List SSZType) (R : List (Nat × Nat)) (V : List Nat)
    (off : Nat), preCalculateLoop fts R V off
      = (R ++ rangesFrom fts off, V ++ slotsFrom fts off, off + fixedLen fts) := by
  intro fts
  induction fts with
  | nil => intro R V off; simp [preCalculateLoop, rangesFrom, slotsFrom, fixedLen]
  | cons ft fts ih =>
    intro R V off
    unfold preCalculateLoop rangesFrom slotsFrom fixedLen
    by_cases hv : ft.IsVariableSize = true
    · simp [hv, ih, Nat.add_assoc]
    · simp [hv, ih, Nat.add_assoc]

theorem make_tables (fields : List Field) (typ : String) :
    (ContainerType.make fields typ).fixedFieldRanges = rangesFrom (fields.map (fun f => f.V)) 0 ∧
    (ContainerType.make fields typ).variableOffsets = slotsFrom (fields.map (fun f => f.V)) 0 ∧
    (ContainerType.make fields typ).fixedEnd = fixedLen (fields.map (fun f => f.V)) ∧
    (ContainerType.make fields typ).FieldTypes = fields.map (fun f => f.V) ∧
    (ContainerType.make fields typ).FieldNames.length = fields.length ∧
    (ContainerType.make fields typ).typ = typ := by
  simp [ContainerType.make, preCalculateFieldRanges, preCalculateLoop_eq]

theorem leBytes_length : ∀ (w x : Nat), (leBytes w x).length = w := by
  intro w
  induction w with
  | zero => intro x; rfl
  | succ w ih => intro x; simp [leBytes, ih]

theorem leBytes_mod : ∀ (w x : Nat), leBytes w (x % 256 ^ w) = leBytes w x := by
  intro w
  induction w with
  | zero => intro x; rfl
  | succ w ih =>
    intro x
    have h1 : x % 256 ^ (w + 1) % 256 = x % 256 := by
      rw [Nat.pow_succ, Nat.mul_comm]
      exact Nat.mod_mul_right_mod x 256 (256 ^ w)
    have h2 : x % 256 ^ (w + 1) / 256 = (x / 256) % 256 ^ w := by
      rw [Nat.pow_succ, Nat.mul_comm, Nat.mod_mul_right_div_self]
    simp only [leBytes, h1, h2, ih]

theorem leBytes_toUint32 (x : Nat) : leBytes 4 (toUint32 x) = leBytes 4 x := by
  have := leBytes_mod 4 x
  simpa [toUint32] using this

theorem leValue_leBytes : ∀ (w x : Nat), leValue (leBytes w x) = x % 256 ^ w := by
  intro w
  induction w with
  | zero => intro x; simp [leBytes, leValue, Nat.mod_one]
  | succ w ih =>
    intro x
    simp only [leBytes, leValue, ih]
    rw [Nat.pow_succ, Nat.mul_comm (256 ^ w) 256, Nat.mod_mul, Nat.add_comm]

theorem overwrite_mid (P old R src : List Nat) (h : old.length = src.length) :
    overwrite (P ++ old ++ R) P.length src = P ++ src ++ R := by
  unfold overwrite
  simp [List.take_append_eq_append_take, List.drop_append_eq_append_drop, ← h]

theorem putUintAt_mid (w : Nat) (P old R : List Nat) (x : Nat) (h : old.length = w) :
    putUintAt w (P ++ old ++ R) P.length x = .ok (P ++ leBytes w x ++ R) := by
  unfold putUintAt
  rw [if_pos (by simp; omega), overwrite_mid _ _ _ _ (by rw [leBytes_length, h])]

theorem getUintAt_mid (w : Nat) (P d R : List Nat) (h : d.length = w) :
    getUintAt w (P ++ d ++ R) P.length = .ok (leValue d) := by
  unfold getUintAt
  rw [if_pos (by simp; omega)]
  simp [List.drop_append_eq_append_drop, List.take_append_eq_append_take, ← h]

theorem zeros_add (a b : Nat) : zeros (a + b) = zeros a ++ zeros b := by
  unfold zeros; exact List.replicate_add a b 0

theorem getElem?_append_length {α : Type} (l1 : List α) (a : α) (l2 : List α) :
    (l1 ++ a :: l2)[l1.length]? = some a := by
  rw [List.getElem?_append_right (Nat.le_refl _)]; simp

/-- The loop of `ContainerType.SerializeTo` fills the reserved zero bytes with the layout. -/
theorem containerSerializeLoop_eq (t : ContainerType) (start : Nat) :
    ∀ (fts : List SSZType) (xs : List Value) (encs : List (List Nat)),
    FieldsEncode fts xs encs →
    ∀ (R1 : List (Nat × Nat)) (V1 : List Nat) (off : Nat) (P M Q b : List Nat)
      (variableIx fixedIx variableIndex : Nat),
    t.fixedFieldRanges = R1 ++ rangesFrom fts off →
    t.variableOffsets = V1 ++ slotsFrom fts off →
    variableIx = V1.length → fixedIx = R1.length →
    P.length = start + off →
    variableIndex = P.length + fixedLen fts + M.length →
    b = P ++ (zeros (fixedLen fts) ++ (M ++ (zeros (varSizeSum fts encs) ++ Q))) →
    containerSerializeLoop t start fts xs variableIx fixedIx variableIndex b
      = .done (P ++ (layoutFixed fts encs (variableIndex - start) ++
          (M ++ (layoutVar fts encs ++ Q)))) := by
  intro fts xs encs h
  induction h with
  | nil =>
    intro R1 V1 off P M Q b variableIx fixedIx variableIndex _ _ _ _ _ _ hb
    simp [containerSerializeLoop, hb, layoutFixed, layoutVar, fixedLen, varSizeSum, zeros]
  | @cons ft x enc fts xs encs he _ ih =>
    intro R1 V1 off P M Q b variableIx fixedIx variableIndex hR hV hvx hfx hP hvi hb
    unfold containerSerializeLoop
    by_cases hvar : ft.IsVariableSize = true
    · -- a variable-size field: offset slot, then the payload
      simp only [hvar, Bool.not_true, Bool.false_eq_true, ↓reduceIte]
      have hV' : t.variableOffsets = V1 ++ off :: slotsFrom fts (off + 4) := by
        rw [hV]; simp [slotsFrom, hvar]
      have hlook : t.variableOffsets[variableIx]? = some off := by
        rw [hV', hvx]; exact getElem?_append_length _ _ _
      have hfl : fixedLen (ft :: fts) = 4 + fixedLen fts := by simp [fixedLen, hvar]
      have hvs : varSizeSum (ft :: fts) (enc :: encs) = enc.length + varSizeSum fts encs := by
        simp [varSizeSum, hvar]
      have hb1 : b = P ++ zeros 4 ++ (zeros (fixedLen fts) ++ (M ++ (zeros enc.length ++
          (zeros (varSizeSum fts encs) ++ Q)))) := by
        rw [hb, hfl, hvs, zeros_add, zeros_add]; simp
      have hput : putUintAt 4 b (start + off) (toUint32 (variableIndex - start))
          = .ok (P ++ leBytes 4 (variableIndex - start) ++ (zeros (fixedLen fts) ++ (M ++
              (zeros enc.length ++ (zeros (varSizeSum fts encs) ++ Q))))) := by
        rw [hb1, ← hP, putUintAt_mid 4 P (zeros 4) _ _ (by simp), leBytes_toUint32]
      have hser : ft.SerializeTo x (P ++ leBytes 4 (variableIndex - start) ++
          (zeros (fixedLen fts) ++ (M ++ (zeros enc.length ++ (zeros (varSizeSum fts encs) ++ Q)))))
          variableIndex = .done ((P ++ leBytes 4 (variableIndex - start) ++
            (zeros (fixedLen fts) ++ M)) ++ enc ++ (zeros (varSizeSum fts encs) ++ Q)) := by
        have := he.ser (P ++ leBytes 4 (variableIndex - start) ++ (zeros (fixedLen fts) ++ M))
          (zeros (varSizeSum fts encs) ++ Q)
        have hl : (P ++ leBytes 4 (variableIndex - start) ++ (zeros (fixedLen fts) ++ M)).length
            = variableIndex := by
          simp [leBytes_length]; omega
        rw [hl] at this
        rw [← this]; simp
      simp only [hlook, hput, he.size, hser]
      have := ih (R1) (V1 ++ [off]) (off + 4) (P ++ leBytes 4 (variableIndex - start))
        (M ++ enc) Q _ (variableIx + 1) fixedIx (variableIndex + enc.length)
        (by rw [hR]; simp [rangesFrom, hvar]) (by rw [hV']; simp) (by simp [hvx]) hfx
        (by simp [leBytes_length]; omega) (by simp [leBytes_length]; omega) rfl
      have hconv : (P ++ leBytes 4 (variableIndex - start) ++ (zeros (fixedLen fts) ++ M)) ++ enc
          ++ (zeros (varSizeSum fts encs) ++ Q)
          = P ++ leBytes 4 (variableIndex - start) ++ (zeros (fixedLen fts) ++ (M ++ enc ++
            (zeros (varSizeSum fts encs) ++ Q))) := by simp
      rw [hconv, this]
      have hsub : variableIndex + enc.length - start = variableIndex - start + enc.length := by
        omega
      simp [layoutFixed, layoutVar, hvar, hsub]
    · -- a fixed-size field, written in place
      have hvar' : ft.IsVariableSize = false := by simpa using hvar
      simp only [hvar', Bool.not_false, ↓reduceIte]
      have hlen := he.fixed hvar'
      have hR' : t.fixedFieldRanges
          = R1 ++ (off, off + ft.FixedSize) :: rangesFrom fts (off + ft.FixedSize) := by
        rw [hR]; simp [rangesFrom, hvar']
      have hlook : t.fixedFieldRanges[fixedIx]? = some (off, off + ft.FixedSize) := by
        rw [hR', hfx]; exact getElem?_append_length _ _ _
      have hfl : fixedLen (ft :: fts) = enc.length + fixedLen fts := by
        simp [fixedLen, hvar', hlen]
      have hvs : varSizeSum (ft :: fts) (enc :: encs) = varSizeSum fts encs := by
        simp [varSizeSum, hvar']
      have hser : ft.SerializeTo x b (start + off) = .done (P ++ enc ++ (zeros (fixedLen fts) ++
          (M ++ (zeros (varSizeSum fts encs) ++ Q)))) := by
        have := he.ser P (zeros (fixedLen fts) ++ (M ++ (zeros (varSizeSum fts encs) ++ Q)))
        rw [← this, hb, hfl, hvs, zeros_add, hP]; simp
      simp only [hlook, hser]
      have := ih (R1 ++ [(off, off + ft.FixedSize)]) V1 (off + ft.FixedSize) (P ++ enc) M Q _
        variableIx (fixedIx + 1) variableIndex
        (by rw [hR']; simp) (by rw [hV]; simp [slotsFrom, hvar']) hvx (by simp [hfx])
        (by simp; omega) (by simp; omega) rfl
      rw [List.append_assoc P enc, List.append_assoc P enc] at this
      rw [List.append_assoc P enc, this]
      simp [layoutFixed, layoutVar, hvar']

theorem FieldsEncode_length {fts : List SSZType} {xs : List Value} {encs : List (List Nat)}
    (h : FieldsEncode fts xs encs) : xs.length = fts.length ∧ encs.length = fts.length := by
  induction h with
  | nil => simp
  | cons _ _ ih => simp [ih.1, ih.2]

theorem layoutFixed_length {fts : List SSZType} {xs : List Value} {encs : List (List Nat)}
    (h : FieldsEncode fts xs encs) : ∀ voff, (layoutFixed fts encs voff).length = fixedLen fts := by
  induction h with
  | nil => intro voff; simp [layoutFixed, fixedLen]
  | @cons ft x enc fts xs encs he _ ih =>
    intro voff
    by_cases hvar : ft.IsVariableSize = true
    · simp [layoutFixed, fixedLen, hvar, ih, leBytes_length]
    · have hvar' : ft.IsVariableSize = false := by simpa using hvar
      simp [layoutFixed, fixedLen, hvar', ih, he.fixed hvar']

theorem layoutVar_length : ∀ (fts : List SSZType) (encs : List (List Nat)),
    (layoutVar fts encs).length = varSizeSum fts encs := by
  intro fts
  induction fts with
  | nil => intro encs; simp [layoutVar, varSizeSum]
  | cons ft fts ih =>
    intro encs
    cases encs with
    | nil => simp [layoutVar, varSizeSum]
    | cons enc encs =>
      by_cases hvar : ft.IsVariableSize = true
      · simp [layoutVar, varSizeSum, hvar, ih]
      · simp [layoutVar, varSizeSum, hvar, ih]

theorem containerSizeLoop_eq {fts : List SSZType} {xs : List Value} {encs : List (List Nat)}
    (h : FieldsEncode fts xs encs) : ∀ size,
    containerSizeLoop fts xs size = .ok (size + fixedLen fts + varSizeSum fts encs) := by
  induction h with
  | nil => intro size; simp [containerSizeLoop, fixedLen, varSizeSum]
  | @cons ft x enc fts xs encs he _ ih =>
    intro size
    unfold containerSizeLoop
    by_cases hvar : ft.IsVariableSize = true
    · simp only [hvar, Bool.not_true, Bool.false_eq_true, ↓reduceIte, he.size, Res.ok_bind, ih]
      simp [fixedLen, varSizeSum, hvar]; omega
    · have hvar' : ft.IsVariableSize = false := by simpa using hvar
      simp only [hvar', Bool.not_false, ↓reduceIte, ih]
      simp [fixedLen, varSizeSum, hvar']; omega

theorem container_isVariableSize_false {fts : List SSZType}
    (h : fts.any (fun ft => ft.IsVariableSize) = false) :
    fixedSizeLoop fts 0 = fixedLen fts ∧ ∀ encs, varSizeSum fts encs = 0 := by
  have key : ∀ (fts : List SSZType), fts.any (fun ft => ft.IsVariableSize) = false →
      (∀ size, fixedSizeLoop fts size = size + fixedLen fts) ∧ ∀ encs, varSizeSum fts encs = 0 := by
    intro fts
    induction fts with
    | nil => intro _; exact ⟨fun size => by simp [fixedSizeLoop, fixedLen], fun encs => by simp [varSizeSum]⟩
    | cons ft fts ih =>
      intro h
      simp only [List.any_cons, Bool.or_eq_false_iff] at h
      obtain ⟨ih1, ih2⟩ := ih h.2
      refine ⟨fun size => ?_, fun encs => ?_⟩
      · simp [fixedSizeLoop, fixedLen, h.1, ih1]; omega
      · cases encs with
        | nil => simp [varSizeSum]
        | cons enc encs => simp [varSizeSum, h.1, ih2]
  obtain ⟨k1, k2⟩ := key fts h
  exact ⟨by simpa using k1 0, k2⟩

/-- A container writes a value whose fields are written by their descriptors as the fixed
region followed by the variable region, wherever in a buffer its bytes are reserved. -/
theorem container_encodes (fields : List Field) (typ : String) (xs : List Value)
    (encs : List (List Nat)) (h : FieldsEncode (fields.map (fun f => f.V)) xs encs) :
    Encodes (Container fields typ) (.struct typ xs)
      (layoutFixed (fields.map (fun f => f.V)) encs (fixedLen (fields.map (fun f => f.V)))
        ++ layoutVar (fields.map (fun f => f.V)) encs) := by
  obtain ⟨hR, hV, hE, hT, hN, hty⟩ := make_tables fields typ
  have hlen := FieldsEncode_length h
  have hget : (ContainerType.make fields typ).GetFieldValues (.struct typ xs) = .ok xs := by
    simp [ContainerType.GetFieldValues, hty, hN, hlen.1]
  have hl : (layoutFixed (fields.map (fun f => f.V)) encs (fixedLen (fields.map (fun f => f.V)))
        ++ layoutVar (fields.map (fun f => f.V)) encs).length
      = fixedLen (fields.map (fun f => f.V)) + varSizeSum (fields.map (fun f => f.V)) encs := by
    rw [List.length_append, layoutFixed_length h, layoutVar_length]
  refine ⟨?_, ?_, ?_⟩
  · show (ContainerType.make fields typ).Size (.struct typ xs) = _
    simp only [ContainerType.Size, hget, Res.ok_bind, hT, containerSizeLoop_eq h, hl]
    simp
  · intro hfix
    have hfix' : (fields.map (fun f => f.V)).any (fun ft => ft.IsVariableSize) = false := by
      have : (ContainerType.make fields typ).IsVariableSize = false := hfix
      simpa [ContainerType.IsVariableSize, hT] using this
    obtain ⟨k1, k2⟩ := container_isVariableSize_false hfix'
    rw [hl, k2]
    show _ = (ContainerType.make fields typ).FixedSize
    simp [ContainerType.FixedSize, hT, k1]
  · intro pre post
    show (ContainerType.make fields typ).SerializeTo (.struct typ xs) _ _ = _
    simp only [ContainerType.SerializeTo, hget, hT, hE]
    have := containerSerializeLoop_eq (ContainerType.make fields typ) pre.length
      (fields.map (fun f => f.V)) xs encs h [] [] 0 pre [] post
      (pre ++ zeros (layoutFixed (fields.map (fun f => f.V)) encs
        (fixedLen (fields.map (fun f => f.V))) ++ layoutVar (fields.map (fun f => f.V)) encs).length
        ++ post) 0 0 (pre.length + fixedLen (fields.map (fun f => f.V)))
      (by simpa using hR) (by simpa using hV) rfl rfl rfl (by simp)
      (by rw [hl, zeros_add]; simp)
    rw [this]
    simp

theorem setByte_mid (P R : List Nat) (old x : Nat) :
    setByte (P ++ [old] ++ R) P.length x = .ok (P ++ [x] ++ R) := by
  unfold setByte
  rw [if_pos (by simp), overwrite_mid _ _ _ _ (by simp)]

theorem index_mid (P R : List Nat) (x : Nat) : index (P ++ [x] ++ R) P.length = .ok x := by
  have : (P ++ [x] ++ R)[P.length]? = some x := by
    rw [List.append_assoc]; exact getElem?_append_length P x R
  unfold index; rw [this]

theorem sliceBuf_mid (P d R : List Nat) :
    sliceBuf (P ++ d ++ R) P.length (P.length + d.length) = .ok d := by
  unfold sliceBuf
  rw [if_pos (by simp)]
  simp [List.take_append_eq_append_take, List.drop_append_eq_append_drop]

theorem int_range_ne (p n m : Nat) : ((((p + n : Nat) : Int) - (p : Int)) ≠ (m : Int)) ↔ n ≠ m := by
  omega

/-- `Uint(w)` writes an unsigned value below `2^w` as its `w/8` little-endian bytes. -/
theorem uint_encodes (w : Nat) (k : UKind) (n : Nat) (hw : w = 8 ∨ w = 16 ∨ w = 32 ∨ w = 64)
    (hn : n < 2 ^ w) : Encodes (Uint w) (.uint k n) (leBytes (w / 8) n) := by
  refine ⟨?_, ?_, ?_⟩
  · show Res.ok (w / 8) = _
    rw [leBytes_length]
  · intro _
    show _ = w / 8
    rw [leBytes_length]
  · intro pre post
    have hS : ∀ v b s, (Uint w).SerializeTo v b s
        = UintType.SerializeTo { Bitlen := w, fixedSize := w / 8 } v b s := fun _ _ _ => rfl
    rw [hS, leBytes_length]
    rcases hw with rfl | rfl | rfl | rfl
    · have hm : ¬ n > 255 := by omega
      have hz : zeros (8 / 8) = [0] := rfl
      simp only [UintType.SerializeTo, UintType.Max, UintType.put, ↓reduceIte, hz, setByte_mid]
      simp [hm, leBytes]
    · have hm : ¬ n > 65535 := by omega
      have hp := putUintAt_mid 2 pre (zeros 2) post n (by simp)
      have hz : zeros (16 / 8) = zeros 2 := rfl
      simp only [UintType.SerializeTo, UintType.Max, UintType.put, ↓reduceIte, hz, hp]
      simp [hm]
    · have hm : ¬ n > 4294967295 := by omega
      have hp := putUintAt_mid 4 pre (zeros 4) post n (by simp)
      have hz : zeros (32 / 8) = zeros 4 := rfl
      simp only [UintType.SerializeTo, UintType.Max, UintType.put, ↓reduceIte, hz, hp]
      simp [hm]
    · have hm : ¬ n > 18446744073709551615 := by omega
      have hp := putUintAt_mid 8 pre (zeros 8) post n (by simp)
      have hz : zeros (64 / 8) = zeros 8 := rfl
      simp only [UintType.SerializeTo, UintType.Max, UintType.put, ↓reduceIte, hz, hp]
      simp [hm]

/-- `Uint(w)` reads the `w/8` little-endian bytes of a value below `2^w` back as that value. -/
theorem uint_decodes (w : Nat) (n : Nat) (hw : w = 8 ∨ w = 16 ∨ w = 32 ∨ w = 64)
    (hn : n < 2 ^ w) : Decodes (Uint w) (leBytes (w / 8) n) (.uint (uintKind w) n) := by
  intro pre post
  have hD : ∀ b s e, (Uint w).DeserializeFrom b s e
      = UintType.DeserializeFrom { Bitlen := w, fixedSize := w / 8 } b s e := fun _ _ _ => rfl
  rw [hD]
  have hlv := leValue_leBytes (w / 8) n
  have hsl := sliceBuf_mid pre (leBytes (w / 8) n) post
  have htk : (leBytes (w / 8) n).take (w / 8) = leBytes (w / 8) n := by
    apply List.take_of_length_le; rw [leBytes_length]
  rw [leBytes_length] at hsl ⊢
  unfold UintType.DeserializeFrom
  simp only [Nat.cast_add, add_sub_cancel_left, ne_eq, not_true_eq_false, ↓reduceIte]
  rcases hw with rfl | rfl | rfl | rfl
  · have hm : n % 256 = n := Nat.mod_eq_of_lt (by omega)
    have : leBytes (8 / 8) n = [n] := by simp [leBytes, hm]
    rw [this]
    simp only [↓reduceIte, index_mid, Res.ok_bind]
    rfl
  · have hm : n % 256 ^ (16 / 8) = n := Nat.mod_eq_of_lt (by omega)
    simp only [Nat.reduceEqDiff, ↓reduceIte, hsl, Res.ok_bind, htk, hlv, hm]
    rfl
  · have hm : n % 256 ^ (32 / 8) = n := Nat.mod_eq_of_lt (by omega)
    simp only [Nat.reduceEqDiff, ↓reduceIte, hsl, Res.ok_bind, htk, hlv, hm]
    rfl
  · have hm : n % 256 ^ (64 / 8) = n := Nat.mod_eq_of_lt (by omega)
    simp only [Nat.reduceEqDiff, ↓reduceIte, hsl, Res.ok_bind, htk, hlv, hm]
    rfl

/-- `Bool` writes a boolean as the byte `0x00` or `0x01`. -/
theorem bool_encodes (v : Bool) : Encodes SszBool (.bool v) [if v then 1 else 0] := by
  refine ⟨rfl, fun _ => rfl, ?_⟩
  intro pre post
  have hS : ∀ x b s, SszBool.SerializeTo x b s = BoolType.SerializeTo x b s := fun _ _ _ => rfl
  have hz : zeros [if v then 1 else 0].length = [0] := rfl
  rw [hS]
  simp only [BoolType.SerializeTo, hz, setByte_mid, Wr.ofRes_ok]

/-- `Bool` reads the byte `0x00` or `0x01` back as the boolean. -/
theorem bool_decodes (v : Bool) : Decodes SszBool [if v then 1 else 0] (.bool v) := by
  intro pre post
  have hD : ∀ b s e, SszBool.DeserializeFrom b s e = BoolType.DeserializeFrom b s e :=
    fun _ _ _ => rfl
  rw [hD]
  unfold BoolType.DeserializeFrom
  cases v
  · have := index_mid pre post 0
    simp only [List.length_singleton, Nat.cast_add, Nat.cast_one, add_sub_cancel_left, ne_eq,
      not_true_eq_false, ↓reduceIte, Bool.false_eq_true, this, Res.ok_bind, Res.pure_eq]
  · have := index_mid pre post 1
    simp only [List.length_singleton, Nat.cast_add, Nat.cast_one, add_sub_cancel_left, ne_eq,
      not_true_eq_false, ↓reduceIte, this, Res.ok_bind, Nat.add_one_ne_zero, Res.pure_eq]

theorem flatten_length_of_fixed (fs : Nat) : ∀ (encs : List (List Nat)),
    (∀ enc ∈ encs, enc.length = fs) → encs.flatten.length = encs.length * fs := by
  intro encs
  induction encs with
  | nil => intro _; simp
  | cons enc encs ih =>
    intro h
    have h1 := h enc (by simp)
    have h2 := ih (fun e he => h e (by simp [he]))
    simp only [List.flatten_cons, List.length_append, List.length_cons, h1, h2]
    rw [Nat.add_mul]; omega

theorem forall2_encodes_fixed {E : SSZType} (hfix : E.IsVariableSize = false)
    {xs : List Value} {encs : List (List Nat)} (h : List.Forall₂ (Encodes E) xs encs) :
    (∀ enc ∈ encs, enc.length = E.FixedSize) ∧ encs.length = xs.length := by
  induction h with
  | nil => simp
  | cons he _ ih =>
    refine ⟨?_, by simp [ih.2]⟩
    intro enc hm
    simp only [List.mem_cons] at hm
    rcases hm with rfl | hm
    · exact he.fixed hfix
    · exact ih.1 enc hm

/-- The loop over fixed-size elements writes the encodings one after the other. -/
theorem serializeFixedLoop_eq (E : SSZType) (hfix : E.IsVariableSize = false) (start : Nat) :
    ∀ (xs : List Value) (encs : List (List Nat)), List.Forall₂ (Encodes E) xs encs →
    ∀ (i : Nat) (P Q b : List Nat), P.length = start + i * E.FixedSize →
    b = P ++ (zeros encs.flatten.length ++ Q) →
    serializeFixedLoop E start xs i b = .done (P ++ (encs.flatten ++ Q)) := by
  intro xs encs h
  induction h with
  | nil => intro i P Q b _ hb; simp [serializeFixedLoop, hb, zeros]
  | @cons x enc xs encs he _ ih =>
    intro i P Q b hP hb
    unfold serializeFixedLoop
    have hlen := he.fixed hfix
    have hser : E.SerializeTo x b (start + i * E.FixedSize)
        = .done (P ++ enc ++ (zeros encs.flatten.length ++ Q)) := by
      have := he.ser P (zeros encs.flatten.length ++ Q)
      rw [← this, hb, ← hP]
      simp [zeros_add]
    simp only [hser]
    have := ih (i + 1) (P ++ enc) Q _ (by simp [hP, hlen, Nat.add_mul]; omega) rfl
    rw [this]; simp

theorem returnsOwnType_of_basic {E : SSZType} (h : isBasicType E = true) :
    returnsOwnType E = true := by
  unfold isBasicType at h
  unfold returnsOwnType
  cases hk : E.Kind <;> simp [hk] at h ⊢

/-- The loop over fixed-size elements reads the encodings back, filling the slice in order. -/
theorem deserializeFixedLoop_eq (E : SSZType) (hrt : returnsOwnType E = true) (start : Nat) :
    ∀ (encs : List (List Nat)) (xs : List Value), List.Forall₂ (Decodes E) encs xs →
    (∀ enc ∈ encs, enc.length = E.FixedSize) →
    ∀ (i : Nat) (P Q : List Nat) (done rest : List Value), P.length = start + i * E.FixedSize →
    done.length = i → rest.length = xs.length →
    deserializeFixedLoop E (P ++ (encs.flatten ++ Q)) start E.FixedSize xs.length i (done ++ rest)
      = .ok (done ++ xs) := by
  intro encs xs h
  induction h with
  | nil =>
    intro _ i P Q done rest _ _ hr
    have : rest = [] := List.length_eq_zero.mp hr
    simp [deserializeFixedLoop, this]
  | @cons enc x encs xs hd _ ih =>
    intro hfs i P Q done rest hP hdone hr
    have hlen := hfs enc (by simp)
    obtain ⟨r, rest', rfl⟩ : ∃ r rest', rest = r :: rest' := by
      cases rest with
      | nil => simp at hr
      | cons r rest' => exact ⟨r, rest', rfl⟩
    simp only [List.length_cons, deserializeFixedLoop]
    have hde : E.DeserializeFrom (P ++ ((enc :: encs).flatten ++ Q)) (start + i * E.FixedSize)
        (start + (i + 1) * E.FixedSize) = .ok x := by
      have := hd P (encs.flatten ++ Q)
      rw [← this, hP, hlen]
      congr 1
      · simp
      · rw [Nat.add_mul]; omega
    have hset : setIndex E (done ++ r :: rest') i x = .ok ((done ++ [x]) ++ rest') := by
      unfold setIndex
      rw [if_pos ⟨by simp; omega, hrt⟩, ← hdone, List.set_append_right _ _ (Nat.le_refl _)]
      simp
    simp only [hde, Res.ok_bind, hset]
    have := ih (fun e he => hfs e (by simp [he])) (i + 1) (P ++ enc) Q (done ++ [x]) rest'
      (by simp [hP, hlen, Nat.add_mul]; omega) (by simp [hdone])
      (by simpa using hr)
    simp only [List.flatten_cons, List.append_assoc] at this ⊢
    rw [this]; simp

theorem forall2_length {α β : Type} {R : α → β → Prop} {l1 : List α} {l2 : List β}
    (h : List.Forall₂ R l1 l2) : l1.length = l2.length := by
  induction h with
  | nil => rfl
  | cons _ _ ih => simp [ih]

theorem int_range_sub (p n : Nat) : (((p + n : Nat) : Int) - (p : Int)) = (n : Int) := by
  omega

/-- `Vector(E, N)` with fixed-size `E` writes `N` elements as their encodings in order. -/
theorem vector_encodes (E : SSZType) (N : Nat) (hfix : E.IsVariableSize = false)
    (xs : List Value) (encs : List (List Nat)) (h : List.Forall₂ (Encodes E) xs encs)
    (hN : xs.length = N) : Encodes (Vector E N) (.slice xs) encs.flatten := by
  obtain ⟨hfs, hl⟩ := forall2_encodes_fixed hfix h
  have hfl := flatten_length_of_fixed _ encs hfs
  have hS : ∀ v b s, (Vector E N).SerializeTo v b s
      = VectorType.SerializeTo { ElementType := E, Length := N } v b s := fun _ _ _ => rfl
  refine ⟨?_, ?_, ?_⟩
  · have hZ : ∀ v, (Vector E N).Size v
        = VectorType.Size { ElementType := E, Length := N } v := fun _ => rfl
    rw [hZ]
    simp [VectorType.Size, hfix, hfl, hl, hN, Nat.mul_comm]
  · intro _
    show _ = E.FixedSize * N
    rw [hfl, hl, hN, Nat.mul_comm]
  · intro pre post
    rw [hS]
    simp only [VectorType.SerializeTo, hN, ne_eq, not_true_eq_false, ↓reduceIte, hfix,
      Bool.not_false]
    have := serializeFixedLoop_eq E hfix pre.length xs encs h 0 pre post
      (pre ++ zeros encs.flatten.length ++ post) (by simp) (by simp)
    rw [this]; simp

/-- `Vector(E, N)` with fixed-size `E` reads `N` encodings back as the `N` elements. -/
theorem vector_decodes (E : SSZType) (N : Nat) (hfix : E.IsVariableSize = false)
    (hrt : returnsOwnType E = true)
    (encs : List (List Nat)) (xs : List Value) (h : List.Forall₂ (Decodes E) encs xs)
    (hfs : ∀ enc ∈ encs, enc.length = E.FixedSize) (hN : xs.length = N) :
    Decodes (Vector E N) encs.flatten (.slice xs) := by
  have hl := forall2_length h
  have hfl := flatten_length_of_fixed _ encs hfs
  have hD : ∀ b s e, (Vector E N).DeserializeFrom b s e
      = VectorType.DeserializeFrom { ElementType := E, Length := N } b s e := fun _ _ _ => rfl
  intro pre post
  rw [hD]
  have hsz : ((pre.length + encs.flatten.length : Nat) : Int) - (pre.length : Int)
      = ((E.FixedSize * N : Nat) : Int) := by
    rw [int_range_sub, hfl, hl, hN, Nat.mul_comm]
  have := deserializeFixedLoop_eq E hrt pre.length encs xs h hfs 0 pre post []
    (List.replicate N E.Zero) (by simp) rfl (by simp [hN])
  rw [hN] at this
  simp only [List.nil_append, ← List.append_assoc] at this
  simp only [VectorType.DeserializeFrom, hfix, Bool.not_false, ↓reduceIte, hsz, ne_eq,
    not_true_eq_false, this, Res.ok_bind, Res.pure_eq]

/-- `List(E, L)` with a basic `E` writes at most `L` elements as their encodings in order. -/
theorem list_encodes (E : SSZType) (L : Nat) (hfix : E.IsVariableSize = false)
    (hbasic : isBasicType E = true)
    (xs : List Value) (encs : List (List Nat)) (h : List.Forall₂ (Encodes E) xs encs)
    (hL : xs.length ≤ L) : Encodes (SszList E L) (.slice xs) encs.flatten := by
  obtain ⟨hfs, hl⟩ := forall2_encodes_fixed hfix h
  have hfl := flatten_length_of_fixed _ encs hfs
  have hS : ∀ v b s, (SszList E L).SerializeTo v b s
      = ListType.SerializeTo { ElementType := E, Limit := L } v b s := fun _ _ _ => rfl
  refine ⟨?_, ?_, ?_⟩
  · have hZ : ∀ v, (SszList E L).Size v
        = ListType.Size { ElementType := E, Limit := L } v := fun _ => rfl
    rw [hZ]
    simp [ListType.Size, Nat.not_lt.mpr hL, hbasic, hfl, hl, Nat.mul_comm]
  · intro hv
    exact absurd hv (by simp [SszList, ListType.toSSZType])
  · intro pre post
    rw [hS]
    simp only [ListType.SerializeTo, Nat.not_lt.mpr hL, ↓reduceIte, hfix, Bool.not_false]
    have := serializeFixedLoop_eq E hfix pre.length xs encs h 0 pre post
      (pre ++ zeros encs.flatten.length ++ post) (by simp) (by simp)
    rw [this]; simp

/-- `List(E, L)` with a fixed-size `E` of non-zero size reads encodings back as the elements. -/
theorem list_decodes (E : SSZType) (L : Nat) (hfix : E.IsVariableSize = false)
    (hrt : returnsOwnType E = true)
    (hpos : 0 < E.FixedSize)
    (encs : List (List Nat)) (xs : List Value) (h : List.Forall₂ (Decodes E) encs xs)
    (hfs : ∀ enc ∈ encs, enc.length = E.FixedSize) (hL : xs.length ≤ L) :
    Decodes (SszList E L) encs.flatten (.slice xs) := by
  have hl := forall2_length h
  have hfl := flatten_length_of_fixed _ encs hfs
  have hD : ∀ b s e, (SszList E L).DeserializeFrom b s e
      = ListType.DeserializeFrom { ElementType := E, Limit := L } b s e := fun _ _ _ => rfl
  intro pre post
  rw [hD]
  have hsz : ((pre.length + encs.flatten.length : Nat) : Int) - (pre.length : Int)
      = ((xs.length * E.FixedSize : Nat) : Int) := by
    rw [int_range_sub, hfl, hl]
  have hdiv : Int.tdiv ((xs.length * E.FixedSize : Nat) : Int) (E.FixedSize : Int)
      = (xs.length : Int) := by
    rw [← Int.ofNat_tdiv, Nat.mul_div_cancel _ hpos]
  have hmod : Int.tmod ((xs.length * E.FixedSize : Nat) : Int) (E.FixedSize : Int) = 0 := by
    rw [← Int.ofNat_tmod, Nat.mul_mod_left]; rfl
  have := deserializeFixedLoop_eq E hrt pre.length encs xs h hfs 0 pre post []
    (List.replicate xs.length E.Zero) (by simp) rfl (by simp)
  simp only [List.nil_append, ← List.append_assoc] at this
  have hLi : ¬ ((xs.length : Int) > (L : Int)) := by omega
  have hneg : ¬ ((xs.length : Int) < 0) := by omega
  simp only [ListType.DeserializeFrom, hfix, Bool.not_false, ↓reduceIte, Nat.ne_of_gt hpos, hsz,
    hdiv, hmod, ne_eq, not_true_eq_false, hLi, hneg, Int.toNat_ofNat, this, Res.ok_bind,
    Res.pure_eq]

theorem asBytes_ofBytes (bs : List Nat) : (Value.ofBytes bs).asBytes = some bs := by
  have key : asBytesList (bs.map (fun x => Value.uint .u8 x)) = some bs := by
    induction bs with
    | nil => rfl
    | cons b bs ih => simp [asBytesList, ih]
  simpa [Value.ofBytes, Value.asBytes] using key

/-- `ByteList(L)` writes at most `L` bytes as they are. -/
theorem byteList_encodes (L : Nat) (bs : List Nat) (hL : bs.length ≤ L) :
    Encodes (ByteList L) (Value.ofBytes bs) bs := by
  refine ⟨?_, ?_, ?_⟩
  · show ByteListType.Size _ = _
    simp [ByteListType.Size, asBytes_ofBytes]
  · intro hv
    exact absurd hv (by simp [ByteList])
  · intro pre post
    show ByteListType.SerializeTo L _ _ _ = _
    simp only [ByteListType.SerializeTo, asBytes_ofBytes, Nat.not_lt.mpr hL, ↓reduceIte]
    rw [if_pos (by simp)]
    have ht : bs.take ((pre ++ zeros bs.length ++ post).length - pre.length) = bs := by
      apply List.take_of_length_le; simp
    rw [copyAt, ht, overwrite_mid _ _ _ _ (by simp)]

/-- `ByteList(L)` reads at most `L` bytes back as they are. -/
theorem byteList_decodes (L : Nat) (bs : List Nat) (hL : bs.length ≤ L) :
    Decodes (ByteList L) bs (Value.ofBytes bs) := by
  intro pre post
  show ByteListType.DeserializeFrom L _ _ _ = _
  have h1 : ¬ toUint64 ((bs.length : Nat) : Int) > L := by rw [toUint64_natCast]; omega
  have h2 : ¬ ((bs.length : Nat) : Int) < 0 := by omega
  simp only [ByteListType.DeserializeFrom, int_range_sub, h1, h2, ↓reduceIte, sliceBuf_mid,
    Res.ok_bind, Int.toNat_ofNat, copyFresh_of_length _ _ rfl, Res.pure_eq]

/-- `ByteVector(L)` writes exactly `L` bytes as they are. -/
theorem byteVector_encodes (L : Nat) (bs : List Nat) (hL : bs.length = L) :
    Encodes (ByteVector L) (Value.ofBytes bs) bs := by
  refine ⟨?_, ?_, ?_⟩
  · show Res.ok L = _
    rw [hL]
  · intro _
    exact hL
  · intro pre post
    show ByteVectorType.SerializeTo L _ _ _ = _
    simp only [ByteVectorType.SerializeTo, asBytes_ofBytes, hL, ne_eq, not_true_eq_false,
      ↓reduceIte]
    rw [if_pos (by simp)]
    have ht : bs.take ((pre ++ zeros L ++ post).length - pre.length) = bs := by
      apply List.take_of_length_le; simp; omega
    rw [copyAt, ht, overwrite_mid _ _ _ _ (by simp [hL])]

/-- `ByteVector(L)` reads exactly `L` bytes back as they are. -/
theorem byteVector_decodes (L : Nat) (bs : List Nat) (hL : bs.length = L) :
    Decodes (ByteVector L) bs (Value.ofBytes bs) := by
  intro pre post
  show ByteVectorType.DeserializeFrom L _ _ _ = _
  have hs := sliceBuf_mid pre bs post
  rw [hL] at hs
  simp only [ByteVectorType.DeserializeFrom, int_range_sub, hL, ne_eq, not_true_eq_false,
    ↓reduceIte, hs, Res.ok_bind, Nat.min_self, copyFresh_of_length _ _ hL, Res.pure_eq]

theorem FieldsEncode_append_inv : ∀ (fts1 : List SSZType) (ft : SSZType) (fts2 : List SSZType)
    (xs : List Value) (encs : List (List Nat)), FieldsEncode (fts1 ++ ft :: fts2) xs encs →
    ∃ xs1 x xs2 encs1 enc encs2, xs = xs1 ++ x :: xs2 ∧ encs = encs1 ++ enc :: encs2 ∧
      FieldsEncode fts1 xs1 encs1 ∧ Encodes ft x enc ∧ FieldsEncode fts2 xs2 encs2 := by
  intro fts1
  induction fts1 with
  | nil =>
    intro ft fts2 xs encs h
    cases h with
    | cons he ht => exact ⟨[], _, _, [], _, _, rfl, rfl, .nil, he, ht⟩
  | cons f fts1 ih =>
    intro ft fts2 xs encs h
    cases h with
    | cons he ht =>
      obtain ⟨xs1, x, xs2, encs1, enc, encs2, h1, h2, h3, h4, h5⟩ := ih ft fts2 _ _ ht
      exact ⟨_ :: xs1, x, xs2, _ :: encs1, enc, encs2, by rw [h1]; rfl, by rw [h2]; rfl,
        .cons he h3, h4, h5⟩

theorem layout_append {fts1 : List SSZType} {xs1 : List Value} {encs1 : List (List Nat)}
    (h : FieldsEncode fts1 xs1 encs1) : ∀ (fts2 : List SSZType) (encs2 : List (List Nat))
    (voff : Nat),
    layoutFixed (fts1 ++ fts2) (encs1 ++ encs2) voff
      = layoutFixed fts1 encs1 voff ++ layoutFixed fts2 encs2 (voff + varSizeSum fts1 encs1) ∧
    layoutVar (fts1 ++ fts2) (encs1 ++ encs2) = layoutVar fts1 encs1 ++ layoutVar fts2 encs2 ∧
    fixedLen (fts1 ++ fts2) = fixedLen fts1 + fixedLen fts2 := by
  induction h with
  | nil => intro fts2 encs2 voff; simp [layoutFixed, layoutVar, varSizeSum, fixedLen]
  | @cons ft x enc fts xs encs he _ ih =>
    intro fts2 encs2 voff
    by_cases hvar : ft.IsVariableSize = true
    · obtain ⟨h1, h2, h3⟩ := ih fts2 encs2 (voff + enc.length)
      simp [layoutFixed, layoutVar, varSizeSum, fixedLen, hvar, h1, h2, h3, Nat.add_assoc]
    · obtain ⟨h1, h2, h3⟩ := ih fts2 encs2 voff
      simp [layoutFixed, layoutVar, varSizeSum, fixedLen, hvar, h1, h2, h3, Nat.add_assoc]


theorem container_serialize_eq (fields : List Field) (typ : String) (xs : List Value)
    (encs : List (List Nat)) (h : FieldsEncode (fields.map (fun f => f.V)) xs encs) :
    (Container fields typ).Serialize (.struct typ xs)
      = .ok (layoutFixed (fields.map (fun f => f.V)) encs (fixedLen (fields.map (fun f => f.V)))
        ++ layoutVar (fields.map (fun f => f.V)) encs) := by
  have he := container_encodes fields typ xs encs h
  have hS : (Container fields typ).Serialize (.struct typ xs)
      = ((Container fields typ).Size (.struct typ xs) >>= fun s =>
          ((Container fields typ).SerializeTo (.struct typ xs) (zeros s) 0).toRes) := rfl
  have := he.ser [] []
  simp only [List.nil_append, List.append_nil, List.length_nil] at this
  rw [hS, he.size, Res.ok_bind, this]
  rfl

/-- **C2.** Container wire layout: for a container whose field values are written by their
descriptors (`FieldsEncode`), `Serialize(v)` is the fixed region followed by the variable
region.  In field order a fixed-size field's encoding stands in place and a variable-size field
has a 4-byte little-endian slot holding the start of its payload relative to the container
start; the payloads follow the fixed region contiguously in field order; the fixed region has
`F = fixedEnd` bytes and the output has `F` plus the sizes of the variable-size fields. -/
theorem C2_container_layout (fields : List Field) (typ : String) (xs : List Value)
    (encs : List (List Nat)) (h : FieldsEncode (fields.map (fun f => f.V)) xs encs) :
    (Container fields typ).Serialize (.struct typ xs)
      = .ok (layoutFixed (fields.map (fun f => f.V)) encs (fixedLen (fields.map (fun f => f.V)))
        ++ layoutVar (fields.map (fun f => f.V)) encs) ∧
    (layoutFixed (fields.map (fun f => f.V)) encs (fixedLen (fields.map (fun f => f.V)))).length
      = (ContainerType.make fields typ).fixedEnd ∧
    (layoutFixed (fields.map (fun f => f.V)) encs (fixedLen (fields.map (fun f => f.V)))
        ++ layoutVar (fields.map (fun f => f.V)) encs).length
      = (ContainerType.make fields typ).fixedEnd + varSizeSum (fields.map (fun f => f.V)) encs ∧
    (∀ fts1 ft fts2, fields.map (fun f => f.V) = fts1 ++ ft :: fts2 → ft.IsVariableSize = true →
      ∃ A B C enc,
        layoutFixed (fields.map (fun f => f.V)) encs (fixedLen (fields.map (fun f => f.V)))
          ++ layoutVar (fields.map (fun f => f.V)) encs
          = A ++ leBytes 4 (A.length + 4 + B.length) ++ B ++ enc ++ C ∧
        A.length = fixedLen fts1 ∧ encs[fts1.length]? = some enc ∧
        (A ++ leBytes 4 (A.length + 4 + B.length) ++ B).length
          = (ContainerType.make fields typ).fixedEnd + varSizeSum fts1 (encs.take fts1.length)) := by
  obtain ⟨_, _, hE, _, _, _⟩ := make_tables fields typ
  refine ⟨container_serialize_eq fields typ xs encs h, ?_, ?_, ?_⟩
  · rw [layoutFixed_length h, hE]
  · rw [List.length_append, layoutFixed_length h, layoutVar_length, hE]
  · intro fts1 ft fts2 hsplit hvar
    rw [hsplit] at h
    obtain ⟨xs1, x, xs2, encs1, enc, encs2, rfl, rfl, h1, h2, h3⟩ :=
      FieldsEncode_append_inv fts1 ft fts2 xs encs h
    have hl1 := (FieldsEncode_length h1).2
    have h23 : FieldsEncode (ft :: fts2) (x :: xs2) (enc :: encs2) := .cons h2 h3
    obtain ⟨a1, a2, a3⟩ := layout_append h1 (ft :: fts2) (enc :: encs2)
      (fixedLen (fts1 ++ ft :: fts2))
    refine ⟨layoutFixed fts1 encs1 (fixedLen (fts1 ++ ft :: fts2)),
      layoutFixed fts2 encs2 (fixedLen (fts1 ++ ft :: fts2) + varSizeSum fts1 encs1 + enc.length)
        ++ layoutVar fts1 encs1,
      layoutVar fts2 encs2, enc, ?_, layoutFixed_length h1 _, ?_, ?_⟩
    · have hA : (layoutFixed fts1 encs1 (fixedLen (fts1 ++ ft :: fts2))).length + 4 +
          (layoutFixed fts2 encs2 (fixedLen (fts1 ++ ft :: fts2) + varSizeSum fts1 encs1
            + enc.length) ++ layoutVar fts1 encs1).length
          = fixedLen (fts1 ++ ft :: fts2) + varSizeSum fts1 encs1 := by
        rw [List.length_append, layoutFixed_length h1, layoutFixed_length h3, layoutVar_length, a3]
        simp [fixedLen, hvar]; omega
      rw [hsplit, a1, a2, hA]
      simp [layoutFixed, layoutVar, hvar]
    · rw [← hl1]; exact getElem?_append_length _ _ _
    · rw [hE, hsplit]
      simp only [List.length_append, leBytes_length, layoutFixed_length h1,
        layoutFixed_length h3, layoutVar_length, a3, ← hl1, List.take_left']
      simp [fixedLen, hvar]; omega

/-- Witness for C2: `Container{A: uint16, B: List(uint16, 1024), C: uint8}` with `A = 0xAABB`,
`B = [0x1111, 0x2222]`, `C = 0x77` serializes to `BB AA 07 00 00 00 77 11 11 22 22`. -/
theorem C2_container_layout_witness :
    FieldsEncode (VarTestFields.map (fun f => f.V)) VarTestValue
      [[0xBB, 0xAA], [[0x11, 0x11], [0x22, 0x22]].flatten, [0x77]] ∧
    VarTestStruct.Serialize (.struct "VarTestStruct" VarTestValue)
      = .ok [0xBB, 0xAA, 0x07, 0x00, 0x00, 0x00, 0x77, 0x11, 0x11, 0x22, 0x22] :=
  have hfe : FieldsEncode (VarTestFields.map (fun f => f.V)) VarTestValue
      [[0xBB, 0xAA], [[0x11, 0x11], [0x22, 0x22]].flatten, [0x77]] :=
    .cons (uint_encodes 16 .u16 0xAABB (by decide) (by decide))
      (.cons (list_encodes (Uint 16) 1024 rfl rfl _ _
        (.cons (uint_encodes 16 .u16 0x1111 (by decide) (by decide))
          (.cons (uint_encodes 16 .u16 0x2222 (by decide) (by decide)) .nil)) (by decide))
        (.cons (uint_encodes 8 .u8 0x77 (by decide) (by decide)) .nil))
  ⟨hfe, (C2_container_layout VarTestFields "VarTestStruct" VarTestValue _ hfe).1.trans
    (by decide)⟩

theorem basicValue_codec {E : SSZType} {x : Value} {enc : List Nat} (h : BasicValue E x enc) :
    Encodes E x enc ∧ Decodes E enc x ∧ E.IsVariableSize = false ∧ isBasicType E = true
      ∧ 0 < E.FixedSize := by
  cases h with
  | bool b => exact ⟨bool_encodes b, bool_decodes b, rfl, rfl, by decide⟩
  | uint w n hw hn =>
    refine ⟨uint_encodes w _ n hw hn, uint_decodes w n hw hn, rfl, rfl, ?_⟩
    show 0 < w / 8
    omega

theorem forall2_basicValue {E : SSZType} {xs : List Value} {encs : List (List Nat)}
    (h : List.Forall₂ (BasicValue E) xs encs) :
    List.Forall₂ (Encodes E) xs encs ∧ List.Forall₂ (Decodes E) encs xs := by
  induction h with
  | nil => exact ⟨.nil, .nil⟩
  | cons hb _ ih =>
    obtain ⟨h1, h2, _⟩ := basicValue_codec hb
    exact ⟨.cons h1 ih.1, .cons h2 ih.2⟩

/-- **C9.** Fixed-size sequence round trip.  For every `ByteVector(L)` and byte sequence of
length `L`, and for every `Vector(E, N)` with `N > 0`, `E` basic (`Bool` or `Uint`) and every
`N`-element value, `Serialize` returns the concatenated element encodings (a function of the
elements only), `Deserialize` of that output returns the value, and setting an index of
`Default()` yields the literal value with that element set. -/
theorem C9_fixed_sequence_roundtrip :
    (∀ (L : Nat) (bs : List Nat), bs.length = L →
      (ByteVector L).Serialize (Value.ofBytes bs) = .ok bs ∧
      (ByteVector L).Deserialize bs = .ok (Value.ofBytes bs) ∧
      (ByteVector L).Default = Value.ofBytes (zeros L)) ∧
    (∀ (E : SSZType) (N : Nat) (xs : List Value) (encs : List (List Nat)), 0 < N →
      xs.length = N → List.Forall₂ (BasicValue E) xs encs →
      (Vector E N).Serialize (.slice xs) = .ok encs.flatten ∧
      (Vector E N).Deserialize encs.flatten = .ok (.slice xs) ∧
      (Vector E N).Default = .slice (List.replicate N E.Zero) ∧
      ∀ i x, i < N →
        setIndex E (List.replicate N E.Zero) i x = .ok ((List.replicate N E.Zero).set i x)) := by
  constructor
  · intro L bs hL
    have he := byteVector_encodes L bs hL
    have hd := byteVector_decodes L bs hL
    refine ⟨?_, ?_, rfl⟩
    · have hS : (ByteVector L).Serialize (Value.ofBytes bs)
          = ((ByteVector L).SerializeTo (Value.ofBytes bs) (zeros L) 0).toRes := rfl
      have := he.ser [] []
      simp only [List.nil_append, List.append_nil, List.length_nil, hL] at this
      rw [hS, this, Wr.toRes_done]
    · have hD : (ByteVector L).Deserialize bs = (ByteVector L).DeserializeFrom bs 0 bs.length := rfl
      have := hd [] []
      simp only [List.nil_append, List.append_nil, List.length_nil, Nat.zero_add] at this
      rw [hD, this]
  · intro E N xs encs _ hN h
    obtain ⟨h1, h2⟩ := forall2_basicValue h
    have hfix : E.IsVariableSize = false := by
      cases h with
      | nil => simp at hN; omega
      | cons hb _ => exact (basicValue_codec hb).2.2.1
    have he := vector_encodes E N hfix xs encs h1 hN
    have hfs := (forall2_encodes_fixed hfix h1).1
    have hrt : returnsOwnType E = true := by
      cases h with
      | nil => simp at hN; omega
      | cons hb _ => exact returnsOwnType_of_basic (basicValue_codec hb).2.2.2.1
    have hd := vector_decodes E N hfix hrt encs xs h2 hfs hN
    refine ⟨?_, ?_, rfl, ?_⟩
    · have hS : (Vector E N).Serialize (.slice xs)
          = ((Vector E N).Size (.slice xs) >>= fun s =>
              ((Vector E N).SerializeTo (.slice xs) (zeros s) 0).toRes) := rfl
      have := he.ser [] []
      simp only [List.nil_append, List.append_nil, List.length_nil] at this
      rw [hS, he.size, Res.ok_bind, this, Wr.toRes_done]
    · have hD : (Vector E N).Deserialize encs.flatten
          = (Vector E N).DeserializeFrom encs.flatten 0 encs.flatten.length := rfl
      have := hd [] []
      simp only [List.nil_append, List.append_nil, List.length_nil, Nat.zero_add] at this
      rw [hD, this]
    · intro i x hi
      simp [setIndex, hi, hrt]

/-- Witness for C9: `ByteVector(4)` with `[1,0,0,0]` and `Vector(Bool, 4)` with
`[true,false,false,false]`, each also obtained by setting index 0 of `Default()`. -/
theorem C9_fixed_sequence_roundtrip_witness :
    ([1, 0, 0, 0].length = 4 ∧ 0 < 4 ∧
      List.Forall₂ (BasicValue SszBool) [.bool true, .bool false, .bool false, .bool false]
        [[1], [0], [0], [0]]) ∧
    ((ByteVector 4).Serialize (Value.ofBytes [1, 0, 0, 0]) = .ok [1, 0, 0, 0] ∧
      (ByteVector 4).Deserialize [1, 0, 0, 0] = .ok (Value.ofBytes [1, 0, 0, 0])) ∧
    ((Vector SszBool 4).Serialize (.slice [.bool true, .bool false, .bool false, .bool false])
        = .ok [1, 0, 0, 0] ∧
      (Vector SszBool 4).Deserialize [1, 0, 0, 0]
        = .ok (.slice [.bool true, .bool false, .bool false, .bool false])) ∧
    setIndex SszBool (List.replicate 4 SszBool.Zero) 0 (.bool true)
      = .ok [.bool true, .bool false, .bool false, .bool false] :=
  have hb : List.Forall₂ (BasicValue SszBool)
      [.bool true, .bool false, .bool false, .bool false] [[1], [0], [0], [0]] :=
    .cons (.bool true) (.cons (.bool false) (.cons (.bool false) (.cons (.bool false) .nil)))
  have hv := C9_fixed_sequence_roundtrip.2 SszBool 4
    [.bool true, .bool false, .bool false, .bool false] [[1], [0], [0], [0]] (by decide) rfl hb
  have hbv := C9_fixed_sequence_roundtrip.1 4 [1, 0, 0, 0] rfl
  ⟨⟨rfl, by decide, hb⟩, ⟨hbv.1, hbv.2.1⟩, ⟨hv.1, hv.2.1⟩, hv.2.2.2 0 (.bool true) (by decide)⟩

theorem varStarts_head : ∀ (fts : List SSZType) (encs : List (List Nat)) (voff : Nat),
    encs.length = fts.length →
    (varStarts fts encs voff ++ [voff + varSizeSum fts encs])[0]? = some voff := by
  intro fts
  induction fts with
  | nil => intro encs voff _; simp [varStarts, varSizeSum]
  | cons ft fts ih =>
    intro encs voff hl
    cases encs with
    | nil => simp at hl
    | cons enc encs =>
      by_cases hvar : ft.IsVariableSize = true
      · simp [varStarts, hvar]
      · have := ih encs voff (by simpa using hl)
        simpa [varStarts, varSizeSum, hvar] using this

/-- The loop of `readOffsets` on a serialized container reads the payload starts. -/
theorem readOffsetsLoop_eq (t : ContainerType) (start : Nat) (size : Int) :
    ∀ (fts : List SSZType) (xs : List Value) (encs : List (List Nat)),
    FieldsEncode fts xs encs →
    ∀ (off voff : Nat) (P Rest b : List Nat) (i prev : Nat) (acc : List Nat),
    P.length = start + off →
    b = P ++ (layoutFixed fts encs voff ++ Rest) →
    ((voff + varSizeSum fts encs : Nat) : Int) ≤ size →
    voff + varSizeSum fts encs < 2 ^ 32 →
    (i = 0 → voff = t.fixedEnd) → (i ≠ 0 → prev ≤ voff) →
    readOffsetsLoop t b start size (slotsFrom fts off) i prev acc
      = .ok (acc ++ varStarts fts encs voff) := by
  intro fts xs encs h
  induction h with
  | nil => intro off voff P Rest b i prev acc _ _ _ _ _ _; simp [slotsFrom, readOffsetsLoop, varStarts]
  | @cons ft x enc fts xs encs he _ ih =>
    intro off voff P Rest b i prev acc hP hb hsz h32 hi0 hi1
    by_cases hvar : ft.IsVariableSize = true
    · have hvs : varSizeSum (ft :: fts) (enc :: encs) = enc.length + varSizeSum fts encs := by
        simp [varSizeSum, hvar]
      rw [hvs] at hsz h32
      have hb1 : b = P ++ leBytes 4 voff ++ (layoutFixed fts encs (voff + enc.length) ++ Rest) := by
        rw [hb]; simp [layoutFixed, hvar]
      have hget : getUintAt 4 b (start + off) = .ok voff := by
        rw [hb1, ← hP, getUintAt_mid 4 P _ _ (leBytes_length 4 voff), leValue_leBytes]
        congr 1
        exact Nat.mod_eq_of_lt (by omega)
      have hc1 : ¬ ((voff : Int) > size) := by omega
      have hc2 : ¬ (i = 0 ∧ voff ≠ t.fixedEnd) := by
        rintro ⟨h0, hne⟩; exact hne (hi0 h0)
      have hc3 : ¬ (i ≠ 0 ∧ voff < prev) := by
        rintro ⟨h0, hlt⟩; have := hi1 h0; omega
      simp only [slotsFrom, hvar, ↓reduceIte, readOffsetsLoop, hget, Res.ok_bind, hc1, hc2, hc3]
      rw [ih (off + 4) (voff + enc.length) (P ++ leBytes 4 voff) Rest b (i + 1) voff
        (acc ++ [voff]) (by simp [leBytes_length]; omega) hb1 (by omega) (by omega)
        (by omega) (by omega)]
      simp [varStarts, hvar]
    · have hvar' : ft.IsVariableSize = false := by simpa using hvar
      have hvs : varSizeSum (ft :: fts) (enc :: encs) = varSizeSum fts encs := by
        simp [varSizeSum, hvar']
      rw [hvs] at hsz h32
      simp only [slotsFrom, hvar', Bool.false_eq_true, ↓reduceIte]
      rw [ih (off + ft.FixedSize) voff (P ++ enc) Rest b i prev acc
        (by simp [he.fixed hvar']; omega) (by rw [hb]; simp [layoutFixed, hvar'])
        hsz h32 hi0 hi1]
      simp [varStarts, hvar']

/-- The loop of `ContainerType.DeserializeFrom` on a serialized container reads the fields. -/
theorem containerDeserializeLoop_eq (t : ContainerType) (start total : Nat) (b : List Nat)
    (offsets : List Nat) :
    ∀ (fts : List SSZType) (xs : List Value) (encs : List (List Nat)),
    FieldsEncode fts xs encs → FieldsDecode fts encs xs →
    ∀ (R1 : List (Nat × Nat)) (O1 : List Nat) (off voff : Nat) (P1 Rest1 P2 Rest2 : List Nat)
      (variableIx fixedIx : Nat) (acc : List Value),
    t.fixedFieldRanges = R1 ++ rangesFrom fts off → fixedIx = R1.length →
    offsets = O1 ++ (varStarts fts encs voff ++ [total]) → variableIx = O1.length →
    total = voff + varSizeSum fts encs →
    P1.length = start + off → b = P1 ++ (layoutFixed fts encs voff ++ Rest1) →
    P2.length = start + voff → b = P2 ++ (layoutVar fts encs ++ Rest2) →
    containerDeserializeLoop t b start offsets fts variableIx fixedIx acc = .ok (acc ++ xs) := by
  intro fts xs encs h
  induction h with
  | nil =>
    intro _ R1 O1 off voff P1 Rest1 P2 Rest2 variableIx fixedIx acc _ _ _ _ _ _ _ _ _
    simp [containerDeserializeLoop]
  | @cons ft x enc fts xs encs he hrest ih =>
    intro hd R1 O1 off voff P1 Rest1 P2 Rest2 variableIx fixedIx acc hR hfx hO hvx hT hP1 hb1
      hP2 hb2
    cases hd with
    | cons hdec hdrest =>
    have hel := (FieldsEncode_length hrest).2
    unfold containerDeserializeLoop
    by_cases hvar : ft.IsVariableSize = true
    · simp only [hvar, Bool.not_true, Bool.false_eq_true, ↓reduceIte]
      have hvs : varSizeSum (ft :: fts) (enc :: encs) = enc.length + varSizeSum fts encs := by
        simp [varSizeSum, hvar]
      have hO' : offsets = O1 ++ voff :: (varStarts fts encs (voff + enc.length) ++ [total]) := by
        rw [hO]; simp [varStarts, hvar]
      have hT' : total = voff + enc.length + varSizeSum fts encs := by rw [hT, hvs]; omega
      have hl0 : offsets[variableIx]? = some voff := by
        rw [hO', hvx]; exact getElem?_append_length _ _ _
      have hl1 : offsets[variableIx + 1]? = some (voff + enc.length) := by
        rw [hO', hvx, List.getElem?_append_right (by omega)]
        have : O1.length + 1 - O1.length = 1 := by omega
        rw [this, List.getElem?_cons_succ, hT']
        exact varStarts_head fts encs (voff + enc.length) hel
      have hde : ft.DeserializeFrom b (start + voff) (start + (voff + enc.length)) = .ok x := by
        have := hdec P2 (layoutVar fts encs ++ Rest2)
        rw [← this, hb2, hP2]
        congr 1
        · simp [layoutVar, hvar]
        · omega
      simp only [hl0, hl1, hde, Res.ok_bind]
      rw [ih hdrest R1 (O1 ++ [voff]) (off + 4) (voff + enc.length) (P1 ++ leBytes 4 voff) Rest1
        (P2 ++ enc) Rest2 (variableIx + 1) fixedIx (acc ++ [x])
        (by rw [hR]; simp [rangesFrom, hvar]) hfx (by rw [hO']; simp) (by simp [hvx]) hT'
        (by simp [leBytes_length]; omega) (by rw [hb1]; simp [layoutFixed, hvar])
        (by simp; omega) (by rw [hb2]; simp [layoutVar, hvar])]
      simp
    · have hvar' : ft.IsVariableSize = false := by simpa using hvar
      simp only [hvar', Bool.not_false, ↓reduceIte]
      have hlen := he.fixed hvar'
      have hR' : t.fixedFieldRanges
          = R1 ++ (off, off + ft.FixedSize) :: rangesFrom fts (off + ft.FixedSize) := by
        rw [hR]; simp [rangesFrom, hvar']
      have hlook : t.fixedFieldRanges[fixedIx]? = some (off, off + ft.FixedSize) := by
        rw [hR', hfx]; exact getElem?_append_length _ _ _
      have hde : ft.DeserializeFrom b (start + off) (start + (off + ft.FixedSize)) = .ok x := by
        have := hdec P1 (layoutFixed fts encs voff ++ Rest1)
        rw [← this, hb1, hP1, hlen]
        congr 1
        · simp [layoutFixed, hvar']
        · omega
      simp only [hlook, hde, Res.ok_bind]
      rw [ih hdrest (R1 ++ [(off, off + ft.FixedSize)]) O1 (off + ft.FixedSize) voff (P1 ++ enc)
        Rest1 P2 Rest2 variableIx (fixedIx + 1) (acc ++ [x])
        (by rw [hR']; simp) (by simp [hfx]) (by rw [hO]; simp [varStarts, hvar'])
        hvx (by rw [hT]; simp [varSizeSum, hvar'])
        (by simp [hlen]; omega) (by rw [hb1]; simp [layoutFixed, hvar'])
        hP2 (by rw [hb2]; simp [layoutVar, hvar'])]
      simp

/-- A container reads its own layout back, wherever in a buffer it lies, when each field
encoding is read back by its descriptor and the offsets fit in 32 bits. -/
theorem container_decodes (fields : List Field) (typ : String) (xs : List Value)
    (encs : List (List Nat)) (he : FieldsEncode (fields.map (fun f => f.V)) xs encs)
    (hd : FieldsDecode (fields.map (fun f => f.V)) encs xs)
    (h32 : fixedLen (fields.map (fun f => f.V)) + varSizeSum (fields.map (fun f => f.V)) encs
      < 2 ^ 32) :
    Decodes (Container fields typ)
      (layoutFixed (fields.map (fun f => f.V)) encs (fixedLen (fields.map (fun f => f.V)))
        ++ layoutVar (fields.map (fun f => f.V)) encs) (.struct typ xs) := by
  obtain ⟨hR, hV, hE, hT, hN, hty⟩ := make_tables fields typ
  have hlen := FieldsEncode_length he
  generalize hfts : fields.map (fun f => f.V) = fts at *
  have hl : (layoutFixed fts encs (fixedLen fts) ++ layoutVar fts encs).length
      = fixedLen fts + varSizeSum fts encs := by
    rw [List.length_append, layoutFixed_length he, layoutVar_length]
  intro pre post
  have hD : ∀ b s e, (Container fields typ).DeserializeFrom b s e
      = (ContainerType.make fields typ).DeserializeFrom b s e := fun _ _ _ => rfl
  rw [hD]
  unfold ContainerType.DeserializeFrom
  have hsz : ((pre.length + (layoutFixed fts encs (fixedLen fts) ++ layoutVar fts encs).length
      : Nat) : Int) - (pre.length : Int) = ((fixedLen fts + varSizeSum fts encs : Nat) : Int) := by
    rw [int_range_sub, hl]
  have hcond : ¬ ((!(ContainerType.make fields typ).IsVariableSize) = true ∧
      ((fixedLen fts + varSizeSum fts encs : Nat) : Int)
        ≠ ((ContainerType.make fields typ).fixedEnd : Int)) := by
    rintro ⟨hv, hne⟩
    apply hne
    have hfix : fts.any (fun ft => ft.IsVariableSize) = false := by
      simpa [ContainerType.IsVariableSize, hT] using hv
    rw [(container_isVariableSize_false hfix).2, hE]
    simp
  have hro : readOffsets (ContainerType.make fields typ)
      (pre ++ (layoutFixed fts encs (fixedLen fts) ++ layoutVar fts encs) ++ post) pre.length
      (pre.length + (layoutFixed fts encs (fixedLen fts) ++ layoutVar fts encs).length)
      = .ok (varStarts fts encs (fixedLen fts) ++ [fixedLen fts + varSizeSum fts encs]) := by
    unfold readOffsets
    simp only [hsz, hV]
    rw [readOffsetsLoop_eq (ContainerType.make fields typ) pre.length _ fts xs encs he 0
      (fixedLen fts) pre (layoutVar fts encs ++ post) _ 0 0 [] (by simp) (by simp)
      (Int.le_refl _) h32 (fun _ => hE.symm) (fun h => absurd rfl h)]
    simp only [Res.ok_bind, List.nil_append, Int.toNat_ofNat, Res.pure_eq]
  have hloop := containerDeserializeLoop_eq (ContainerType.make fields typ) pre.length
    (fixedLen fts + varSizeSum fts encs)
    (pre ++ (layoutFixed fts encs (fixedLen fts) ++ layoutVar fts encs) ++ post)
    (varStarts fts encs (fixedLen fts) ++ [fixedLen fts + varSizeSum fts encs])
    fts xs encs he hd [] [] 0 (fixedLen fts) pre (layoutVar fts encs ++ post)
    (pre ++ layoutFixed fts encs (fixedLen fts)) post 0 0 []
    (by simpa using hR) rfl (by simp) rfl rfl (by simp) (by simp)
    (by simp [layoutFixed_length he]) (by simp)
  simp only [hsz, hcond, ↓reduceIte, hro, Res.ok_bind, hT, hloop, List.nil_append]
  simp [ContainerType.SetFieldValues, hN, hlen.1, hty, ← hfts]

theorem varTest_fieldsEncode :
    FieldsEncode (VarTestFields.map (fun f => f.V)) VarTestValue
      [[0xBB, 0xAA], [[0x11, 0x11], [0x22, 0x22]].flatten, [0x77]] :=
  .cons (uint_encodes 16 .u16 0xAABB (by decide) (by decide))
    (.cons (list_encodes (Uint 16) 1024 rfl rfl _ _
      (.cons (uint_encodes 16 .u16 0x1111 (by decide) (by decide))
        (.cons (uint_encodes 16 .u16 0x2222 (by decide) (by decide)) .nil)) (by decide))
      (.cons (uint_encodes 8 .u8 0x77 (by decide) (by decide)) .nil))

theorem varTest_fieldsDecode :
    FieldsDecode (VarTestFields.map (fun f => f.V))
      [[0xBB, 0xAA], [[0x11, 0x11], [0x22, 0x22]].flatten, [0x77]] VarTestValue :=
  .cons (uint_decodes 16 0xAABB (by decide) (by decide))
    (.cons (list_decodes (Uint 16) 1024 rfl rfl (by decide) [[0x11, 0x11], [0x22, 0x22]] _
      (.cons (uint_decodes 16 0x1111 (by decide) (by decide))
        (.cons (uint_decodes 16 0x2222 (by decide) (by decide)) .nil))
      (by decide) (by decide))
      (.cons (uint_decodes 8 0x77 (by decide) (by decide)) .nil))

/-- **C10.** Container round trip is compositional: when every field value is written by its
field descriptor as some encoding, with `Size` equal to the length of that encoding, and that
encoding is read back by the descriptor as the field value (both wherever the bytes lie in the
container's buffer), and the encodings fit 32-bit offsets, then
`Container.Deserialize(Container.Serialize(v))` succeeds and equals `v`; the container is then
itself written and read back wherever its bytes lie, so the law applies to nested containers.
Empty payloads of variable-size fields are included. -/
theorem C10_container_roundtrip (fields : List Field) (typ : String) (xs : List Value)
    (encs : List (List Nat)) (he : FieldsEncode (fields.map (fun f => f.V)) xs encs)
    (hd : FieldsDecode (fields.map (fun f => f.V)) encs xs)
    (h32 : fixedLen (fields.map (fun f => f.V)) + varSizeSum (fields.map (fun f => f.V)) encs
      < 2 ^ 32) :
    ∃ out, (Container fields typ).Serialize (.struct typ xs) = .ok out ∧
      (Container fields typ).Deserialize out = .ok (.struct typ xs) ∧
      Encodes (Container fields typ) (.struct typ xs) out ∧
      Decodes (Container fields typ) out (.struct typ xs) := by
  have hdec := container_decodes fields typ xs encs he hd h32
  refine ⟨_, container_serialize_eq fields typ xs encs he, ?_,
    container_encodes fields typ xs encs he, hdec⟩
  have := hdec [] []
  simp only [List.nil_append, List.append_nil, List.length_nil, Nat.zero_add] at this
  exact this

/-- Witness for C10: the `VarTestStruct` value `{A=0xAABB, B=[0x1111,0x2222], C=0x77}`, and a
container with two variable-size fields whose payloads are both empty. -/
theorem C10_container_roundtrip_witness :
    (FieldsEncode (VarTestFields.map (fun f => f.V)) VarTestValue
        [[0xBB, 0xAA], [[0x11, 0x11], [0x22, 0x22]].flatten, [0x77]] ∧
      FieldsDecode (VarTestFields.map (fun f => f.V))
        [[0xBB, 0xAA], [[0x11, 0x11], [0x22, 0x22]].flatten, [0x77]] VarTestValue) ∧
    (∃ out, VarTestStruct.Serialize (.struct "VarTestStruct" VarTestValue) = .ok out ∧
      VarTestStruct.Deserialize out = .ok (.struct "VarTestStruct" VarTestValue)) ∧
    (∃ out, (Container TwoListsFields "T").Serialize
        (.struct "T" [Value.ofBytes [], Value.ofBytes []]) = .ok out ∧
      out = [8, 0, 0, 0, 8, 0, 0, 0] ∧
      (Container TwoListsFields "T").Deserialize out
        = .ok (.struct "T" [Value.ofBytes [], Value.ofBytes []])) :=
  have h1 := C10_container_roundtrip VarTestFields "VarTestStruct" VarTestValue _
    varTest_fieldsEncode varTest_fieldsDecode (by decide)
  have h2 := C10_container_roundtrip TwoListsFields "T" [Value.ofBytes [], Value.ofBytes []]
    [[], []]
    (.cons (byteList_encodes 4 [] (by decide)) (.cons (byteList_encodes 4 [] (by decide)) .nil))
    (.cons (byteList_decodes 4 [] (by decide)) (.cons (byteList_decodes 4 [] (by decide)) .nil))
    (by decide)
  ⟨⟨varTest_fieldsEncode, varTest_fieldsDecode⟩,
   match h1 with
   | ⟨out, a, b, _⟩ => ⟨out, a, b⟩,
   match h2 with
   | ⟨out, a, b, _⟩ => ⟨out, a, (Res.ok.inj (a.symm.trans (by decide))), b⟩⟩

theorem slotsFrom_sorted : ∀ (fts : List SSZType) (off : Nat),
    List.Pairwise (fun a b => a ≤ b) (slotsFrom fts off) ∧ ∀ o ∈ slotsFrom fts off, off ≤ o := by
  intro fts
  induction fts with
  | nil => intro off; simp [slotsFrom]
  | cons ft fts ih =>
    intro off
    by_cases hvar : ft.IsVariableSize = true
    · obtain ⟨h1, h2⟩ := ih (off + 4)
      simp only [slotsFrom, hvar, ↓reduceIte, List.pairwise_cons, List.mem_cons, forall_eq_or_imp,
        Nat.le_refl, true_and]
      exact ⟨⟨fun o ho => by have := h2 o ho; omega, h1⟩, fun o ho => by have := h2 o ho; omega⟩
    · obtain ⟨h1, h2⟩ := ih (off + ft.FixedSize)
      simp only [slotsFrom, hvar, Bool.false_eq_true, ↓reduceIte]
      exact ⟨h1, fun o ho => by have := h2 o ho; omega⟩

/-- The loop of `readOffsets` returns an error when two adjacent slots hold decreasing values
and the slots before them can be read. -/
theorem readOffsetsLoop_decreasing (t : ContainerType) (b : List Nat) (start : Nat) (size : Int)
    (o1 o2 : Nat) (V2 : List Nat) (x y : Nat)
    (h1 : getUintAt 4 b (start + o1) = .ok x) (h2 : getUintAt 4 b (start + o2) = .ok y)
    (hlt : y < x) :
    ∀ (V1 : List Nat), (∀ o ∈ V1, start + o + 4 ≤ b.length) → ∀ (i prev : Nat) (acc : List Nat),
    (readOffsetsLoop t b start size (V1 ++ o1 :: o2 :: V2) i prev acc).isError = true := by
  intro V1
  induction V1 with
  | nil =>
    intro _ i prev acc
    simp only [List.nil_append, readOffsetsLoop, h1, Res.ok_bind]
    split
    · rfl
    · split
      · rfl
      · split
        · rfl
        · simp only [readOffsetsLoop, h2, Res.ok_bind]
          split
          · rfl
          · have hc : i + 1 ≠ 0 ∧ y < x := ⟨by omega, hlt⟩
            simp [hc, Res.isError]
  | cons o V1 ih =>
    intro hr i prev acc
    have ho : getUintAt 4 b (start + o) = .ok (leValue ((b.drop (start + o)).take 4)) := by
      unfold getUintAt
      rw [if_pos (hr o (by simp))]
    simp only [List.cons_append, readOffsetsLoop, ho, Res.ok_bind]
    split
    · rfl
    · split
      · rfl
      · split
        · rfl
        · exact ih (fun o' ho' => hr o' (by simp [ho'])) _ _ _

theorem isError_bind_of_isError {α β : Type} {r : Res α} (f : α → Res β)
    (h : r.isError = true) : (r >>= f).isError = true := by
  cases r with
  | ok a => simp [Res.isError] at h
  | error e => rfl
  | panic => simp [Res.isError] at h

/-- **C3 (amended).** Offset monotonicity on decode, as the code has it: for every container,
`Deserialize` returns an error on every input in which an offset slot holds a value smaller
than the slot before it.  (Equal adjacent offsets are accepted: they describe an empty
payload.) -/
theorem C3_offsets_nondecreasing (fields : List Field) (typ : String) (b : List Nat)
    (V1 : List Nat) (o1 o2 : Nat) (V2 : List Nat) (x y : Nat)
    (hV : (ContainerType.make fields typ).variableOffsets = V1 ++ o1 :: o2 :: V2)
    (h1 : getUintAt 4 b o1 = .ok x) (h2 : getUintAt 4 b o2 = .ok y) (hlt : y < x) :
    ((Container fields typ).Deserialize b).isError = true := by
  have hD : (Container fields typ).Deserialize b
      = (ContainerType.make fields typ).DeserializeFrom b 0 b.length := rfl
  rw [hD]
  unfold ContainerType.DeserializeFrom
  split
  · rfl
  · apply isError_bind_of_isError
    unfold readOffsets
    apply isError_bind_of_isError
    rw [hV]
    have hsorted := (slotsFrom_sorted (fields.map (fun f => f.V)) 0).1
    rw [← (make_tables fields typ).2.1, hV] at hsorted
    have hle : ∀ o ∈ V1, o ≤ o1 := by
      intro o ho
      have := (List.pairwise_append.mp hsorted).2.2 o ho o1 (by simp)
      exact this
    have ho1 : o1 + 4 ≤ b.length := by
      unfold getUintAt at h1
      by_contra hc
      rw [if_neg hc] at h1
      exact absurd h1 (by simp)
    exact readOffsetsLoop_decreasing _ b 0 _ o1 o2 V2 x y (by simpa using h1) (by simpa using h2)
      hlt V1 (fun o ho => by have := hle o ho; omega) 0 0 []

/-- Witness for C3 (amended): with two byte-list fields, slots holding 8 (the end of the fixed
region) and then 7. -/
theorem C3_offsets_nondecreasing_witness :
    ((ContainerType.make TwoListsFields "T").variableOffsets = [] ++ 0 :: 4 :: [] ∧
      getUintAt 4 [8, 0, 0, 0, 7, 0, 0, 0, 1] 0 = .ok 8 ∧
      getUintAt 4 [8, 0, 0, 0, 7, 0, 0, 0, 1] 4 = .ok 7 ∧ 7 < 8) ∧
    ((Container TwoListsFields "T").Deserialize [8, 0, 0, 0, 7, 0, 0, 0, 1]).isError = true :=
  ⟨⟨by decide, by decide, by decide, by decide⟩,
   C3_offsets_nondecreasing TwoListsFields "T" [8, 0, 0, 0, 7, 0, 0, 0, 1] [] 0 4 [] 8 7
     (by decide) (by decide) (by decide) (by decide)⟩

/-- Counterexample to C3 as stated: a container with two variable-size fields whose two offset
slots both hold 8 is decoded successfully (both payloads are empty). -/
theorem C3_equal_offsets_accepted :
    (ContainerType.make TwoListsFields "T").variableOffsets = [0, 4] ∧
    getUintAt 4 [8, 0, 0, 0, 8, 0, 0, 0] 0 = .ok 8 ∧
    getUintAt 4 [8, 0, 0, 0, 8, 0, 0, 0] 4 = .ok 8 ∧
    (Container TwoListsFields "T").Deserialize [8, 0, 0, 0, 8, 0, 0, 0]
      = .ok (.struct "T" [Value.ofBytes [], Value.ofBytes []]) :=
  ⟨by decide, by decide, by decide, by rfl⟩

/-- **C1 (failing input).** `List(ByteList(4), 4)` on the value `[[1], [2]]`: `Serialize`
succeeds, `Deserialize` of the output succeeds, and the value it returns is `[[], [2]]`, not
the value that was serialized. -/
theorem C1_list_roundtrip_fails :
    (SszList (ByteList 4) 4).Serialize (.slice [Value.ofBytes [1], Value.ofBytes [2]])
      = .ok [8, 0, 0, 0, 9, 0, 0, 0, 1, 2] ∧
    (SszList (ByteList 4) 4).Deserialize [8, 0, 0, 0, 9, 0, 0, 0, 1, 2]
      = .ok (.slice [Value.ofBytes [], Value.ofBytes [2]]) ∧
    Value.slice [Value.ofBytes [], Value.ofBytes [2]]
      ≠ Value.slice [Value.ofBytes [1], Value.ofBytes [2]] :=
  ⟨by decide, by rfl, by simp [Value.ofBytes]⟩

/-- **C11 (failing input).** `List(ByteList(8), 3)` on the value `[[1,2], [3], [4,5,6]]`, whose
three elements have non-empty encodings: `Serialize` succeeds, `Deserialize` of the output
succeeds and returns three elements, but element 0 is empty and element 1 is `[1,2]`. -/
theorem C11_variable_list_roundtrip_fails :
    (SszList (ByteList 8) 3).Serialize
        (.slice [Value.ofBytes [1, 2], Value.ofBytes [3], Value.ofBytes [4, 5, 6]])
      = .ok [12, 0, 0, 0, 14, 0, 0, 0, 15, 0, 0, 0, 1, 2, 3, 4, 5, 6] ∧
    (SszList (ByteList 8) 3).Deserialize [12, 0, 0, 0, 14, 0, 0, 0, 15, 0, 0, 0, 1, 2, 3, 4, 5, 6]
      = .ok (.slice [Value.ofBytes [], Value.ofBytes [1, 2], Value.ofBytes [4, 5, 6]]) ∧
    Value.ofBytes [] ≠ Value.ofBytes [1, 2] ∧ Value.ofBytes [1, 2] ≠ Value.ofBytes [3] :=
  ⟨by decide, by rfl, by simp [Value.ofBytes], by simp [Value.ofBytes]⟩

/-- **C12 (failing input).** `List(ByteList(4), 4)`, whose elements are variable-size, on the
empty input: `Deserialize` reads the first offset from an empty buffer and faults.  With
fixed-size elements (`List(Uint(8), 4)`) the empty input does give the empty list. -/
theorem C12_empty_input_faults :
    (ByteList 4).IsVariableSize = true ∧
    (SszList (ByteList 4) 4).Deserialize [] = .panic ∧
    (SszList (Uint 8) 4).Deserialize [] = .ok (.slice []) :=
  ⟨rfl, by rfl, by rfl⟩

/-- **C13 (failing input).** `Vector(ByteList(16), 2)` and `List(ByteList(16), 2)` on the eight
bytes `08 00 00 00 0c 00 00 00`: the second offset slot holds 12, more than the length 8 of the
input; `Deserialize` does not return an error, it faults on the slice `b[8:12]`. -/
theorem C13_offset_beyond_input :
    getUintAt 4 [8, 0, 0, 0, 12, 0, 0, 0] 4 = .ok 12 ∧
    (Vector (ByteList 16) 2).Deserialize [8, 0, 0, 0, 12, 0, 0, 0] = .panic ∧
    (SszList (ByteList 16) 2).Deserialize [8, 0, 0, 0, 12, 0, 0, 0] = .panic :=
  ⟨by decide, by rfl, by rfl⟩

/-- **C16 (failing input).** `List(ByteVector(4), 10)` on the one-element value `[[1,2,3,4]]`:
the element descriptor is fixed-size with `FixedSize() = 4`, yet `Size` returns 8 (it adds 4
per element), and `Serialize` returns eight bytes. -/
theorem C16_list_size_fixed_nonbasic :
    (ByteVector 4).IsVariableSize = false ∧ (ByteVector 4).FixedSize = 4 ∧
    isBasicType (ByteVector 4) = false ∧
    (SszList (ByteVector 4) 10).Size (.slice [Value.ofBytes [1, 2, 3, 4]]) = .ok 8 ∧
    (SszList (ByteVector 4) 10).Serialize (.slice [Value.ofBytes [1, 2, 3, 4]])
      = .ok [1, 2, 3, 4, 0, 0, 0, 0] :=
  ⟨rfl, rfl, rfl, by decide, by decide⟩

/-- **C23 (failing input).** `Uint(8)` on the unsigned host value 300 (a `uint16`): `Serialize`
does not return an error, it faults; on the signed host value 300 it returns the error. -/
theorem C23_unsigned_out_of_range_faults :
    (Uint 8).Serialize (.uint .u16 300) = .panic ∧
    (Uint 8).Serialize (.int .i16 300) = .error .outOfRange :=
  ⟨by decide, by decide⟩

/-- **C32 (failing input).** `BitList(5)` on the empty input faults on `b[end-1]`;
`Vector(ByteList(4), 2)` on the empty input and the container `VarTestStruct` on an input
shorter than its offset slot fault on reading the offset. -/
theorem C32_decode_faults :
    (BitList 5).Deserialize [] = .panic ∧
    (Vector (ByteList 4) 2).Deserialize [] = .panic ∧
    VarTestStruct.Deserialize [1, 0] = .panic :=
  ⟨by rfl, by rfl, by rfl⟩

/-- **C33 (failing input).** `List(ByteList(1), 4)` and `Vector(ByteList(1), 1)` on the value
`[[1,2]]`, whose element is longer than the element limit 1: the element's `SerializeTo` fails,
and `Serialize` of the sequence succeeds all the same. -/
theorem C33_element_error_swallowed :
    (ByteList 1).SerializeTo (Value.ofBytes [1, 2]) [4, 0, 0, 0, 0, 0] 4
      = .fail .lengthExceedsLimit [4, 0, 0, 0, 0, 0] ∧
    (SszList (ByteList 1) 4).Serialize (.slice [Value.ofBytes [1, 2]]) = .ok [4, 0, 0, 0, 0, 0] ∧
    (Vector (ByteList 1) 1).Serialize (.slice [Value.ofBytes [1, 2]]) = .ok [4, 0, 0, 0, 0, 0] :=
  ⟨by decide, by decide, by decide⟩

/-- **C34 (failing input).** `Merkleize([], 0)` is `ZeroHash(64)` for every hash function,
because `limit - 1` wraps around; with a hash function that returns the chunk `[1]` it is not
32 zero bytes, whereas `Merkleize([], 1)` is. -/
theorem C34_merkleize_empty_limit_zero :
    (∀ H : Chunk → Chunk → Chunk, Merkleize H [] 0 = ZeroHash H 64) ∧
    Merkleize constHash [] 0 = [1] ∧ Merkleize constHash [] 0 ≠ zeros 32 ∧
    Merkleize constHash [] 1 = zeros 32 ∧ chunksToDepth 0 = 0 :=
  ⟨fun _ => by rfl, by rfl, by decide, by rfl, by rfl⟩

/-- **C35 (failing input).** `BitList(4)` on a bit array of 9 bits: `HashTreeRoot` returns a
root (for every hash function), although `Serialize` rejects the same value for its length. -/
theorem C35_bitlist_root_ignores_limit :
    (∀ H : Chunk → Chunk → Chunk,
      ((BitList 4).HashTreeRoot H (.bitArray { Data := [255, 1], Bitlen := 9 })).isOk = true) ∧
    (BitList 4).Serialize (.bitArray { Data := [255, 1], Bitlen := 9 })
      = .error .lengthExceedsLimit :=
  ⟨fun _ => rfl, by decide⟩

/-- **C36 (failing input).** `Vector(ByteVector(4), 2)`: `Default()` is two empty byte slices
(the zero value of the element's host type, not the element's default), and `Serialize` of it
fails with a length mismatch. -/
theorem C36_vector_default_invalid :
    (Vector (ByteVector 4) 2).Default = .slice [.slice [], .slice []] ∧
    (ByteVector 4).Default = Value.ofBytes [0, 0, 0, 0] ∧
    (Vector (ByteVector 4) 2).Serialize (Vector (ByteVector 4) 2).Default
      = .error .lengthMismatch :=
  ⟨by rfl, by rfl, by decide⟩

/-! ## Basic descriptors: codec and root -/

theorem Encodes.ser_zero {t : SSZType} {x : Value} {enc : List Nat} (h : Encodes t x enc) :
    t.SerializeTo x (zeros enc.length) 0 = .done enc := by
  have := h.ser [] []
  simpa using this

theorem Encodes.ser_padded {t : SSZType} {x : Value} {enc : List Nat} (h : Encodes t x enc)
    (n : Nat) (hn : enc.length ≤ n) :
    t.SerializeTo x (zeros n) 0 = .done (enc ++ zeros (n - enc.length)) := by
  have := h.ser [] (zeros (n - enc.length))
  have hz : zeros n = zeros enc.length ++ zeros (n - enc.length) := by
    rw [← zeros_add]; congr 1; omega
  rw [hz]
  simpa using this

theorem leBytes_getD : ∀ (w x i : Nat), i < w → (leBytes w x).getD i 0 = x / 256 ^ i % 256 := by
  intro w
  induction w with
  | zero => intro x i hi; omega
  | succ w ih =>
    intro x i hi
    cases i with
    | zero => simp [leBytes]
    | succ i =>
      simp only [leBytes, List.getD_cons_succ]
      rw [ih (x / 256) i (by omega), Nat.div_div_eq_div_mul, Nat.pow_succ, Nat.mul_comm]

theorem uint_max (w : Nat) (hw : w = 8 ∨ w = 16 ∨ w = 32 ∨ w = 64) :
    UintType.Max { Bitlen := w, fixedSize := w / 8 } = 2 ^ w - 1 := by
  rcases hw with h | h | h | h <;> subst h <;> rfl

theorem uint_signed_eq (w : Nat) (hw : w = 8 ∨ w = 16 ∨ w = 32 ∨ w = 64) (k : IKind) (x : Nat)
    (hx : x < 2 ^ w) (b : Buf) (s : Nat) :
    (Uint w).SerializeTo (.int k (x : Int)) b s = (Uint w).SerializeTo (.uint .u64 x) b s := by
  have hS : ∀ v b s, (Uint w).SerializeTo v b s
      = UintType.SerializeTo { Bitlen := w, fixedSize := w / 8 } v b s := fun _ _ _ => rfl
  rw [hS, hS]
  have hm := uint_max w hw
  have h1 : ¬ ((x : Int) < 0 ∨ x > 2 ^ w - 1) := by omega
  have h2 : ¬ (x > 2 ^ w - 1) := by omega
  simp only [UintType.SerializeTo, toUint64_natCast, hm]
  rw [if_neg h1, if_neg h2]

theorem uint_serialize (w : Nat) (hw : w = 8 ∨ w = 16 ∨ w = 32 ∨ w = 64) (x : Nat)
    (hx : x < 2 ^ w) :
    (∀ k, (Uint w).Serialize (.uint k x) = .ok (leBytes (w / 8) x)) ∧
    (∀ k, (Uint w).Serialize (.int k (x : Int)) = .ok (leBytes (w / 8) x)) := by
  have hSer : ∀ v, (Uint w).Serialize v = ((Uint w).SerializeTo v (zeros (w / 8)) 0).toRes :=
    fun _ => rfl
  have hu : ∀ k, (Uint w).SerializeTo (.uint k x) (zeros (w / 8)) 0
      = .done (leBytes (w / 8) x) := by
    intro k
    have := (uint_encodes w k x hw hx).ser_zero
    rwa [leBytes_length] at this
  refine ⟨fun k => ?_, fun k => ?_⟩
  · rw [hSer, hu, Wr.toRes_done]
  · rw [hSer, uint_signed_eq w hw k x hx, hu, Wr.toRes_done]

theorem uint_root (H : Chunk → Chunk → Chunk) (w : Nat) (hw : w = 8 ∨ w = 16 ∨ w = 32 ∨ w = 64)
    (x : Nat) (hx : x < 2 ^ w) :
    (∀ k, (Uint w).HashTreeRoot H (.uint k x) = .ok (leBytes (w / 8) x ++ zeros (32 - w / 8))) ∧
    (∀ k, (Uint w).HashTreeRoot H (.int k (x : Int))
      = .ok (leBytes (w / 8) x ++ zeros (32 - w / 8))) := by
  have hR : ∀ v, (Uint w).HashTreeRoot H v = ((Uint w).SerializeTo v (zeros 32) 0).toRes :=
    fun _ => rfl
  have hu : ∀ k, (Uint w).SerializeTo (.uint k x) (zeros 32) 0
      = .done (leBytes (w / 8) x ++ zeros (32 - w / 8)) := by
    intro k
    have := (uint_encodes w k x hw hx).ser_padded 32 (by rw [leBytes_length]; omega)
    rwa [leBytes_length] at this
  refine ⟨fun k => ?_, fun k => ?_⟩
  · rw [hR, hu, Wr.toRes_done]
  · rw [hR, uint_signed_eq w hw k x hx, hu, Wr.toRes_done]

/-- **C24.** `Bool.Serialize(false)` is the byte `0x00` and `Bool.Serialize(true)` the byte
`0x01`; `Bool.Deserialize(b)` returns `false` on exactly `[0x00]`, `true` on exactly `[0x01]`,
and an error on every other byte string (another byte, or another length). -/
theorem C24_bool_codec :
    SszBool.Serialize (.bool false) = .ok [0] ∧ SszBool.Serialize (.bool true) = .ok [1] ∧
    ∀ b : List Nat, SszBool.Deserialize b =
      if b = [0] then .ok (.bool false) else if b = [1] then .ok (.bool true)
      else if b.length = 1 then .error .invalidBool else .error .lengthMismatch := by
  refine ⟨by decide, by decide, ?_⟩
  intro b
  have hD : SszBool.Deserialize b = BoolType.DeserializeFrom b 0 b.length := rfl
  rw [hD]
  unfold BoolType.DeserializeFrom
  match b with
  | [] => simp
  | [x] =>
    by_cases h0 : x = 0
    · subst h0; simp [index]
    · by_cases h1 : x = 1
      · subst h1; simp [index]
      · simp [index, h0, h1]
  | x :: y :: r =>
    have : ¬ ((r.length : Int) + 1 = 0) := by omega
    simp [this]

/-- **C22.** For `n` in {8, 16, 32, 64} and `0 <= x < 2^n`, supplied as an unsigned or as a
signed host integer of any kind, `Uint(n).Serialize(x)` returns `n/8` bytes whose `i`-th byte
is `(x / 256^i) mod 256`. -/
theorem C22_uint_encode (w : Nat) (hw : w = 8 ∨ w = 16 ∨ w = 32 ∨ w = 64) (x : Nat)
    (hx : x < 2 ^ w) :
    (∀ k, (Uint w).Serialize (.uint k x) = .ok (leBytes (w / 8) x)) ∧
    (∀ k, (Uint w).Serialize (.int k (x : Int)) = .ok (leBytes (w / 8) x)) ∧
    (leBytes (w / 8) x).length = w / 8 ∧
    ∀ i, i < w / 8 → (leBytes (w / 8) x).getD i 0 = x / 256 ^ i % 256 :=
  ⟨(uint_serialize w hw x hx).1, (uint_serialize w hw x hx).2, leBytes_length _ _,
    fun i hi => leBytes_getD _ _ i hi⟩

/-- Witness for C22: `Uint(16)` with `0x0102` gives `02 01`. -/
theorem C22_uint_encode_witness :
    (Uint 16).Serialize (.uint .u16 0x0102) = .ok [2, 1] :=
  (C22_uint_encode 16 (by decide) 0x0102 (by decide)).1 .u16

/-- **C25.** For `Bool` and for `Uint(n)` with `n` in {8, 16, 32, 64} and every value in range
(unsigned or signed host integer), `HashTreeRoot` returns the bytes `Serialize` returns,
followed by zero bytes up to 32 bytes. -/
theorem C25_basic_root (H : Chunk → Chunk → Chunk) :
    (∀ b : Bool, SszBool.Serialize (.bool b) = .ok [if b then 1 else 0] ∧
      SszBool.HashTreeRoot H (.bool b) = .ok ([if b then 1 else 0] ++ zeros 31)) ∧
    (∀ w x : Nat, (w = 8 ∨ w = 16 ∨ w = 32 ∨ w = 64) → x < 2 ^ w →
      (∀ k, (Uint w).Serialize (.uint k x) = .ok (leBytes (w / 8) x) ∧
        (Uint w).HashTreeRoot H (.uint k x) = .ok (leBytes (w / 8) x ++ zeros (32 - w / 8))) ∧
      (∀ k, (Uint w).Serialize (.int k (x : Int)) = .ok (leBytes (w / 8) x) ∧
        (Uint w).HashTreeRoot H (.int k (x : Int))
          = .ok (leBytes (w / 8) x ++ zeros (32 - w / 8)))) := by
  refine ⟨fun b => ?_, fun w x hw hx => ⟨fun k => ⟨?_, ?_⟩, fun k => ⟨?_, ?_⟩⟩⟩
  · cases b <;> exact ⟨by decide, by rfl⟩
  · exact (uint_serialize w hw x hx).1 k
  · exact (uint_root H w hw x hx).1 k
  · exact (uint_serialize w hw x hx).2 k
  · exact (uint_root H w hw x hx).2 k

/-- Witness for C25: `Uint(16)` with `0x0102` has the root `02 01` followed by 30 zero bytes. -/
theorem C25_basic_root_witness :
    (Uint 16).HashTreeRoot constHash (.uint .u16 0x0102) = .ok ([2, 1] ++ zeros 30) :=
  (((C25_basic_root constHash).2 16 0x0102 (by decide) (by decide)).1 .u16).2

/-! ## Sizes, offsets and counts -/

theorem copyFresh_short (n : Nat) (src : List Nat) (h : src.length ≤ n) :
    copyFresh n src = src ++ zeros (n - src.length) := by
  unfold copyFresh copyAt overwrite
  rw [List.take_of_length_le h]
  simp [zeros]

theorem Pack_length (b : List Nat) : (Pack b).length = (b.length + 31) / 32 := by
  simp [Pack]

theorem Merkleize_single (H : Chunk → Chunk → Chunk) (c : Chunk) : Merkleize H [c] 1 = c := by
  rfl

/-- **C27.** For every `ByteVector(L)` and byte sequence `v` of length `L`, `HashTreeRoot(v)` is
`Merkleize(Pack(v), ceil(L/32))`; for `1 <= L <= 32` it is `v` followed by zero bytes up to 32
bytes. -/
theorem C27_bytevector_root (H : Chunk → Chunk → Chunk) (L : Nat) (bs : List Nat)
    (hL : bs.length = L) :
    (ByteVector L).HashTreeRoot H (Value.ofBytes bs)
      = .ok (Merkleize H (Pack bs) ((L + 31) / 32)) ∧
    (1 ≤ L → L ≤ 32 →
      (ByteVector L).HashTreeRoot H (Value.ofBytes bs) = .ok (bs ++ zeros (32 - L))) := by
  subst hL
  have hR : (ByteVector bs.length).HashTreeRoot H (Value.ofBytes bs)
      = ByteVectorType.HashTreeRoot bs.length H (Value.ofBytes bs) := rfl
  have hser : ByteVectorType.Serialize bs.length (Value.ofBytes bs) = .ok bs := by
    have h := (byteVector_encodes bs.length bs rfl).ser_zero
    have hS : ByteVectorType.Serialize bs.length (Value.ofBytes bs)
        = ((ByteVector bs.length).SerializeTo (Value.ofBytes bs) (zeros bs.length) 0).toRes := rfl
    rw [hS, h, Wr.toRes_done]
  have h1 : (ByteVector bs.length).HashTreeRoot H (Value.ofBytes bs)
      = .ok (Merkleize H (Pack bs) ((bs.length + 31) / 32)) := by
    rw [hR]
    unfold ByteVectorType.HashTreeRoot
    rw [hser, Res.ok_bind]
    show Res.ok _ = _
    rw [Pack_length]
  refine ⟨h1, fun h1L h32 => ?_⟩
  rw [h1]
  have hc : (bs.length + 31) / 32 = 1 := by omega
  have hP : Pack bs = [bs ++ zeros (32 - bs.length)] := by
    unfold Pack
    rw [hc]
    simp [List.range_succ, copyFresh_short 32 bs (by omega)]
  rw [hc, hP, Merkleize_single]

/-- Witness for C27: `ByteVector(4)` with `01 00 00 00`. -/
theorem C27_bytevector_root_witness :
    (ByteVector 4).HashTreeRoot constHash (Value.ofBytes [1, 0, 0, 0])
      = .ok ([1, 0, 0, 0] ++ zeros (32 - 4)) :=
  (C27_bytevector_root constHash 4 [1, 0, 0, 0] rfl).2 (by decide) (by decide)

theorem fixedSizeLoop_of_fixed : ∀ (fts : List SSZType),
    fts.any (fun ft => ft.IsVariableSize) = false →
    ∀ size, fixedSizeLoop fts size = size + (fts.map (fun ft => ft.FixedSize)).sum := by
  intro fts
  induction fts with
  | nil => intro _ size; simp [fixedSizeLoop]
  | cons ft fts ih =>
    intro h size
    simp only [List.any_cons, Bool.or_eq_false_iff] at h
    unfold fixedSizeLoop
    rw [h.1]
    simp only [Bool.false_eq_true, ↓reduceIte, ih h.2, List.map_cons, List.sum_cons]
    omega

theorem fixedSizeLoop_of_variable : ∀ (fts : List SSZType),
    fts.any (fun ft => ft.IsVariableSize) = true → ∀ size, fixedSizeLoop fts size = 0 := by
  intro fts
  induction fts with
  | nil => intro h; simp at h
  | cons ft fts ih =>
    intro h size
    unfold fixedSizeLoop
    by_cases hv : ft.IsVariableSize = true
    · simp [hv]
    · simp only [List.any_cons, Bool.or_eq_true] at h
      have h2 : fts.any (fun ft => ft.IsVariableSize) = true := by
        rcases h with h | h
        · exact absurd h hv
        · exact h
      simp only [hv, Bool.false_eq_true, ↓reduceIte]
      exact ih h2 _

/-- **C19.** For every container descriptor, `IsVariableSize()` is true iff some field
descriptor is variable-size; `FixedSize()` is 0 in that case, and otherwise the sum of the
fields' `FixedSize()`, which is also the precomputed `fixedEnd`. -/
theorem C19_container_size_class (fields : List Field) (typ : String) :
    ((Container fields typ).IsVariableSize = true ↔ ∃ f ∈ fields, f.V.IsVariableSize = true) ∧
    ((Container fields typ).IsVariableSize = true → (Container fields typ).FixedSize = 0) ∧
    ((Container fields typ).IsVariableSize = false →
      (Container fields typ).FixedSize = (fields.map (fun f => f.V.FixedSize)).sum ∧
      (Container fields typ).FixedSize = (ContainerType.make fields typ).fixedEnd) := by
  have hV : (Container fields typ).IsVariableSize
      = (fields.map (fun f => f.V)).any (fun ft => ft.IsVariableSize) := rfl
  have hF : (Container fields typ).FixedSize = fixedSizeLoop (fields.map (fun f => f.V)) 0 := rfl
  refine ⟨?_, ?_, ?_⟩
  · rw [hV]
    simp [List.any_eq_true]
  · intro h
    rw [hF]
    exact fixedSizeLoop_of_variable _ (hV ▸ h) 0
  · intro h
    rw [hV] at h
    refine ⟨?_, ?_⟩
    · rw [hF, fixedSizeLoop_of_fixed _ h 0]
      simp [List.map_map, Function.comp_def]
    · rw [hF, (make_tables fields typ).2.2.1]
      exact (container_isVariableSize_false h).1

/-- Witness for C19: `VarTestStruct` has a variable-size field, so its `FixedSize()` is 0. -/
theorem C19_container_size_class_witness :
    (Container VarTestFields "VarTestStruct").IsVariableSize = true ∧
    (Container VarTestFields "VarTestStruct").FixedSize = 0 :=
  ⟨by rfl, (C19_container_size_class VarTestFields "VarTestStruct").2.1 (by rfl)⟩

theorem containerSizeLoop_of_fixed : ∀ (fts : List SSZType) (xs : List Value),
    fts.any (fun ft => ft.IsVariableSize) = false → xs.length = fts.length →
    ∀ size, containerSizeLoop fts xs size = .ok (fixedSizeLoop fts size) := by
  intro fts
  induction fts with
  | nil =>
    intro xs _ hl size
    have : xs = [] := List.length_eq_zero.mp hl
    subst this
    simp [containerSizeLoop, fixedSizeLoop]
  | cons ft fts ih =>
    intro xs h hl size
    simp only [List.any_cons, Bool.or_eq_false_iff] at h
    match xs, hl with
    | x :: xs, hl =>
      unfold containerSizeLoop fixedSizeLoop
      simp only [h.1, Bool.not_false, ↓reduceIte, Bool.false_eq_true]
      exact ih xs h.2 (by simpa using hl) _

/-- **C18.** For every fixed-size descriptor (`Bool`, `Uint`, `ByteVector`, `BitVector`, a
`Vector` of fixed-size elements, a container of fixed-size fields), `Size(v)` succeeds with
`FixedSize()`: on every value for the first three and the vector, on every bit array for
`BitVector`, on every struct value with one value per field for the container. -/
theorem C18_fixed_size_invariant :
    (∀ v, SszBool.Size v = .ok SszBool.FixedSize) ∧
    (∀ w v, (Uint w).Size v = .ok (Uint w).FixedSize) ∧
    (∀ L v, (ByteVector L).Size v = .ok (ByteVector L).FixedSize) ∧
    (∀ L a, (BitVector L).Size (.bitArray a) = .ok (BitVector L).FixedSize) ∧
    (∀ (E : SSZType) (N : Nat) (v : Value), E.IsVariableSize = false →
      (Vector E N).IsVariableSize = false ∧ (Vector E N).Size v = .ok (Vector E N).FixedSize) ∧
    (∀ (fields : List Field) (typ : String) (xs : List Value),
      (Container fields typ).IsVariableSize = false → xs.length = fields.length →
      (Container fields typ).Size (.struct typ xs) = .ok (Container fields typ).FixedSize) := by
  refine ⟨fun _ => rfl, fun _ _ => rfl, fun _ _ => rfl, fun _ _ => rfl, ?_, ?_⟩
  · intro E N v hE
    refine ⟨hE, ?_⟩
    show VectorType.Size { ElementType := E, Length := N } v = _
    unfold VectorType.Size
    simp only [hE, Bool.not_false, ↓reduceIte]
    rfl
  · intro fields typ xs hV hl
    have hS : (Container fields typ).Size (.struct typ xs)
        = (ContainerType.make fields typ).Size (.struct typ xs) := rfl
    have hF : (Container fields typ).FixedSize
        = fixedSizeLoop (fields.map (fun f => f.V)) 0 := rfl
    have hV2 : (fields.map (fun f => f.V)).any (fun ft => ft.IsVariableSize) = false := hV
    obtain ⟨_, _, _, hft, hfn, hty⟩ := make_tables fields typ
    rw [hS, hF]
    unfold ContainerType.Size ContainerType.GetFieldValues
    simp only [hty, hfn, hl, ne_eq, not_true_eq_false, ↓reduceIte, Res.ok_bind, hft]
    exact containerSizeLoop_of_fixed _ xs hV2 (by simpa using hl) 0

/-- Witness for C18: a vector of four `Uint(16)` and a container of a `Uint(8)` and a `Bool`. -/
theorem C18_fixed_size_invariant_witness :
    (Vector (Uint 16) 4).Size (.slice []) = .ok 8 ∧
    (Container [⟨"A", Uint 8⟩, ⟨"B", SszBool⟩] "T").Size (.struct "T" [.uint .u8 1, .bool true])
      = .ok 2 :=
  ⟨(C18_fixed_size_invariant.2.2.2.2.1 (Uint 16) 4 (.slice []) rfl).2,
   C18_fixed_size_invariant.2.2.2.2.2 [⟨"A", Uint 8⟩, ⟨"B", SszBool⟩] "T"
     [.uint .u8 1, .bool true] (by rfl) (by rfl)⟩

/-- **C14.** For every container with at least one variable-size field, `Deserialize` returns
an error on every input whose first offset slot holds a value other than `fixedEnd`, the byte
length of the fixed region; for every `Vector(E, N)` with variable-size `E` (and `4*N` within
32 bits), `Deserialize` returns an error on every input whose first offset is not `4*N`. -/
theorem C14_first_offset :
    (∀ (fields : List Field) (typ : String) (b : List Nat) (o : Nat) (rest : List Nat) (x : Nat),
      (ContainerType.make fields typ).variableOffsets = o :: rest →
      getUintAt 4 b o = .ok x → x ≠ (ContainerType.make fields typ).fixedEnd →
      ((Container fields typ).Deserialize b).isError = true) ∧
    (∀ (E : SSZType) (N : Nat) (b : List Nat) (x : Nat), E.IsVariableSize = true →
      4 * N < 2 ^ 32 → getUintAt 4 b 0 = .ok x → x ≠ 4 * N →
      (Vector E N).Deserialize b = .error .invalidOffset) := by
  refine ⟨?_, ?_⟩
  · intro fields typ b o rest x hV hx hne
    have hD : (Container fields typ).Deserialize b
        = (ContainerType.make fields typ).DeserializeFrom b 0 b.length := rfl
    rw [hD]
    unfold ContainerType.DeserializeFrom
    split
    · rfl
    · apply isError_bind_of_isError
      unfold readOffsets
      apply isError_bind_of_isError
      rw [hV]
      have hx0 : getUintAt 4 b (0 + o) = .ok x := by simpa using hx
      simp only [readOffsetsLoop, hx0, Res.ok_bind]
      split
      · rfl
      · rw [if_pos ⟨trivial, hne⟩]
        rfl
  · intro E N b x hE hN hx hne
    have hD : (Vector E N).Deserialize b
        = VectorType.DeserializeFrom { ElementType := E, Length := N } b 0 b.length := rfl
    have h32 : toUint32 (4 * N) = 4 * N := Nat.mod_eq_of_lt hN
    rw [hD]
    unfold VectorType.DeserializeFrom
    simp only [hE, Bool.not_true, Bool.false_eq_true, ↓reduceIte, hx, Res.ok_bind, h32]
    rw [if_pos hne]

/-- Witness for C14: the container of two byte lists (fixed region of 8 bytes) on an input
whose first slot holds 9, and `Vector(ByteList(4), 2)` on an input whose first slot holds 4. -/
theorem C14_first_offset_witness :
    ((Container TwoListsFields "T").Deserialize [9, 0, 0, 0, 9, 0, 0, 0, 1]).isError = true ∧
    (Vector (ByteList 4) 2).Deserialize [4, 0, 0, 0, 8, 0, 0, 0] = .error .invalidOffset :=
  ⟨C14_first_offset.1 TwoListsFields "T" [9, 0, 0, 0, 9, 0, 0, 0, 1] 0 [4] 9
      (by decide) (by decide) (by decide),
   C14_first_offset.2 (ByteList 4) 2 [4, 0, 0, 0, 8, 0, 0, 0] 4 rfl (by decide) (by decide)
      (by decide)⟩

theorem setIndex_length {elem : SSZType} {v v1 : List Value} {i : Nat} {e : Value}
    (h : setIndex elem v i e = .ok v1) : v1.length = v.length := by
  unfold setIndex at h
  split at h
  · cases h; simp
  · exact absurd h (by simp)

theorem deserializeVarLoop_length (E : SSZType) (b : Buf) (start shift : Nat) :
    ∀ (n i prev : Nat) (v : List Value) (r : List Value × Nat),
    deserializeVarLoop E b start shift n i prev v = .ok r → r.1.length = v.length := by
  intro n
  induction n with
  | zero =>
    intro i prev v r h
    simp only [deserializeVarLoop] at h
    cases h
    rfl
  | succ n ih =>
    intro i prev v r h
    simp only [deserializeVarLoop] at h
    obtain ⟨offset, _, h⟩ := Res.bind_eq_ok h
    split at h
    · exact absurd h (by simp)
    · obtain ⟨e, _, h⟩ := Res.bind_eq_ok h
      obtain ⟨v1, hset, h⟩ := Res.bind_eq_ok h
      rw [ih _ _ _ _ h, setIndex_length hset]

/-- **C21.** For every `List(E, L)` with variable-size `E` and every input `b` of at least 4
bytes, with `f` the little-endian value of the first 4 bytes: `Deserialize(b)` returns an error
if `f` is not a multiple of 4 or if `f/4 > L`; whenever it succeeds the list it returns has
exactly `f/4` elements. -/
theorem C21_list_count (E : SSZType) (L : Nat) (hE : E.IsVariableSize = true) (b : List Nat)
    (hb : 4 ≤ b.length) :
    (leValue (b.take 4) % 4 ≠ 0 → (SszList E L).Deserialize b = .error .invalidOffset) ∧
    (leValue (b.take 4) % 4 = 0 → leValue (b.take 4) / 4 > L →
      (SszList E L).Deserialize b = .error .lengthExceedsLimit) ∧
    (∀ v, (SszList E L).Deserialize b = .ok v →
      ∃ vs, v = .slice vs ∧ vs.length = leValue (b.take 4) / 4) := by
  have hg : getUintAt 4 b 0 = .ok (leValue (b.take 4)) := by
    unfold getUintAt
    rw [if_pos (by omega)]
    simp
  have hD : (SszList E L).Deserialize b
      = ListType.DeserializeFrom { ElementType := E, Limit := L } b 0 b.length := rfl
  rw [hD]
  unfold ListType.DeserializeFrom
  simp only [hE, Bool.not_true, Bool.false_eq_true, ↓reduceIte, hg, Res.ok_bind]
  refine ⟨fun h => ?_, fun h1 h2 => ?_, fun v hv => ?_⟩
  · rw [if_pos h]
  · rw [if_neg (by omega), if_pos h2]
  · split at hv
    · exact absurd hv (by simp)
    · split at hv
      · exact absurd hv (by simp)
      · obtain ⟨⟨vs, last⟩, hloop, hv⟩ := Res.bind_eq_ok hv
        have hlen := deserializeVarLoop_length _ _ _ _ _ _ _ _ _ hloop
        simp only at hv
        split at hv
        · exact absurd hv (by simp)
        · obtain ⟨e, _, hv⟩ := Res.bind_eq_ok hv
          obtain ⟨v1, hset, hv⟩ := Res.bind_eq_ok hv
          cases hv
          refine ⟨v1, rfl, ?_⟩
          rw [setIndex_length hset]
          simpa using hlen

/-- Witness for C21: `List(ByteList(4), 4)` on `04 00 00 00 01` returns one element. -/
theorem C21_list_count_witness :
    (SszList (ByteList 4) 4).Deserialize [4, 0, 0, 0, 1] = .ok (.slice [Value.ofBytes [1]]) ∧
    ∃ vs, Value.slice [Value.ofBytes [1]] = .slice vs
      ∧ vs.length = leValue ([4, 0, 0, 0, 1].take 4) / 4 :=
  ⟨by rfl, (C21_list_count (ByteList 4) 4 rfl [4, 0, 0, 0, 1] (by decide)).2.2 _ (by rfl)⟩

theorem deserializeFixedLoop_decodeRange (E : SSZType) (hrt : returnsOwnType E = true)
    (b : Buf) (s : Nat) :
    ∀ (n i : Nat) (v : List Value), v.length = i + n →
    deserializeFixedLoop E b 0 s n i v
      = (decodeRange E b s n i >>= fun ys => .ok (v.take i ++ ys)) := by
  intro n
  induction n with
  | zero =>
    intro i v hv
    simp only [deserializeFixedLoop, decodeRange, Res.ok_bind, List.append_nil]
    rw [List.take_of_length_le (by omega)]
  | succ n ih =>
    intro i v hv
    simp only [deserializeFixedLoop, decodeRange, Nat.zero_add]
    cases hE : E.DeserializeFrom b (i * s) ((i + 1) * s) with
    | ok e =>
      have hset : setIndex E v i e = .ok (v.set i e) := by
        unfold setIndex
        rw [if_pos ⟨by omega, hrt⟩]
      simp only [Res.ok_bind, hset]
      rw [ih (i + 1) (v.set i e) (by simp; omega)]
      cases hR : decodeRange E b s n (i + 1) with
      | ok ys =>
        simp only [Res.ok_bind, Res.pure_eq]
        congr 1
        have hi : i < v.length := by omega
        rw [List.take_succ, List.set_take, List.set_eq_of_length_le (by simp)]
        simp [List.getElem?_set, hi]
      | error err => rfl
      | panic => rfl
    | error err => rfl
    | panic => rfl

theorem decodeRange_spec (E : SSZType) (b : Buf) (s : Nat) :
    ∀ (n i : Nat) (vs : List Value), decodeRange E b s n i = .ok vs →
    vs.length = n ∧ ∀ j, j < n →
      ∃ e, vs[j]? = some e ∧ E.DeserializeFrom b ((i + j) * s) ((i + j + 1) * s) = .ok e := by
  intro n
  induction n with
  | zero =>
    intro i vs h
    simp only [decodeRange] at h
    cases h
    exact ⟨rfl, fun j hj => absurd hj (by omega)⟩
  | succ n ih =>
    intro i vs h
    simp only [decodeRange] at h
    obtain ⟨e, he, h⟩ := Res.bind_eq_ok h
    obtain ⟨rest, hr, h⟩ := Res.bind_eq_ok h
    cases h
    obtain ⟨hl, hj⟩ := ih (i + 1) rest hr
    refine ⟨by simp [hl], fun j hjn => ?_⟩
    cases j with
    | zero => exact ⟨e, by simp, by simpa using he⟩
    | succ j =>
      obtain ⟨e1, h1, h2⟩ := hj j (by omega)
      refine ⟨e1, by simpa using h1, ?_⟩
      have e1' : i + 1 + j = i + (j + 1) := by omega
      rw [← e1']
      exact h2

/-- Decoding a list of fixed-size elements, for an element descriptor whose decoder returns
values of the element type (every descriptor but `BitVector`, among the fixed-size ones) and
whose fixed size `s` is positive: `Deserialize(b)` returns an error if `len(b)` is not a
multiple of `s` or if `len(b)/s > L`; otherwise it is the slice of the `len(b)/s` elements read
in order by the element decoder, element `i` from the bytes `[i*s, (i+1)*s)` of `b`, and it
fails when one of these reads fails. -/
theorem list_fixed_decode (E : SSZType) (L : Nat) (hE : E.IsVariableSize = false)
    (hrt : returnsOwnType E = true) (hs : 0 < E.FixedSize) (b : List Nat) :
    (b.length % E.FixedSize ≠ 0 → (SszList E L).Deserialize b = .error .unaligned) ∧
    (b.length % E.FixedSize = 0 → b.length / E.FixedSize > L →
      (SszList E L).Deserialize b = .error .lengthExceedsLimit) ∧
    (b.length % E.FixedSize = 0 → b.length / E.FixedSize ≤ L →
      (SszList E L).Deserialize b
        = (decodeRange E b E.FixedSize (b.length / E.FixedSize) 0 >>= fun vs => .ok (.slice vs)) ∧
      ∀ vs, decodeRange E b E.FixedSize (b.length / E.FixedSize) 0 = .ok vs →
        vs.length = b.length / E.FixedSize ∧ ∀ i, i < b.length / E.FixedSize →
          ∃ e, vs[i]? = some e ∧
            E.DeserializeFrom b (i * E.FixedSize) ((i + 1) * E.FixedSize) = .ok e) := by
  have hD : (SszList E L).Deserialize b
      = ListType.DeserializeFrom { ElementType := E, Limit := L } b 0 b.length := rfl
  have hsz : ((b.length : Nat) : Int) - ((0 : Nat) : Int) = ((b.length : Nat) : Int) := by omega
  have hdiv : Int.tdiv ((b.length : Nat) : Int) (E.FixedSize : Int)
      = ((b.length / E.FixedSize : Nat) : Int) := by
    rw [← Int.ofNat_tdiv]
  have hmod : Int.tmod ((b.length : Nat) : Int) (E.FixedSize : Int)
      = ((b.length % E.FixedSize : Nat) : Int) := by
    rw [← Int.ofNat_tmod]
  rw [hD]
  unfold ListType.DeserializeFrom
  simp only [hE, Bool.not_false, ↓reduceIte, Nat.ne_of_gt hs, hsz, hdiv, hmod]
  generalize b.length / E.FixedSize = q
  generalize b.length % E.FixedSize = r
  refine ⟨fun h => ?_, fun h1 h2 => ?_, fun h1 h2 => ⟨?_, ?_⟩⟩
  · rw [if_pos (by omega)]
  · rw [if_neg (by omega), if_pos (by omega)]
  · rw [if_neg (by omega), if_neg (by omega), if_neg (by omega)]
    simp only [Int.toNat_ofNat]
    rw [deserializeFixedLoop_decodeRange E hrt b _ _ 0 _ (by simp)]
    cases decodeRange E b E.FixedSize q 0 with
    | ok ys => simp
    | error err => rfl
    | panic => rfl
  · intro vs hvs
    obtain ⟨hl, hj⟩ := decodeRange_spec E b _ _ 0 vs hvs
    refine ⟨hl, fun i hi => ?_⟩
    obtain ⟨e, h1, h2⟩ := hj i hi
    exact ⟨e, h1, by simpa using h2⟩

/-- An instance: `List(Uint(16), 4)` on four bytes returns two elements, on three bytes the
alignment error. -/
theorem list_fixed_decode_example :
    (SszList (Uint 16) 4).Deserialize [1, 0, 2, 0] = .ok (.slice [.uint .u16 1, .uint .u16 2]) ∧
    (SszList (Uint 16) 4).Deserialize [1, 0, 2] = .error .unaligned :=
  ⟨by rfl, (list_fixed_decode (Uint 16) 4 rfl rfl (by decide) [1, 0, 2]).1 (by decide)⟩

/-- **C20 (failing input).** `List(BitVector(8), 4)` on the one byte `01`.  The element type
has the fixed size 1, the input is one aligned element within the limit, and the element
decoder reads the byte; but `Deserialize` of the list faults, because the decoded element is a
`*BitArray`, which `reflect` refuses to store into a slice of `BitArray`.  The same happens in
`Vector(BitVector(8), 1)`, whereas a container with a `BitVector(8)` field, whose
`SetFieldValues` dereferences the pointer, decodes the byte. -/
theorem C20_list_of_bitvector_faults :
    (BitVector 8).IsVariableSize = false ∧ (BitVector 8).FixedSize = 1 ∧
    (BitVector 8).Deserialize [1] = .ok (.bitArray { Data := [1], Bitlen := 8 }) ∧
    (SszList (BitVector 8) 4).Deserialize [1] = .panic ∧
    (Vector (BitVector 8) 1).Deserialize [1] = .panic ∧
    (Container [⟨"A", BitVector 8⟩] "T").Deserialize [1]
      = .ok (.struct "T" [.bitArray { Data := [1], Bitlen := 8 }]) :=
  ⟨rfl, rfl, by rfl, by rfl, by rfl, by rfl⟩

/-! ## Zero lengths, canonical bit lists, roots of sequences -/

/-- Counterexample to C30 as stated: `List(Uint(8), 0)` is constructed without complaint and is
a usable descriptor: it writes the empty list as the empty string and reads it back. -/
theorem C30_zero_limit_list_usable :
    (SszList (Uint 8) 0).Serialize (.slice []) = .ok [] ∧
    (SszList (Uint 8) 0).Deserialize [] = .ok (.slice []) ∧
    (Vector (Uint 8) 0).Serialize (.slice []) = .ok [] ∧
    (Vector (Uint 8) 0).Deserialize [] = .ok (.slice []) :=
  ⟨by decide, by rfl, by decide, by rfl⟩

/-- **C30 (amended).** The constructors do not validate their argument; a zero limit or length
yields a descriptor.  `List(E, 0)` writes the empty list as the empty string and rejects every
non-empty list; `Vector(E, 0)` with fixed-size `E` writes and reads the empty vector;
`BitVector(0)` and `Vector(E, 0)` with variable-size `E` decode no input successfully. -/
theorem C30_zero_length_descriptors :
    (∀ E : SSZType, (SszList E 0).Serialize (.slice []) = .ok []) ∧
    (∀ (E : SSZType) (x : Value) (xs : List Value),
      (SszList E 0).Serialize (.slice (x :: xs)) = .error .lengthExceedsLimit) ∧
    (∀ E : SSZType, E.IsVariableSize = false →
      (Vector E 0).Serialize (.slice []) = .ok [] ∧
      (Vector E 0).Deserialize [] = .ok (.slice [])) ∧
    (∀ b : List Nat, ((BitVector 0).Deserialize b).isOk = false) ∧
    (∀ (E : SSZType) (b : List Nat), E.IsVariableSize = true →
      ((Vector E 0).Deserialize b).isOk = false) := by
  refine ⟨?_, ?_, ?_, ?_, ?_⟩
  · intro E
    show ListType.Serialize { ElementType := E, Limit := 0 } (.slice []) = _
    unfold ListType.Serialize ListType.Size ListType.SerializeTo
    by_cases hb : isBasicType E = true <;> by_cases hv : E.IsVariableSize = true <;>
      simp [hb, hv, sizeLoop, serializeFixedLoop, serializeVarLoop, zeros]
  · intro E x xs
    show ListType.Serialize { ElementType := E, Limit := 0 } (.slice (x :: xs)) = _
    unfold ListType.Serialize ListType.Size
    simp
  · intro E hE
    refine ⟨?_, ?_⟩
    · show VectorType.Serialize { ElementType := E, Length := 0 } (.slice []) = _
      unfold VectorType.Serialize VectorType.Size VectorType.SerializeTo
      simp [hE, serializeFixedLoop, zeros]
    · show VectorType.DeserializeFrom { ElementType := E, Length := 0 } [] 0 0 = _
      unfold VectorType.DeserializeFrom
      simp [hE, deserializeFixedLoop]
  · intro b
    show (BitVectorType.DeserializeFrom 0 b 0 b.length).isOk = false
    unfold BitVectorType.DeserializeFrom BitVectorType.FixedSize
    cases b with
    | nil => simp [Res.isOk]
    | cons x xs =>
      have : ¬ ((xs.length : Int) + 1 = 0) := by omega
      simp [Res.isOk, this]
  · intro E b hE
    show (VectorType.DeserializeFrom { ElementType := E, Length := 0 } b 0 b.length).isOk = false
    unfold VectorType.DeserializeFrom
    simp only [hE, Bool.not_true, Bool.false_eq_true, ↓reduceIte]
    cases getUintAt 4 b 0 with
    | ok f =>
      simp only [Res.ok_bind]
      split
      · rfl
      · split
        · rfl
        · simp [deserializeVarLoop, Res.isOk]
    | error e => rfl
    | panic => rfl

/-- Witness for C30 (amended): `Vector(Bool, 0)` and `Vector(ByteList(4), 0)`. -/
theorem C30_zero_length_descriptors_witness :
    (Vector SszBool 0).Deserialize [] = .ok (.slice []) ∧
    ((Vector (ByteList 4) 0).Deserialize [0, 0, 0, 0]).isOk = false :=
  ⟨(C30_zero_length_descriptors.2.2.1 SszBool rfl).2,
   C30_zero_length_descriptors.2.2.2.2 (ByteList 4) [0, 0, 0, 0] rfl⟩

set_option maxRecDepth 1000000 in
theorem byte_delimiter : ∀ x < 256, x ≠ 0 →
    (LeadingZeros8 x = 7 → x = 1) ∧
    (x &&& (255 >>> (LeadingZeros8 x + 1))) ||| 1 <<< (7 - LeadingZeros8 x) = x := by
  decide

/-- **C37.** For every limit `L` and byte string `b`, if `BitList(L).Deserialize(b)` succeeds
with the value `v`, then `BitList(L).Serialize(v)` succeeds and returns exactly `b`. -/
theorem C37_bitlist_canonical (L : Nat) (b : List Nat) (hb : IsBytes b) (v : Value)
    (h : (BitList L).Deserialize b = .ok v) : (BitList L).Serialize v = .ok b := by
  have hS : ∀ w, (BitList L).Serialize w = BitListType.Serialize L w := fun _ => rfl
  have hD : ∀ w, (BitList L).Deserialize w = BitListType.Deserialize L w := fun _ => rfl
  rw [hD] at h
  rw [hS]
  rcases List.eq_nil_or_concat b with hnil | ⟨init, x, hbx⟩
  · subst hnil
    exact absurd h (by simp [BitListType.Deserialize, BitListType.DeserializeFrom])
  · rw [List.concat_eq_append] at hbx
    subst hbx
    have hx : x < 256 := hb x (by simp)
    rw [BitList_Deserialize_snoc L init x hx] at h
    by_cases hx0 : x = 0
    · rw [if_pos hx0] at h
      exact absurd h (by simp)
    · rw [if_neg hx0] at h
      by_cases hL : 8 * init.length + (7 - LeadingZeros8 x) > L
      · rw [if_pos hL] at h
        exact absurd h (by simp)
      · rw [if_neg hL] at h
        have hv := (Res.ok.inj h).symm
        subst hv
        have hz := (byte_lz x hx hx0).1
        obtain ⟨hd1, hd2⟩ := byte_delimiter x hx hx0
        by_cases h7 : LeadingZeros8 x = 7
        · simp only [h7, ↓reduceIte]
          rw [BitList_Serialize_aligned L init _ (by omega) (by omega) (by omega), hd1 h7]
        · simp only [h7, ↓reduceIte]
          rw [BitList_Serialize_unaligned L init _ _ (by omega) (by omega) (by omega)]
          have hm : (8 * init.length + (7 - LeadingZeros8 x)) % 8 = 7 - LeadingZeros8 x := by
            omega
          rw [hm, hd2]

/-- Witness for C37: `BitList(8)` on the byte `0x0D`. -/
theorem C37_bitlist_canonical_witness :
    (BitList 8).Deserialize [0x0D] = .ok (.bitArray { Data := [5], Bitlen := 3 }) ∧
    (BitList 8).Serialize (.bitArray { Data := [5], Bitlen := 3 }) = .ok [0x0D] :=
  ⟨by rfl, C37_bitlist_canonical 8 [0x0D] (by decide) _ (by rfl)⟩

theorem hashLoop_eq (E : SSZType) (H : Chunk → Chunk → Chunk) :
    ∀ (vs : List Value) (rs : List Chunk),
    List.Forall₂ (fun v r => E.HashTreeRoot H v = .ok r) vs rs →
    ∀ acc, hashLoop E H vs acc = .ok (acc ++ rs) := by
  intro vs rs h
  induction h with
  | nil => intro acc; simp [hashLoop]
  | @cons v r vs rs hv _ ih =>
    intro acc
    simp only [hashLoop, hv, Res.ok_bind, ih]
    simp

theorem wrap64_chunkCount (n fs : Nat) (h : n * fs + 31 < 2 ^ 64) :
    wrap64 (wrap64 (n * fs) + 31) = n * fs + 31 := by
  unfold wrap64
  have h1 : n * fs % 2 ^ 64 = n * fs := Nat.mod_eq_of_lt (by omega)
  rw [h1, Nat.mod_eq_of_lt h]

/-- **C28.** Roots of homogeneous sequences.  With a basic element type (`Bool`, `Uint`) and
`s` the bytes `Serialize(v)` returns, `Vector(E, N)` has the root
`Merkleize(Pack(s), ceil(N*FixedSize(E)/32))` and `List(E, L)` the root
`MixInLength(Merkleize(Pack(s), ceil(L*FixedSize(E)/32)), n)`, provided `N*FixedSize(E) + 31`
(`L*FixedSize(E) + 31`) is below `2^64`, so that the chunk count the code computes on `uint`
is not reduced.  With another element type and `r_i` the roots of the elements, `Vector(E, N)`
has the root `Merkleize([r_0..], N)` and `List(E, L)` the root
`MixInLength(Merkleize([r_0..], L), n)`. -/
theorem C28_sequence_root (H : Chunk → Chunk → Chunk) (E : SSZType) :
    (∀ (N : Nat) (v : Value) (s : List Nat), isBasicType E = true →
      N * E.FixedSize + 31 < 2 ^ 64 →
      (Vector E N).Serialize v = .ok s →
      (Vector E N).HashTreeRoot H v
        = .ok (Merkleize H (Pack s) ((N * E.FixedSize + 31) / 32))) ∧
    (∀ (L : Nat) (vs : List Value) (s : List Nat), isBasicType E = true →
      L * E.FixedSize + 31 < 2 ^ 64 →
      (SszList E L).Serialize (.slice vs) = .ok s →
      (SszList E L).HashTreeRoot H (.slice vs)
        = .ok (MixInLength H (Merkleize H (Pack s) ((L * E.FixedSize + 31) / 32)) vs.length)) ∧
    (∀ (N : Nat) (vs : List Value) (rs : List Chunk), isBasicType E = false → vs.length = N →
      List.Forall₂ (fun v r => E.HashTreeRoot H v = .ok r) vs rs →
      (Vector E N).HashTreeRoot H (.slice vs) = .ok (Merkleize H rs N)) ∧
    (∀ (L : Nat) (vs : List Value) (rs : List Chunk), isBasicType E = false → vs.length ≤ L →
      List.Forall₂ (fun v r => E.HashTreeRoot H v = .ok r) vs rs →
      (SszList E L).HashTreeRoot H (.slice vs)
        = .ok (MixInLength H (Merkleize H rs L) vs.length)) := by
  refine ⟨?_, ?_, ?_, ?_⟩
  · intro N v s hb h64 hs
    have hs' : VectorType.Serialize { ElementType := E, Length := N } v = .ok s := hs
    show VectorType.HashTreeRoot { ElementType := E, Length := N } H v = _
    unfold VectorType.HashTreeRoot
    simp only [hb, ↓reduceIte, hs', Res.ok_bind, Res.pure_eq, wrap64_chunkCount N _ h64]
  · intro L vs s hb h64 hs
    have hs' : ListType.Serialize { ElementType := E, Limit := L } (.slice vs) = .ok s := hs
    have hlen : ¬ vs.length > L := by
      intro hc
      unfold ListType.Serialize ListType.Size at hs'
      simp [hc] at hs'
    show ListType.HashTreeRoot { ElementType := E, Limit := L } H (.slice vs) = _
    unfold ListType.HashTreeRoot
    simp only [hlen, hb, ↓reduceIte, hs', Res.ok_bind, Res.pure_eq, wrap64_chunkCount L _ h64]
  · intro N vs rs hb hN hr
    show VectorType.HashTreeRoot { ElementType := E, Length := N } H (.slice vs) = _
    unfold VectorType.HashTreeRoot
    simp only [hb, Bool.false_eq_true, ↓reduceIte, hN, ne_eq, not_true_eq_false,
      hashLoop_eq E H vs rs hr, Res.ok_bind, Res.pure_eq, List.nil_append]
  · intro L vs rs hb hL hr
    show ListType.HashTreeRoot { ElementType := E, Limit := L } H (.slice vs) = _
    unfold ListType.HashTreeRoot
    simp only [hb, Bool.false_eq_true, ↓reduceIte, Nat.not_lt.mpr hL,
      hashLoop_eq E H vs rs hr, Res.ok_bind, Res.pure_eq, List.nil_append]

/-- Witness for C28: a vector and a list of `Uint(16)`, a vector and a list of `ByteVector(4)`. -/
theorem C28_sequence_root_witness :
    (Vector (Uint 16) 2).HashTreeRoot constHash (.slice [.uint .u16 1, .uint .u16 2])
      = .ok (Merkleize constHash (Pack [1, 0, 2, 0]) ((2 * (Uint 16).FixedSize + 31) / 32)) ∧
    (SszList (Uint 16) 4).HashTreeRoot constHash (.slice [.uint .u16 1])
      = .ok (MixInLength constHash
          (Merkleize constHash (Pack [1, 0]) ((4 * (Uint 16).FixedSize + 31) / 32)) 1) ∧
    (Vector (ByteVector 4) 1).HashTreeRoot constHash (.slice [Value.ofBytes [1, 2, 3, 4]])
      = .ok (Merkleize constHash [[1, 2, 3, 4] ++ zeros 28] 1) ∧
    (SszList (ByteVector 4) 2).HashTreeRoot constHash (.slice [Value.ofBytes [1, 2, 3, 4]])
      = .ok (MixInLength constHash (Merkleize constHash [[1, 2, 3, 4] ++ zeros 28] 2) 1) :=
  ⟨(C28_sequence_root constHash (Uint 16)).1 2 _ [1, 0, 2, 0] rfl (by decide) (by decide),
   (C28_sequence_root constHash (Uint 16)).2.1 4 [.uint .u16 1] [1, 0] rfl (by decide)
      (by decide),
   (C28_sequence_root constHash (ByteVector 4)).2.2.1 1 [Value.ofBytes [1, 2, 3, 4]]
      [[1, 2, 3, 4] ++ zeros 28] rfl rfl (.cons (by rfl) .nil),
   (C28_sequence_root constHash (ByteVector 4)).2.2.2 2 [Value.ofBytes [1, 2, 3, 4]]
      [[1, 2, 3, 4] ++ zeros 28] rfl (by decide) (.cons (by rfl) .nil)⟩

/-! ## Pack -/

theorem copyFresh_eq (n : Nat) (src : List Nat) :
    copyFresh n src = src.take n ++ zeros (n - src.length) := by
  unfold copyFresh copyAt overwrite
  simp [zeros]
  omega

theorem Pack_nil : Pack [] = [] := rfl

theorem Pack_cons (b : List Nat) (hb : b ≠ []) :
    Pack b = copyFresh 32 b :: Pack (b.drop 32) := by
  have hpos : 0 < b.length := List.length_pos.mpr hb
  have hn : (b.length + 31) / 32 = ((b.drop 32).length + 31) / 32 + 1 := by
    simp only [List.length_drop]; omega
  unfold Pack
  rw [hn, List.range_succ_eq_map]
  simp only [List.map_cons, Nat.zero_mul, List.drop_zero, List.map_map]
  congr 1
  apply List.map_congr_left
  intro i _
  simp only [Function.comp, List.drop_drop]
  congr 2
  omega

theorem Pack_flatten : ∀ (n : Nat) (b : List Nat), b.length ≤ n →
    (Pack b).flatten = b ++ zeros ((32 - b.length % 32) % 32) ∧ ∀ c ∈ Pack b, c.length = 32 := by
  intro n
  induction n using Nat.strong_induction_on with
  | _ n ih =>
    intro b hbn
    by_cases hb : b = []
    · subst hb
      simp [Pack_nil, zeros]
    · have hpos : 0 < b.length := List.length_pos.mpr hb
      rw [Pack_cons b hb]
      obtain ⟨h1, h2⟩ := ih (b.length - 1) (by omega) (b.drop 32)
        (by simp only [List.length_drop]; omega)
      refine ⟨?_, ?_⟩
      · rw [List.flatten_cons, h1, copyFresh_eq]
        by_cases h32 : 32 ≤ b.length
        · have hz : 32 - b.length = 0 := by omega
          have hm : (b.drop 32).length % 32 = b.length % 32 := by
            simp only [List.length_drop]; omega
          rw [hz, hm]
          simp only [zeros, List.replicate_zero, List.append_nil]
          rw [← List.append_assoc, List.take_append_drop]
        · have hd : b.drop 32 = [] := List.drop_eq_nil_of_le (by omega)
          have ht : b.take 32 = b := List.take_of_length_le (by omega)
          have hm : (32 - b.length % 32) % 32 = 32 - b.length := by omega
          rw [hd, ht, hm]
          simp [zeros]
      · intro c hc
        rcases List.mem_cons.mp hc with hc | hc
        · rw [hc, copyFresh_eq]
          simp only [List.length_append, List.length_take, zeros_length]
          omega
        · exact h2 c hc

/-- **C26.** For every byte string `b`, `Pack(b)` returns `ceil(len(b)/32)` chunks of 32 bytes
whose concatenation is `b` followed by the fewest zero bytes that make the length a multiple
of 32; `Pack` of the empty string returns no chunk. -/
theorem C26_pack (b : List Nat) :
    (Pack b).length = (b.length + 31) / 32 ∧ (∀ c ∈ Pack b, c.length = 32) ∧
    (Pack b).flatten = b ++ zeros ((32 - b.length % 32) % 32) ∧
    (b.length + (32 - b.length % 32) % 32) % 32 = 0 ∧
    (∀ k, (b.length + k) % 32 = 0 → (32 - b.length % 32) % 32 ≤ k) ∧
    Pack [] = [] :=
  ⟨Pack_length b, (Pack_flatten b.length b (Nat.le_refl _)).2,
   (Pack_flatten b.length b (Nat.le_refl _)).1, by omega, fun k hk => by omega, rfl⟩

/-- Witness for C26: 33 bytes are packed into two chunks. -/
theorem C26_pack_witness :
    (Pack (List.replicate 33 7)).length = 2 ∧
    (Pack (List.replicate 33 7)).flatten = List.replicate 33 7 ++ zeros 31 :=
  ⟨(C26_pack (List.replicate 33 7)).1, (C26_pack (List.replicate 33 7)).2.2.1⟩

/-! ## Bit arrays -/

set_option maxRecDepth 1000000 in
theorem byte_getBit : ∀ x < 256, ∀ r < 8, (x &&& (1 <<< r) == 1 <<< r) = x.testBit r := by
  decide

set_option maxRecDepth 1000000 in
theorem byte_setBit_lt : ∀ x < 256, ∀ r < 8,
    (x ||| 1 <<< r) < 256 ∧ (x &&& (255 - 1 <<< r)) < 256 := by
  decide

theorem byte_setBit_testBit (x r j : Nat) (hr : r < 8) (hj : j < 8) :
    (x ||| 1 <<< r).testBit j = (if j = r then true else x.testBit j) ∧
    (x &&& (255 - 1 <<< r)).testBit j = (if j = r then false else x.testBit j) := by
  have h255 : ∀ r < 8, ∀ j < 8, (255 - 1 <<< r).testBit j = !decide (j = r) := by decide
  refine ⟨?_, ?_⟩
  · rw [Nat.testBit_or, Nat.shiftLeft_eq, Nat.one_mul, Nat.testBit_two_pow]
    by_cases h : j = r
    · simp [h]
    · have : ¬ r = j := fun e => h e.symm
      simp [h, this]
  · rw [Nat.testBit_and, h255 r hr j hj]
    by_cases h : j = r <;> simp [h]

theorem bitAt_set (d : List Nat) (k y j : Nat) (hk : k < d.length) :
    bitAt (d.set k y) j = if j / 8 = k then y.testBit (j % 8) else bitAt d j := by
  unfold bitAt
  by_cases h : j / 8 = k
  · subst h
    simp [List.getD_eq_getElem?_getD, List.getElem?_set, hk]
  · have h' : ¬ k = j / 8 := fun e => h e.symm
    simp [List.getD_eq_getElem?_getD, List.getElem?_set, h, h']

theorem overwrite_single (b : List Nat) (i y : Nat) (hi : i < b.length) :
    overwrite b i [y] = b.set i y := by
  unfold overwrite
  rw [List.set_eq_take_append_cons_drop]
  simp [hi]

theorem isBytes_set {d : List Nat} (hd : IsBytes d) (k y : Nat) (hy : y < 256) :
    IsBytes (d.set k y) := by
  intro z hz
  rcases List.mem_or_eq_of_mem_set hz with h | h
  · exact hd z h
  · rw [h]; exact hy

theorem bitAt_zeros (n j : Nat) : bitAt (zeros n) j = false := by
  unfold bitAt zeros
  by_cases h : j / 8 < n
  · simp [List.getD_eq_getElem?_getD, List.getElem?_replicate, h]
  · simp [List.getD_eq_getElem?_getD, List.getElem?_replicate, h]

theorem isBytes_zeros (n : Nat) : IsBytes (zeros n) := by
  intro x hx
  have := List.eq_of_mem_replicate hx
  omega

theorem GetBit_eq (ba : BitArray) (hd : IsBytes ba.Data) (i : Nat) :
    ba.GetBit i = if i / 8 < ba.Data.length then .ok (bitAt ba.Data i) else .panic := by
  unfold BitArray.GetBit index
  by_cases h : i / 8 < ba.Data.length
  · have hx : ba.Data[i / 8] < 256 := hd _ (List.getElem_mem h)
    have := byte_getBit _ hx (i % 8) (Nat.mod_lt _ (by decide))
    simp only [List.getElem?_eq_getElem h, Res.ok_bind, Res.pure_eq, this, h, ↓reduceIte]
    simp [bitAt, List.getD_eq_getElem?_getD, List.getElem?_eq_getElem h]
  · simp [List.getElem?_eq_none (Nat.not_lt.mp h), h]

theorem SetBit_eq (ba : BitArray) (i : Nat) (x : Bool) (hi : i < ba.Bitlen)
    (hl : i / 8 < ba.Data.length) :
    ba.SetBit i x = .ok
      { Data := ba.Data.set (i / 8)
          (if x then ba.Data[i / 8] ||| 1 <<< (i % 8) else ba.Data[i / 8] &&& (255 - 1 <<< (i % 8)))
        Bitlen := ba.Bitlen } := by
  unfold BitArray.SetBit index setByte
  simp only [ge_iff_le, Nat.not_le.mpr hi, ↓reduceIte, List.getElem?_eq_getElem hl, Res.ok_bind,
    hl, overwrite_single _ _ _ hl, Res.pure_eq]

theorem MakeBitArrayLoop_spec : ∀ (v : List Bool) (i : Nat) (d : List Nat), IsBytes d →
    i + v.length ≤ 8 * d.length → (∀ j, i ≤ j → bitAt d j = false) →
    ∃ d1, MakeBitArrayLoop v i d = .ok d1 ∧ d1.length = d.length ∧ IsBytes d1 ∧
      ∀ j, bitAt d1 j = if j < i then bitAt d j else v.getD (j - i) false := by
  intro v
  induction v with
  | nil =>
    intro i d hd _ hz
    refine ⟨d, rfl, rfl, hd, fun j => ?_⟩
    by_cases h : j < i
    · simp [h]
    · simp [h, hz j (by omega)]
  | cons b rest ih =>
    intro i d hd hlen hz
    simp only [List.length_cons] at hlen
    have hshift : ∀ j, ¬ j < i → ¬ j = i → (b :: rest).getD (j - i) false
        = rest.getD (j - (i + 1)) false := by
      intro j h1 h2
      obtain ⟨m, hm⟩ : ∃ m, j - i = m + 1 := ⟨j - i - 1, by omega⟩
      have hm2 : j - (i + 1) = m := by omega
      rw [hm, hm2, List.getD_cons_succ]
    cases b with
    | false =>
      obtain ⟨d1, h1, h2, h3, h4⟩ := ih (i + 1) d hd (by omega) (fun j hj => hz j (by omega))
      refine ⟨d1, by simpa [MakeBitArrayLoop] using h1, h2, h3, fun j => ?_⟩
      rw [h4 j]
      by_cases hj : j < i
      · simp [hj, Nat.lt_succ_of_lt hj]
      · by_cases hji : j = i
        · subst hji
          simp [hz j (Nat.le_refl _)]
        · rw [if_neg (by omega), if_neg hj, hshift j hj hji]
    | true =>
      have hk : i / 8 < d.length := by omega
      have hx : d[i / 8] < 256 := hd _ (List.getElem_mem hk)
      have hy := (byte_setBit_lt _ hx (i % 8) (Nat.mod_lt _ (by decide))).1
      have hd1 := isBytes_set hd (i / 8) _ hy
      have hbit : ∀ j, bitAt (d.set (i / 8) (d[i / 8] ||| 1 <<< (i % 8))) j
          = if j = i then true else bitAt d j := by
        intro j
        rw [bitAt_set _ _ _ _ hk]
        by_cases h8 : j / 8 = i / 8
        · rw [if_pos h8, (byte_setBit_testBit _ _ _ (Nat.mod_lt _ (by decide))
            (Nat.mod_lt _ (by decide))).1]
          by_cases hji : j = i
          · simp [hji]
          · have : ¬ j % 8 = i % 8 := by omega
            simp only [this, hji, ↓reduceIte]
            simp [bitAt, List.getD_eq_getElem?_getD, h8, List.getElem?_eq_getElem hk]
        · have : ¬ j = i := fun e => h8 (by rw [e])
          simp [h8, this]
      obtain ⟨d2, h1, h2, h3, h4⟩ := ih (i + 1) _ hd1 (by simp; omega)
        (fun j hj => by rw [hbit j, if_neg (by omega)]; exact hz j (by omega))
      refine ⟨d2, ?_, by simpa using h2, h3, fun j => ?_⟩
      · simp only [MakeBitArrayLoop, ↓reduceIte, index, List.getElem?_eq_getElem hk, Res.ok_bind,
          setByte, hk, overwrite_single _ _ _ hk]
        exact h1
      · rw [h4 j, hbit j]
        by_cases hj : j < i
        · have : ¬ j = i := by omega
          simp [hj, Nat.lt_succ_of_lt hj, this]
        · by_cases hji : j = i
          · subst hji
            simp
          · rw [if_neg (by omega), if_neg hj, hshift j hj hji]

theorem GetBoolSliceLoop_spec (ba : BitArray) (hd : IsBytes ba.Data) :
    ∀ (v : List Bool) (i : Nat), i + v.length ≤ 8 * ba.Data.length →
    (∀ k, k < v.length → bitAt ba.Data (i + k) = v.getD k false) →
    GetBoolSliceLoop ba v.length i = .ok v := by
  intro v
  induction v with
  | nil => intro i _ _; rfl
  | cons b rest ih =>
    intro i hlen hbits
    simp only [List.length_cons] at hlen
    have h0 := hbits 0 (by simp)
    simp only [Nat.add_zero, List.getD_cons_zero] at h0
    have hrest := ih (i + 1) (by omega) (fun k hk => by
      have := hbits (k + 1) (by simpa using hk)
      rw [List.getD_cons_succ] at this
      rw [← this]
      congr 1
      omega)
    simp only [List.length_cons, GetBoolSliceLoop, GetBit_eq ba hd, (by omega : i / 8 < ba.Data.length),
      ↓reduceIte, Res.ok_bind, hrest, Res.pure_eq, h0]

/-- **C31.** For every list of booleans `v`, `MakeBitArrayFromBoolSlice(v)` has bit length
`len(v)` and `ceil(len(v)/8)` data bytes, bit `i` of `v` is bit `i % 8` of byte `i / 8`, every
other bit is zero, and `GetBoolSlice` returns `v`.  On a bit array of bytes, `SetBit(i, x)`
fails when `i >= Bitlen`; after a successful `SetBit(i, x)`, `GetBit(i)` returns `x` and
`GetBit(j)` is unchanged for every `j` other than `i`. -/
theorem C31_bitarray :
    (∀ v : List Bool, ∃ ba, MakeBitArrayFromBoolSlice v = .ok ba ∧ ba.Bitlen = v.length ∧
      ba.Data.length = (v.length + 7) / 8 ∧ IsBytes ba.Data ∧
      (∀ i, bitAt ba.Data i = v.getD i false) ∧ ba.GetBoolSlice = .ok v) ∧
    (∀ (ba : BitArray) (i : Nat) (x : Bool), i ≥ ba.Bitlen →
      ba.SetBit i x = .error .indexOutOfRange) ∧
    (∀ (ba ba1 : BitArray) (i : Nat) (x : Bool), IsBytes ba.Data → ba.SetBit i x = .ok ba1 →
      ba1.Bitlen = ba.Bitlen ∧ ba1.GetBit i = .ok x ∧ ∀ j, j ≠ i → ba1.GetBit j = ba.GetBit j) := by
  refine ⟨?_, ?_, ?_⟩
  · intro v
    obtain ⟨d1, h1, h2, h3, h4⟩ := MakeBitArrayLoop_spec v 0 (zeros ((v.length + 7) / 8))
      (isBytes_zeros _) (by simp; omega) (fun j _ => bitAt_zeros _ j)
    have hbits : ∀ i, bitAt d1 i = v.getD i false := by
      intro i
      rw [h4 i]
      simp
    refine ⟨{ Data := d1, Bitlen := v.length }, ?_, rfl, by simpa using h2, h3, hbits, ?_⟩
    · simp only [MakeBitArrayFromBoolSlice, MakeBitArrayFromBitlen, h1, Res.ok_bind, Res.pure_eq]
    · unfold BitArray.GetBoolSlice
      exact GetBoolSliceLoop_spec _ h3 v 0 (by simp [h2]; omega)
        (fun k _ => by simpa using hbits k)
  · intro ba i x hi
    unfold BitArray.SetBit
    rw [if_pos hi]
  · intro ba ba1 i x hd hset
    have hi : i < ba.Bitlen := by
      by_contra hc
      unfold BitArray.SetBit at hset
      rw [if_pos (by omega)] at hset
      exact absurd hset (by simp)
    have hl : i / 8 < ba.Data.length := by
      by_contra hc
      unfold BitArray.SetBit index at hset
      simp [Nat.not_le.mpr hi, List.getElem?_eq_none (Nat.not_lt.mp hc)] at hset
    rw [SetBit_eq ba i x hi hl] at hset
    have hba1 := (Res.ok.inj hset).symm
    have hx : ba.Data[i / 8] < 256 := hd _ (List.getElem_mem hl)
    have hr : i % 8 < 8 := Nat.mod_lt _ (by decide)
    have hy : (if x then ba.Data[i / 8] ||| 1 <<< (i % 8)
        else ba.Data[i / 8] &&& (255 - 1 <<< (i % 8))) < 256 := by
      cases x
      · exact (byte_setBit_lt _ hx _ hr).2
      · exact (byte_setBit_lt _ hx _ hr).1
    have hd1 : IsBytes ba1.Data := by
      rw [hba1]; exact isBytes_set hd _ _ hy
    have hlen1 : ba1.Data.length = ba.Data.length := by
      rw [hba1]; simp
    have hbit : ∀ j, bitAt ba1.Data j = if j = i then x else bitAt ba.Data j := by
      intro j
      rw [hba1]
      simp only
      rw [bitAt_set _ _ _ _ hl]
      by_cases h8 : j / 8 = i / 8
      · have hjr : j % 8 < 8 := Nat.mod_lt _ (by decide)
        obtain ⟨t1, t2⟩ := byte_setBit_testBit ba.Data[i / 8] (i % 8) (j % 8) hr hjr
        rw [if_pos h8]
        by_cases hji : j = i
        · subst hji
          cases x <;> simp [t1, t2]
        · have hne : ¬ j % 8 = i % 8 := by omega
          have hb : bitAt ba.Data j = ba.Data[i / 8].testBit (j % 8) := by
            simp [bitAt, List.getD_eq_getElem?_getD, h8, List.getElem?_eq_getElem hl]
          cases x <;> simp [t1, t2, hne, hji, hb]
      · have : ¬ j = i := fun e => h8 (by rw [e])
        simp [h8, this]
    refine ⟨by rw [hba1], ?_, fun j hj => ?_⟩
    · rw [GetBit_eq ba1 hd1, hlen1, if_pos hl, hbit i]
      simp
    · rw [GetBit_eq ba1 hd1, GetBit_eq ba hd, hlen1, hbit j, if_neg hj]

/-- Witness for C31: setting bit 9 of a 12-bit array. -/
theorem C31_bitarray_witness :
    BitArray.SetBit { Data := [5, 0], Bitlen := 12 } 9 true = .ok { Data := [5, 2], Bitlen := 12 } ∧
    BitArray.GetBit { Data := [5, 2], Bitlen := 12 } 9 = .ok true ∧
    BitArray.SetBit { Data := [5, 0], Bitlen := 12 } 12 true = .error .indexOutOfRange :=
  ⟨by decide,
   (C31_bitarray.2.2 { Data := [5, 0], Bitlen := 12 } { Data := [5, 2], Bitlen := 12 } 9 true
      (by decide) (by decide)).2.1,
   C31_bitarray.2.1 { Data := [5, 0], Bitlen := 12 } 12 true (by decide)⟩

/-! ## Roots of bit arrays -/

theorem data_ext (d1 d2 : List Nat) (h1 : IsBytes d1) (h2 : IsBytes d2)
    (hlen : d1.length = d2.length) (hbits : ∀ i, bitAt d1 i = bitAt d2 i) : d1 = d2 := by
  apply List.ext_getElem hlen
  intro n hn1 hn2
  apply Nat.eq_of_testBit_eq
  intro j
  by_cases hj : j < 8
  · have h := hbits (8 * n + j)
    unfold bitAt at h
    have e1 : (8 * n + j) / 8 = n := by omega
    have e2 : (8 * n + j) % 8 = j := by omega
    rw [e1, e2] at h
    simpa [List.getD_eq_getElem?_getD, List.getElem?_eq_getElem hn1,
      List.getElem?_eq_getElem hn2] using h
  · have hp : 2 ^ 8 ≤ 2 ^ j := Nat.pow_le_pow_right (by decide) (by omega)
    have b1 : d1[n] < 256 := h1 _ (List.getElem_mem hn1)
    have b2 : d2[n] < 256 := h2 _ (List.getElem_mem hn2)
    rw [Nat.testBit_lt_two_pow (by omega), Nat.testBit_lt_two_pow (by omega)]

/-- Counterexample to C29 as stated: two bit arrays of 4 bits with the same bits at the indices
0 to 3 (`GetBoolSlice` returns the same list) whose data bytes differ in an unused bit have
different roots under `BitVector(4)`. -/
theorem C29_root_depends_on_unused_bits :
    BitArray.GetBoolSlice { Data := [1], Bitlen := 4 } = .ok [true, false, false, false] ∧
    BitArray.GetBoolSlice { Data := [17], Bitlen := 4 } = .ok [true, false, false, false] ∧
    (BitVector 4).HashTreeRoot constHash (.bitArray { Data := [1], Bitlen := 4 })
      = .ok ([1] ++ zeros 31) ∧
    (BitVector 4).HashTreeRoot constHash (.bitArray { Data := [17], Bitlen := 4 })
      = .ok ([17] ++ zeros 31) ∧
    (BitVector 4).HashTreeRoot constHash (.bitArray { Data := [1], Bitlen := 4 })
      ≠ (BitVector 4).HashTreeRoot constHash (.bitArray { Data := [17], Bitlen := 4 }) :=
  ⟨by decide, by decide, by rfl, by rfl, by decide⟩

/-! ## Size consistency -/

theorem ofRes_length (p : Res Buf) (n : Nat) (hlen : ∀ m, p = .ok m → m.length = n) :
    (Wr.ofRes p).HasLength n := by
  cases p with
  | ok m => exact hlen m rfl
  | error e => trivial
  | panic => trivial

theorem setByte_length (b : List Nat) (i x : Nat) (m : List Nat) (h : setByte b i x = .ok m) :
    m.length = b.length := by
  unfold setByte at h
  split at h
  · cases h
    exact overwrite_length _ _ _ (by simp; omega)
  · exact absurd h (by simp)

theorem putUintAt_length (w : Nat) (b : List Nat) (i x : Nat) (m : List Nat)
    (h : putUintAt w b i x = .ok m) : m.length = b.length := by
  unfold putUintAt at h
  split at h
  · cases h
    exact overwrite_length _ _ _ (by rw [leBytes_length]; omega)
  · exact absurd h (by simp)

theorem copyAt_length (b : List Nat) (pos n : Nat) (src : List Nat) (h : pos + n ≤ b.length) :
    (copyAt b pos n src).length = b.length := by
  unfold copyAt
  exact overwrite_length _ _ _ (by simp only [List.length_take]; omega)

theorem uint_put_length (t : UintType) (u : Nat) (b : List Nat) (s : Nat) :
    (t.put u b s).HasLength b.length := by
  unfold UintType.put
  split
  · exact ofRes_length _ _ (fun m h => setByte_length _ _ _ _ h)
  · split
    · exact ofRes_length _ _ (fun m h => putUintAt_length _ _ _ _ _ h)
    · split
      · exact ofRes_length _ _ (fun m h => putUintAt_length _ _ _ _ _ h)
      · split
        · exact ofRes_length _ _ (fun m h => putUintAt_length _ _ _ _ _ h)
        · exact rfl

theorem sized_bool : Sized SszBool := by
  refine ⟨fun _ => rfl, fun v b s => ?_⟩
  show (BoolType.SerializeTo v b s).HasLength b.length
  unfold BoolType.SerializeTo
  split
  · exact ofRes_length _ _ (fun m h => setByte_length _ _ _ _ h)
  · exact rfl

theorem sized_uint (w : Nat) : Sized (Uint w) := by
  refine ⟨fun _ => rfl, fun v b s => ?_⟩
  show (UintType.SerializeTo { Bitlen := w, fixedSize := w / 8 } v b s).HasLength b.length
  unfold UintType.SerializeTo
  split
  · split
    · trivial
    · exact uint_put_length _ _ _ _
  · split
    · exact rfl
    · exact uint_put_length _ _ _ _
  · trivial
  · exact rfl

theorem sized_bitVector (L : Nat) : Sized (BitVector L) := by
  refine ⟨fun _ => rfl, fun v b s => ?_⟩
  show (BitVectorType.SerializeTo L v b s).HasLength b.length
  cases v with
  | bitArray vv =>
    simp only [BitVectorType.SerializeTo]
    by_cases h1 : vv.Bitlen ≠ L
    · rw [if_pos h1]; exact rfl
    · rw [if_neg h1]
      by_cases h2 : s + (L + 7) / 8 ≤ b.length
      · rw [if_pos h2]; exact copyAt_length _ _ _ _ h2
      · rw [if_neg h2]; trivial
  | _ => exact rfl

theorem sized_bitList (L : Nat) : Sized (BitList L) := by
  refine ⟨fun _ => rfl, fun v b s => ?_⟩
  show (BitListType.SerializeTo L v b s).HasLength b.length
  cases v with
  | bitArray vv =>
    simp only [BitListType.SerializeTo]
    by_cases h1 : vv.Bitlen > L
    · rw [if_pos h1]; exact rfl
    · rw [if_neg h1]
      by_cases h2 : s + (vv.Bitlen + 7) / 8 ≤ b.length
      · rw [if_pos h2]
        have hc := copyAt_length b s _ vv.Data h2
        by_cases h3 : vv.Bitlen % 8 = 0
        · rw [if_pos h3]
          exact ofRes_length _ _ (fun m h => by rw [setByte_length _ _ _ _ h, hc])
        · rw [if_neg h3]
          cases index (copyAt b s ((vv.Bitlen + 7) / 8) vv.Data) (s + (vv.Bitlen + 7) / 8 - 1) with
          | ok x => exact ofRes_length _ _ (fun m h => by rw [setByte_length _ _ _ _ h, hc])
          | error e => trivial
          | panic => trivial
      · rw [if_neg h2]; trivial
  | _ => exact rfl

theorem sized_byteVector (L : Nat) : Sized (ByteVector L) := by
  refine ⟨fun _ => rfl, fun v b s => ?_⟩
  show (ByteVectorType.SerializeTo L v b s).HasLength b.length
  unfold ByteVectorType.SerializeTo
  cases v.asBytes with
  | none => exact rfl
  | some vv =>
    simp only
    by_cases h1 : vv.length ≠ L
    · rw [if_pos h1]; exact rfl
    · rw [if_neg h1]
      by_cases h2 : s ≤ b.length
      · rw [if_pos h2]; exact copyAt_length _ _ _ _ (by omega)
      · rw [if_neg h2]; trivial

theorem sized_byteList (L : Nat) : Sized (ByteList L) := by
  refine ⟨fun _ => rfl, fun v b s => ?_⟩
  show (ByteListType.SerializeTo L v b s).HasLength b.length
  unfold ByteListType.SerializeTo
  cases v.asBytes with
  | none => exact rfl
  | some vv =>
    simp only
    by_cases h1 : vv.length > L
    · rw [if_pos h1]; exact rfl
    · rw [if_neg h1]
      by_cases h2 : s ≤ b.length
      · rw [if_pos h2]; exact copyAt_length _ _ _ _ (by omega)
      · rw [if_neg h2]; trivial

theorem serializeFixedLoop_length (E : SSZType)
    (hE : ∀ v b s, (E.SerializeTo v b s).HasLength b.length) (start : Nat) :
    ∀ (xs : List Value) (i : Nat) (b : List Nat),
    (serializeFixedLoop E start xs i b).HasLength b.length := by
  intro xs
  induction xs with
  | nil => intro i b; exact rfl
  | cons x xs ih =>
    intro i b
    unfold serializeFixedLoop
    have h := hE x b (start + i * E.FixedSize)
    cases hs : E.SerializeTo x b (start + i * E.FixedSize) with
    | done b1 =>
      rw [hs] at h
      have h1 : b1.length = b.length := h
      simp only
      rw [← h1]
      exact ih _ _
    | fail e b1 =>
      rw [hs] at h
      exact h
    | panic => trivial

theorem serializeVarLoop_length (E : SSZType)
    (hE : ∀ v b s, (E.SerializeTo v b s).HasLength b.length) (start : Nat) :
    ∀ (xs : List Value) (i offset : Nat) (b : List Nat),
    (serializeVarLoop E start xs i offset b).HasLength b.length := by
  intro xs
  induction xs with
  | nil => intro i offset b; exact rfl
  | cons x xs ih =>
    intro i offset b
    unfold serializeVarLoop
    cases hp : putUintAt 4 b (start + i * 4) (toUint32 offset) with
    | ok b1 =>
      have hb1 := putUintAt_length _ _ _ _ _ hp
      have h := hE x b1 (start + offset)
      simp only
      cases hs : E.SerializeTo x b1 (start + offset) with
      | done b2 =>
        rw [hs] at h
        have h2 : b2.length = b.length := by rw [← hb1]; exact h
        simp only
        cases E.Size x with
        | ok n => simp only; rw [← h2]; exact ih _ _ _
        | error e => exact h2
        | panic => trivial
      | fail e b2 =>
        rw [hs] at h
        have h2 : b2.length = b.length := by rw [← hb1]; exact h
        simp only
        cases E.Size x with
        | ok n => simp only; rw [← h2]; exact ih _ _ _
        | error e => exact h2
        | panic => trivial
      | panic => trivial
    | error e => trivial
    | panic => trivial

theorem sized_vector (E : SSZType) (N : Nat) (hE : Sized E) : Sized (Vector E N) := by
  refine ⟨fun _ => rfl, fun v b s => ?_⟩
  show (VectorType.SerializeTo { ElementType := E, Length := N } v b s).HasLength b.length
  cases v with
  | slice vv =>
    simp only [VectorType.SerializeTo]
    split
    · exact rfl
    · split
      · exact serializeFixedLoop_length E hE.ser_length _ _ _ _
      · exact serializeVarLoop_length E hE.ser_length _ _ _ _ _
  | _ => exact rfl

theorem sized_list (E : SSZType) (L : Nat) (hE : Sized E) : Sized (SszList E L) := by
  refine ⟨fun _ => rfl, fun v b s => ?_⟩
  show (ListType.SerializeTo { ElementType := E, Limit := L } v b s).HasLength b.length
  cases v with
  | slice vv =>
    simp only [ListType.SerializeTo]
    split
    · exact rfl
    · split
      · exact serializeFixedLoop_length E hE.ser_length _ _ _ _
      · exact serializeVarLoop_length E hE.ser_length _ _ _ _ _
  | _ => exact rfl

theorem containerSerializeLoop_length (t : ContainerType) (start : Nat) :
    ∀ (fts : List SSZType), (∀ ft ∈ fts, ∀ v b s, (ft.SerializeTo v b s).HasLength b.length) →
    ∀ (xs : List Value) (variableIx fixedIx variableIndex : Nat) (b : List Nat),
    (containerSerializeLoop t start fts xs variableIx fixedIx variableIndex b).HasLength
      b.length := by
  intro fts
  induction fts with
  | nil => intro _ xs _ _ _ b; unfold containerSerializeLoop; exact rfl
  | cons ft fts ih =>
    intro hfts xs variableIx fixedIx variableIndex b
    have hft := hfts ft (by simp)
    have ih' := ih (fun f hf => hfts f (by simp [hf]))
    cases xs with
    | nil => unfold containerSerializeLoop; trivial
    | cons x xs =>
      unfold containerSerializeLoop
      by_cases hv : ft.IsVariableSize = true
      · simp only [hv, Bool.not_true, Bool.false_eq_true, ↓reduceIte]
        cases t.variableOffsets[variableIx]? with
        | none => trivial
        | some o =>
          simp only
          cases hp : putUintAt 4 b (start + o) (toUint32 (variableIndex - start)) with
          | ok b1 =>
            have hb1 := putUintAt_length _ _ _ _ _ hp
            simp only
            cases ft.Size x with
            | ok n =>
              simp only
              have h := hft x b1 variableIndex
              cases hs : ft.SerializeTo x b1 variableIndex with
              | done b2 =>
                rw [hs] at h
                have h2 : b2.length = b.length := by rw [← hb1]; exact h
                simp only
                rw [← h2]
                exact ih' _ _ _ _ _
              | fail e b2 =>
                rw [hs] at h
                have h2 : b2.length = b.length := by rw [← hb1]; exact h
                exact h2
              | panic => trivial
            | error e => exact hb1
            | panic => trivial
          | error e => trivial
          | panic => trivial
      · have hv' : ft.IsVariableSize = false := by simpa using hv
        simp only [hv', Bool.not_false, ↓reduceIte]
        cases t.fixedFieldRanges[fixedIx]? with
        | none => trivial
        | some r =>
          simp only
          have h := hft x b (start + r.1)
          cases hs : ft.SerializeTo x b (start + r.1) with
          | done b1 =>
            rw [hs] at h
            have h1 : b1.length = b.length := h
            simp only
            rw [← h1]
            exact ih' _ _ _ _ _
          | fail e b1 =>
            rw [hs] at h
            exact h
          | panic => trivial

theorem sized_container (fields : List Field) (typ : String)
    (h : ∀ f ∈ fields, Sized f.V) : Sized (Container fields typ) := by
  refine ⟨fun _ => rfl, fun v b s => ?_⟩
  show ((ContainerType.make fields typ).SerializeTo v b s).HasLength b.length
  unfold ContainerType.SerializeTo
  cases (ContainerType.make fields typ).GetFieldValues v with
  | ok xs =>
    simp only
    apply containerSerializeLoop_length
    intro ft hft
    rw [(make_tables fields typ).2.2.2.1] at hft
    obtain ⟨f, hf, rfl⟩ := List.mem_map.mp hft
    exact (h f hf).ser_length
  | error e => exact rfl
  | panic => trivial

theorem sized_of_descriptor {t : SSZType} (h : Descriptor t) : Sized t := by
  induction h with
  | bool => exact sized_bool
  | uint w => exact sized_uint w
  | bitVector L => exact sized_bitVector L
  | bitList L => exact sized_bitList L
  | byteVector L => exact sized_byteVector L
  | byteList L => exact sized_byteList L
  | vector E N _ ih => exact sized_vector E N ih
  | list E L _ ih => exact sized_list E L ih
  | container fields typ _ ih => exact sized_container fields typ ih

/-- **C17.** For every descriptor the package builds and every value `v` for which
`Serialize(v)` succeeds, `Size(v)` succeeds with the length of `Serialize(v)`. -/
theorem C17_size_consistency (t : SSZType) (ht : Descriptor t) (v : Value) (out : List Nat)
    (h : t.Serialize v = .ok out) : t.Size v = .ok out.length := by
  have hs := sized_of_descriptor ht
  rw [hs.serialize_eq] at h
  obtain ⟨n, hn, h⟩ := Res.bind_eq_ok h
  have hl := hs.ser_length v (zeros n) 0
  cases hw : t.SerializeTo v (zeros n) 0 with
  | done b =>
    rw [hw] at h hl
    have hb : b = out := Res.ok.inj h
    have hlen : b.length = (zeros n).length := hl
    rw [hn, ← hb, hlen, zeros_length]
  | fail e b =>
    rw [hw] at h
    exact absurd h (by simp [Wr.toRes])
  | panic =>
    rw [hw] at h
    exact absurd h (by simp [Wr.toRes])

/-- Witness for C17: a list of byte lists, and the container `VarTestStruct`. -/
theorem C17_size_consistency_witness :
    (SszList (ByteList 4) 4).Size (.slice [Value.ofBytes [1], Value.ofBytes [2]])
      = .ok ([8, 0, 0, 0, 9, 0, 0, 0, 1, 2] : List Nat).length :=
  C17_size_consistency _ (.list _ _ (.byteList 4)) _ _ (by decide)

/-! ## Offsets written by `Serialize` -/

theorem seqTable_length : ∀ (encs : List (List Nat)) (off : Nat),
    (seqTable encs off).length = 4 * encs.length := by
  intro encs
  induction encs with
  | nil => intro off; rfl
  | cons enc encs ih =>
    intro off
    simp only [seqTable, List.length_append, leBytes_length, ih, List.length_cons]
    omega

theorem sizeLoop_eq (E : SSZType) : ∀ (xs : List Value) (encs : List (List Nat)),
    List.Forall₂ (Encodes E) xs encs →
    ∀ acc, sizeLoop E xs acc = .ok (acc + encs.flatten.length) := by
  intro xs encs h
  induction h with
  | nil => intro acc; simp [sizeLoop]
  | @cons x enc xs encs he _ ih =>
    intro acc
    simp only [sizeLoop, he.size, Res.ok_bind, ih, List.flatten_cons, List.length_append]
    congr 1
    omega

/-- The loop of `SerializeTo` for variable-size elements fills the reserved zero bytes with the
offset table and the payloads. -/
theorem serializeVarLoop_eq (E : SSZType) (start : Nat) :
    ∀ (xs : List Value) (encs : List (List Nat)), List.Forall₂ (Encodes E) xs encs →
    ∀ (i offset : Nat) (P M Q b : List Nat), P.length = start + i * 4 →
    offset = i * 4 + 4 * xs.length + M.length →
    b = P ++ (zeros (4 * xs.length) ++ (M ++ (zeros encs.flatten.length ++ Q))) →
    serializeVarLoop E start xs i offset b
      = .done (P ++ (seqTable encs offset ++ (M ++ (encs.flatten ++ Q)))) := by
  intro xs encs h
  induction h with
  | nil =>
    intro i offset P M Q b _ _ hb
    simp [serializeVarLoop, hb, seqTable, zeros]
  | @cons x enc xs encs he _ ih =>
    intro i offset P M Q b hP hoff hb
    unfold serializeVarLoop
    simp only [List.length_cons] at hoff
    have hb1 : b = P ++ zeros 4 ++ (zeros (4 * xs.length) ++ (M ++ (zeros enc.length ++
        (zeros encs.flatten.length ++ Q)))) := by
      rw [hb]
      have e1 : 4 * (x :: xs).length = 4 + 4 * xs.length := by simp only [List.length_cons]; omega
      rw [e1, List.flatten_cons, List.length_append, zeros_add, zeros_add]
      simp
    have hput : putUintAt 4 b (start + i * 4) (toUint32 offset)
        = .ok (P ++ leBytes 4 offset ++ (zeros (4 * xs.length) ++ (M ++ (zeros enc.length ++
            (zeros encs.flatten.length ++ Q))))) := by
      rw [hb1, ← hP, putUintAt_mid 4 P (zeros 4) _ _ (by simp), leBytes_toUint32]
    have hser : E.SerializeTo x (P ++ leBytes 4 offset ++ (zeros (4 * xs.length) ++ (M ++
        (zeros enc.length ++ (zeros encs.flatten.length ++ Q))))) (start + offset)
        = .done ((P ++ leBytes 4 offset ++ (zeros (4 * xs.length) ++ M)) ++ enc
            ++ (zeros encs.flatten.length ++ Q)) := by
      have := he.ser (P ++ leBytes 4 offset ++ (zeros (4 * xs.length) ++ M))
        (zeros encs.flatten.length ++ Q)
      have hl : (P ++ leBytes 4 offset ++ (zeros (4 * xs.length) ++ M)).length
          = start + offset := by
        simp [leBytes_length]; omega
      rw [hl] at this
      rw [← this]; simp
    simp only [hput, hser, he.size]
    have := ih (i + 1) (offset + enc.length) (P ++ leBytes 4 offset) (M ++ enc) Q _
      (by simp [leBytes_length]; omega) (by simp; omega) rfl
    have hconv : (P ++ leBytes 4 offset ++ (zeros (4 * xs.length) ++ M)) ++ enc
        ++ (zeros encs.flatten.length ++ Q)
        = P ++ leBytes 4 offset ++ (zeros (4 * xs.length) ++ (M ++ enc ++
          (zeros encs.flatten.length ++ Q))) := by simp
    rw [hconv, this]
    simp [seqTable]

theorem seqOffsets_bounds : ∀ (encs : List (List Nat)) (off : Nat),
    List.Pairwise (fun a b => a ≤ b) (seqOffsets encs off) ∧
    (∀ o ∈ seqOffsets encs off, off ≤ o ∧ o ≤ off + encs.flatten.length) ∧
    (∀ o, (seqOffsets encs off)[0]? = some o → o = off) ∧
    (seqOffsets encs off).length = encs.length := by
  intro encs
  induction encs with
  | nil => intro off; simp [seqOffsets]
  | cons enc encs ih =>
    intro off
    obtain ⟨h1, h2, _, h4⟩ := ih (off + enc.length)
    refine ⟨?_, ?_, ?_, ?_⟩
    · simp only [seqOffsets, List.pairwise_cons]
      exact ⟨fun o ho => by have := (h2 o ho).1; omega, h1⟩
    · intro o ho
      simp only [seqOffsets, List.mem_cons] at ho
      simp only [List.flatten_cons, List.length_append]
      rcases ho with ho | ho
      · omega
      · have := h2 o ho; omega
    · intro o ho
      simp only [seqOffsets, List.getElem?_cons_zero, Option.some.injEq] at ho
      exact ho.symm
    · simp [seqOffsets, h4]

theorem varStarts_bounds : ∀ (fts : List SSZType) (encs : List (List Nat)) (voff : Nat),
    List.Pairwise (fun a b => a ≤ b) (varStarts fts encs voff) ∧
    (∀ o ∈ varStarts fts encs voff, voff ≤ o ∧ o ≤ voff + varSizeSum fts encs) ∧
    (∀ o, (varStarts fts encs voff)[0]? = some o → o = voff) := by
  intro fts
  induction fts with
  | nil => intro encs voff; simp [varStarts]
  | cons ft fts ih =>
    intro encs voff
    cases encs with
    | nil => simp [varStarts]
    | cons enc encs =>
      by_cases hvar : ft.IsVariableSize = true
      · obtain ⟨h1, h2, _⟩ := ih encs (voff + enc.length)
        refine ⟨?_, ?_, ?_⟩
        · simp only [varStarts, hvar, ↓reduceIte, List.pairwise_cons]
          exact ⟨fun o ho => by have := (h2 o ho).1; omega, h1⟩
        · intro o ho
          simp only [varStarts, hvar, ↓reduceIte, List.mem_cons] at ho
          simp only [varSizeSum, hvar, ↓reduceIte]
          rcases ho with ho | ho
          · omega
          · have := h2 o ho; omega
        · intro o ho
          simp only [varStarts, hvar, ↓reduceIte, List.getElem?_cons_zero,
            Option.some.injEq] at ho
          exact ho.symm
      · obtain ⟨h1, h2, h3⟩ := ih encs voff
        have e1 : varStarts (ft :: fts) (enc :: encs) voff = varStarts fts encs voff := by
          simp [varStarts, hvar]
        have e2 : varSizeSum (ft :: fts) (enc :: encs) = varSizeSum fts encs := by
          simp [varSizeSum, hvar]
        rw [e1, e2]
        exact ⟨h1, h2, h3⟩

theorem leValue_leBytes_small (x : Nat) (h : x < 2 ^ 32) : leValue (leBytes 4 x) = x := by
  rw [leValue_leBytes]
  exact Nat.mod_eq_of_lt (by simpa using h)

/-- Reading the offset slots of a serialized container gives the payload starts. -/
theorem slots_of_layout : ∀ (fts : List SSZType) (xs : List Value) (encs : List (List Nat)),
    FieldsEncode fts xs encs →
    ∀ (off voff : Nat) (P Rest : List Nat), P.length = off →
    voff + varSizeSum fts encs < 2 ^ 32 →
    (slotsFrom fts off).map (getUintAt 4 (P ++ (layoutFixed fts encs voff ++ Rest)))
      = (varStarts fts encs voff).map Res.ok := by
  intro fts xs encs h
  induction h with
  | nil => intro off voff P Rest _ _; simp [slotsFrom, varStarts]
  | @cons ft x enc fts xs encs he _ ih =>
    intro off voff P Rest hP h32
    by_cases hvar : ft.IsVariableSize = true
    · have hvs : varSizeSum (ft :: fts) (enc :: encs) = enc.length + varSizeSum fts encs := by
        simp [varSizeSum, hvar]
      rw [hvs] at h32
      have hb : P ++ (layoutFixed (ft :: fts) (enc :: encs) voff ++ Rest)
          = P ++ leBytes 4 voff ++ (layoutFixed fts encs (voff + enc.length) ++ Rest) := by
        simp [layoutFixed, hvar]
      have hget : getUintAt 4 (P ++ leBytes 4 voff
          ++ (layoutFixed fts encs (voff + enc.length) ++ Rest)) off = .ok voff := by
        rw [← hP, getUintAt_mid 4 P _ _ (leBytes_length _ _),
          leValue_leBytes_small voff (by omega)]
      have := ih (off + 4) (voff + enc.length) (P ++ leBytes 4 voff) Rest
        (by simp [leBytes_length, hP]) (by omega)
      rw [hb]
      simp only [slotsFrom, varStarts, hvar, ↓reduceIte, List.map_cons, hget, this]
    · have hvar' : ft.IsVariableSize = false := by simpa using hvar
      have hvs : varSizeSum (ft :: fts) (enc :: encs) = varSizeSum fts encs := by
        simp [varSizeSum, hvar]
      rw [hvs] at h32
      have hb : P ++ (layoutFixed (ft :: fts) (enc :: encs) voff ++ Rest)
          = P ++ enc ++ (layoutFixed fts encs voff ++ Rest) := by
        simp [layoutFixed, hvar]
      have := ih (off + ft.FixedSize) voff (P ++ enc) Rest
        (by simp [hP, he.fixed hvar']) h32
      rw [hb]
      simp only [slotsFrom, varStarts, hvar, Bool.false_eq_true, ↓reduceIte, this]

/-- Reading the slots of the offset table of a serialized sequence gives the offsets. -/
theorem slots_of_seqTable : ∀ (encs : List (List Nat)) (i off : Nat) (P Rest : List Nat),
    P.length = 4 * i → off + encs.flatten.length < 2 ^ 32 →
    (List.range' i encs.length).map (fun j => getUintAt 4 (P ++ (seqTable encs off ++ Rest)) (4 * j))
      = (seqOffsets encs off).map Res.ok := by
  intro encs
  induction encs with
  | nil => intro i off P Rest _ _; simp [seqOffsets]
  | cons enc encs ih =>
    intro i off P Rest hP h32
    simp only [List.flatten_cons, List.length_append] at h32
    have hb : P ++ (seqTable (enc :: encs) off ++ Rest)
        = P ++ leBytes 4 off ++ (seqTable encs (off + enc.length) ++ Rest) := by
      simp [seqTable]
    have hget : getUintAt 4 (P ++ leBytes 4 off ++ (seqTable encs (off + enc.length) ++ Rest))
        (4 * i) = .ok off := by
      rw [← hP, getUintAt_mid 4 P _ _ (leBytes_length _ _), leValue_leBytes_small off (by omega)]
    have := ih (i + 1) (off + enc.length) (P ++ leBytes 4 off) Rest
      (by simp [leBytes_length, hP]; omega) (by omega)
    rw [hb]
    simp only [List.length_cons, List.range'_succ, List.map_cons, hget, seqOffsets, this]

/-- A vector of variable-size elements is written as its offset table and its payloads. -/
theorem vector_var_serialize (E : SSZType) (N : Nat) (hvar : E.IsVariableSize = true)
    (xs : List Value) (encs : List (List Nat)) (h : List.Forall₂ (Encodes E) xs encs)
    (hN : xs.length = N) :
    (Vector E N).Serialize (.slice xs) = .ok (seqTable encs (4 * N) ++ encs.flatten) := by
  show VectorType.Serialize { ElementType := E, Length := N } (.slice xs) = _
  unfold VectorType.Serialize VectorType.Size VectorType.SerializeTo
  simp only [hvar, Bool.not_true, Bool.false_eq_true, ↓reduceIte, hN, ne_eq, not_true_eq_false,
    sizeLoop_eq E xs encs h, Res.ok_bind, Res.pure_eq, Nat.zero_add]
  have := serializeVarLoop_eq E 0 xs encs h 0 (4 * N) [] [] []
    (zeros (encs.flatten.length + 4 * N)) (by simp) (by simp [hN])
    (by rw [Nat.add_comm, zeros_add, hN]; simp)
  rw [this]
  simp

/-- A list of variable-size elements is written as its offset table and its payloads. -/
theorem list_var_serialize (E : SSZType) (L : Nat) (hvar : E.IsVariableSize = true)
    (hnb : isBasicType E = false)
    (xs : List Value) (encs : List (List Nat)) (h : List.Forall₂ (Encodes E) xs encs)
    (hL : xs.length ≤ L) :
    (SszList E L).Serialize (.slice xs)
      = .ok (seqTable encs (4 * xs.length) ++ encs.flatten) := by
  show ListType.Serialize { ElementType := E, Limit := L } (.slice xs) = _
  unfold ListType.Serialize ListType.Size ListType.SerializeTo
  simp only [hvar, hnb, Bool.not_true, Bool.false_eq_true, ↓reduceIte, Nat.not_lt.mpr hL,
    sizeLoop_eq E xs encs h, Res.ok_bind, Res.pure_eq, Nat.zero_add]
  have := serializeVarLoop_eq E 0 xs encs h 0 (4 * xs.length) [] [] []
    (zeros (encs.flatten.length + 4 * xs.length)) (by simp) (by simp)
    (by rw [Nat.add_comm, zeros_add]; simp)
  rw [this]
  simp

/-- Counterexample to C15 as stated: with two empty payloads the two offsets written are equal
(both are 8), in a container and in a list alike. -/
theorem C15_equal_offsets_written :
    (Container TwoListsFields "T").Serialize (.struct "T" [Value.ofBytes [], Value.ofBytes []])
      = .ok [8, 0, 0, 0, 8, 0, 0, 0] ∧
    (SszList (ByteList 4) 4).Serialize (.slice [Value.ofBytes [], Value.ofBytes []])
      = .ok [8, 0, 0, 0, 8, 0, 0, 0] ∧
    getUintAt 4 [8, 0, 0, 0, 8, 0, 0, 0] 0 = .ok 8 ∧
    getUintAt 4 [8, 0, 0, 0, 8, 0, 0, 0] 4 = .ok 8 :=
  ⟨by decide, by decide, by decide, by decide⟩

/-! ## Offsets and payloads -/

theorem varStarts_eq_seqOffsets : ∀ (fts : List SSZType) (encs : List (List Nat)) (voff : Nat),
    varStarts fts encs voff = seqOffsets (varEncs fts encs) voff := by
  intro fts
  induction fts with
  | nil => intro encs voff; simp [varStarts, varEncs, seqOffsets]
  | cons ft fts ih =>
    intro encs voff
    cases encs with
    | nil => simp [varStarts, varEncs, seqOffsets]
    | cons enc encs =>
      by_cases hvar : ft.IsVariableSize = true
      · simp [varStarts, varEncs, seqOffsets, hvar, ih]
      · simp [varStarts, varEncs, hvar, ih]

/-- Each offset of a sequence is the one before it plus the length of the payload between
them. -/
theorem seqOffsets_step : ∀ (encs : List (List Nat)) (off i o1 o2 : Nat) (enc : List Nat),
    (seqOffsets encs off)[i]? = some o1 → (seqOffsets encs off)[i + 1]? = some o2 →
    encs[i]? = some enc → o2 = o1 + enc.length := by
  intro encs
  induction encs with
  | nil => intro off i o1 o2 enc h1; simp [seqOffsets] at h1
  | cons enc0 encs ih =>
    intro off i o1 o2 enc h1 h2 h3
    cases i with
    | zero =>
      simp only [seqOffsets, List.getElem?_cons_zero, Option.some.injEq] at h1 h3
      simp only [seqOffsets, Nat.zero_add, List.getElem?_cons_succ] at h2
      have := (seqOffsets_bounds encs (off + enc0.length)).2.2.1 o2 h2
      rw [this, ← h1, ← h3]
    | succ i =>
      simp only [seqOffsets, List.getElem?_cons_succ] at h1 h2 h3
      exact ih _ i o1 o2 enc h1 h2 h3

theorem step_facts (o1 o2 : Nat) (enc : List Nat) (h : o2 = o1 + enc.length) :
    o2 = o1 + enc.length ∧ (o2 = o1 ↔ enc = []) ∧ (enc ≠ [] → o1 < o2) := by
  refine ⟨h, ?_, ?_⟩
  · constructor
    · intro e
      have : enc.length = 0 := by omega
      exact List.length_eq_zero.mp this
    · intro e
      rw [h, e]
      rfl
  · intro hne
    have : 0 < enc.length := List.length_pos.mpr hne
    omega

/-- The payload of child `i` stands in the output at the offset of child `i`. -/
theorem payload_at : ∀ (encs : List (List Nat)) (off i o : Nat) (enc T : List Nat),
    T.length = off → (seqOffsets encs off)[i]? = some o → encs[i]? = some enc →
    ((T ++ encs.flatten).drop o).take enc.length = enc := by
  intro encs
  induction encs with
  | nil => intro off i o enc T _ h1; simp [seqOffsets] at h1
  | cons enc0 encs ih =>
    intro off i o enc T hT h1 h3
    cases i with
    | zero =>
      simp only [seqOffsets, List.getElem?_cons_zero, Option.some.injEq] at h1 h3
      rw [← h1, ← h3, ← hT, List.drop_left', List.flatten_cons, List.take_left']
      · rfl
      · rfl
    | succ i =>
      simp only [seqOffsets, List.getElem?_cons_succ] at h1 h3
      have := ih (off + enc0.length) i o enc (T ++ enc0) (by simp [hT]) h1 h3
      rw [List.flatten_cons, ← List.append_assoc]
      exact this

theorem layoutVar_eq_flatten : ∀ (fts : List SSZType) (encs : List (List Nat)),
    layoutVar fts encs = (varEncs fts encs).flatten := by
  intro fts
  induction fts with
  | nil => intro encs; simp [layoutVar, varEncs]
  | cons ft fts ih =>
    intro encs
    cases encs with
    | nil => simp [layoutVar, varEncs]
    | cons enc encs =>
      by_cases hvar : ft.IsVariableSize = true
      · simp [layoutVar, varEncs, hvar, ih]
      · simp [layoutVar, varEncs, hvar, ih]

/-- **C15 (amended).** For a container, a vector or a list with variable-size children whose
child values are written by their descriptors, with an output shorter than `2^32` bytes: the
offsets read from the slots of `Serialize(v)` are as many as the payloads, the payload of child
`i` stands in the output at offset `i`, each offset is the one before it plus the length of
the payload between them (so they never decrease, two adjacent ones are equal exactly when
that payload is empty, and they increase strictly across a non-empty payload), each lies
between the end of the fixed region and the length of the output, and the first one is the end
of the fixed region (`fixedEnd` for a container, `4*n` for a sequence of `n` elements). -/
theorem C15_offsets_written :
    (∀ (fields : List Field) (typ : String) (xs : List Value) (encs : List (List Nat)),
      FieldsEncode (fields.map (fun f => f.V)) xs encs →
      (ContainerType.make fields typ).fixedEnd + varSizeSum (fields.map (fun f => f.V)) encs
        < 2 ^ 32 →
      ∃ out offs, (Container fields typ).Serialize (.struct typ xs) = .ok out ∧
        (ContainerType.make fields typ).variableOffsets.map (getUintAt 4 out)
          = offs.map Res.ok ∧
        offs.length = (varEncs (fields.map (fun f => f.V)) encs).length ∧
        (∀ (i o : Nat) (enc : List Nat), offs[i]? = some o →
          (varEncs (fields.map (fun f => f.V)) encs)[i]? = some enc →
          (out.drop o).take enc.length = enc) ∧
        (∀ (i o1 o2 : Nat) (enc : List Nat), offs[i]? = some o1 → offs[i + 1]? = some o2 →
          (varEncs (fields.map (fun f => f.V)) encs)[i]? = some enc →
          o2 = o1 + enc.length ∧ (o2 = o1 ↔ enc = []) ∧ (enc ≠ [] → o1 < o2)) ∧
        List.Pairwise (fun a b => a ≤ b) offs ∧
        (∀ o ∈ offs, (ContainerType.make fields typ).fixedEnd ≤ o ∧ o ≤ out.length) ∧
        (∀ o, offs[0]? = some o → o = (ContainerType.make fields typ).fixedEnd)) ∧
    (∀ (E : SSZType) (N : Nat) (xs : List Value) (encs : List (List Nat)),
      E.IsVariableSize = true → List.Forall₂ (Encodes E) xs encs → xs.length = N →
      4 * N + encs.flatten.length < 2 ^ 32 →
      ∃ out offs, (Vector E N).Serialize (.slice xs) = .ok out ∧
        (List.range N).map (fun j => getUintAt 4 out (4 * j)) = offs.map Res.ok ∧
        offs.length = encs.length ∧
        (∀ (i o : Nat) (enc : List Nat), offs[i]? = some o → encs[i]? = some enc →
          (out.drop o).take enc.length = enc) ∧
        (∀ (i o1 o2 : Nat) (enc : List Nat), offs[i]? = some o1 → offs[i + 1]? = some o2 →
          encs[i]? = some enc →
          o2 = o1 + enc.length ∧ (o2 = o1 ↔ enc = []) ∧ (enc ≠ [] → o1 < o2)) ∧
        List.Pairwise (fun a b => a ≤ b) offs ∧
        (∀ o ∈ offs, 4 * N ≤ o ∧ o ≤ out.length) ∧
        (∀ o, offs[0]? = some o → o = 4 * N)) ∧
    (∀ (E : SSZType) (L : Nat) (xs : List Value) (encs : List (List Nat)),
      E.IsVariableSize = true → isBasicType E = false → List.Forall₂ (Encodes E) xs encs →
      xs.length ≤ L → 4 * xs.length + encs.flatten.length < 2 ^ 32 →
      ∃ out offs, (SszList E L).Serialize (.slice xs) = .ok out ∧
        (List.range xs.length).map (fun j => getUintAt 4 out (4 * j)) = offs.map Res.ok ∧
        offs.length = encs.length ∧
        (∀ (i o : Nat) (enc : List Nat), offs[i]? = some o → encs[i]? = some enc →
          (out.drop o).take enc.length = enc) ∧
        (∀ (i o1 o2 : Nat) (enc : List Nat), offs[i]? = some o1 → offs[i + 1]? = some o2 →
          encs[i]? = some enc →
          o2 = o1 + enc.length ∧ (o2 = o1 ↔ enc = []) ∧ (enc ≠ [] → o1 < o2)) ∧
        List.Pairwise (fun a b => a ≤ b) offs ∧
        (∀ o ∈ offs, 4 * xs.length ≤ o ∧ o ≤ out.length) ∧
        (∀ o, offs[0]? = some o → o = 4 * xs.length)) := by
  refine ⟨?_, ?_, ?_⟩
  · intro fields typ xs encs h h32
    obtain ⟨_, hV, hE, _, _, _⟩ := make_tables fields typ
    rw [hE] at h32 ⊢
    rw [hV]
    obtain ⟨b1, b2, b3⟩ := varStarts_bounds (fields.map (fun f => f.V)) encs
      (fixedLen (fields.map (fun f => f.V)))
    have hvs := varStarts_eq_seqOffsets (fields.map (fun f => f.V)) encs
      (fixedLen (fields.map (fun f => f.V)))
    refine ⟨_, varStarts (fields.map (fun f => f.V)) encs (fixedLen (fields.map (fun f => f.V))),
      container_serialize_eq fields typ xs encs h, ?_, ?_, ?_, ?_, b1, ?_, b3⟩
    · have := slots_of_layout _ xs encs h 0 (fixedLen (fields.map (fun f => f.V))) []
        (layoutVar (fields.map (fun f => f.V)) encs) rfl h32
      simpa using this
    · rw [hvs]
      exact (seqOffsets_bounds _ _).2.2.2
    · intro i o enc h1 h3
      rw [hvs] at h1
      rw [layoutVar_eq_flatten]
      exact payload_at _ _ i o enc _ (layoutFixed_length h _) h1 h3
    · intro i o1 o2 enc h1 h2 h3
      rw [hvs] at h1 h2
      exact step_facts _ _ _ (seqOffsets_step _ _ i o1 o2 enc h1 h2 h3)
    · intro o ho
      rw [List.length_append, layoutFixed_length h, layoutVar_length]
      exact b2 o ho
  · intro E N xs encs hvar h hN h32
    have hl : encs.length = N := by rw [← forall2_length h, hN]
    obtain ⟨b1, b2, b3, b4⟩ := seqOffsets_bounds encs (4 * N)
    refine ⟨_, seqOffsets encs (4 * N), vector_var_serialize E N hvar xs encs h hN, ?_, b4, ?_,
      ?_, b1, ?_, b3⟩
    · have := slots_of_seqTable encs 0 (4 * N) [] encs.flatten rfl h32
      rw [hl] at this
      simpa [List.range_eq_range'] using this
    · intro i o enc h1 h3
      exact payload_at _ _ i o enc _ (by rw [seqTable_length, hl]) h1 h3
    · intro i o1 o2 enc h1 h2 h3
      exact step_facts _ _ _ (seqOffsets_step _ _ i o1 o2 enc h1 h2 h3)
    · intro o ho
      rw [List.length_append, seqTable_length, hl]
      exact b2 o ho
  · intro E L xs encs hvar hnb h hL h32
    have hl : encs.length = xs.length := (forall2_length h).symm
    obtain ⟨b1, b2, b3, b4⟩ := seqOffsets_bounds encs (4 * xs.length)
    refine ⟨_, seqOffsets encs (4 * xs.length), list_var_serialize E L hvar hnb xs encs h hL, ?_,
      b4, ?_, ?_, b1, ?_, b3⟩
    · have := slots_of_seqTable encs 0 (4 * xs.length) [] encs.flatten rfl h32
      rw [hl] at this
      simpa [List.range_eq_range'] using this
    · intro i o enc h1 h3
      exact payload_at _ _ i o enc _ (by rw [seqTable_length, hl]) h1 h3
    · intro i o1 o2 enc h1 h2 h3
      exact step_facts _ _ _ (seqOffsets_step _ _ i o1 o2 enc h1 h2 h3)
    · intro o ho
      rw [List.length_append, seqTable_length, hl]
      exact b2 o ho

/-- Witness for C15 (amended): `Vector(ByteList(4), 3)` on `[[1], [], [2, 3]]`; the offsets
12, 13, 13 are read from the output, the second and third being equal across the empty
payload. -/
theorem C15_offsets_written_witness :
    (Vector (ByteList 4) 3).Serialize
        (.slice [Value.ofBytes [1], Value.ofBytes [], Value.ofBytes [2, 3]])
      = .ok [12, 0, 0, 0, 13, 0, 0, 0, 13, 0, 0, 0, 1, 2, 3] ∧
    ∃ out offs, (Vector (ByteList 4) 3).Serialize
        (.slice [Value.ofBytes [1], Value.ofBytes [], Value.ofBytes [2, 3]]) = .ok out ∧
      (List.range 3).map (fun j => getUintAt 4 out (4 * j)) = offs.map Res.ok ∧
      offs.length = ([[1], [], [2, 3]] : List (List Nat)).length ∧
      (∀ (i o : Nat) (enc : List Nat), offs[i]? = some o →
        ([[1], [], [2, 3]] : List (List Nat))[i]? = some enc →
        (out.drop o).take enc.length = enc) ∧
      (∀ (i o1 o2 : Nat) (enc : List Nat), offs[i]? = some o1 → offs[i + 1]? = some o2 →
        ([[1], [], [2, 3]] : List (List Nat))[i]? = some enc →
        o2 = o1 + enc.length ∧ (o2 = o1 ↔ enc = []) ∧ (enc ≠ [] → o1 < o2)) ∧
      List.Pairwise (fun a b => a ≤ b) offs ∧
      (∀ o ∈ offs, 4 * 3 ≤ o ∧ o ≤ out.length) ∧
      (∀ o, offs[0]? = some o → o = 4 * 3) :=
  ⟨by decide,
   C15_offsets_written.2.1 (ByteList 4) 3
    [Value.ofBytes [1], Value.ofBytes [], Value.ofBytes [2, 3]] [[1], [], [2, 3]]
    rfl (.cons (byteList_encodes 4 [1] (by decide))
      (.cons (byteList_encodes 4 [] (by decide))
        (.cons (byteList_encodes 4 [2, 3] (by decide)) .nil))) rfl (by decide)⟩

/-! ## Roots and trailing zero bytes -/

theorem chunks32_ext : ∀ (l1 l2 : List (List Nat)), (∀ c ∈ l1, c.length = 32) →
    (∀ c ∈ l2, c.length = 32) → l1.flatten = l2.flatten → l1 = l2 := by
  intro l1
  induction l1 with
  | nil =>
    intro l2 _ h2 hf
    cases l2 with
    | nil => rfl
    | cons c l2 =>
      have hc := h2 c (by simp)
      have : (c :: l2).flatten.length = 0 := by rw [← hf]; rfl
      simp only [List.flatten_cons, List.length_append] at this
      omega
  | cons c1 l1 ih =>
    intro l2 h1 h2 hf
    have hc1 := h1 c1 (by simp)
    cases l2 with
    | nil =>
      have : (c1 :: l1).flatten.length = 0 := by rw [hf]; rfl
      simp only [List.flatten_cons, List.length_append] at this
      omega
    | cons c2 l2 =>
      have hc2 := h2 c2 (by simp)
      simp only [List.flatten_cons] at hf
      obtain ⟨e1, e2⟩ := List.append_inj hf (by rw [hc1, hc2])
      rw [e1, ih l2 (fun c hc => h1 c (by simp [hc])) (fun c hc => h2 c (by simp [hc])) e2]

theorem flatten_replicate_zeros (m : Nat) :
    (List.replicate m (zeros 32)).flatten = zeros (32 * m) := by
  induction m with
  | zero => rfl
  | succ m ih =>
    rw [List.replicate_succ, List.flatten_cons, ih, ← zeros_add]
    congr 1
    omega

/-- Trailing zero bytes add trailing zero chunks, and nothing else. -/
theorem Pack_append_zeros (d : List Nat) (k : Nat) :
    Pack (d ++ zeros k)
      = Pack d ++ List.replicate ((d.length + k + 31) / 32 - (d.length + 31) / 32) (zeros 32) := by
  obtain ⟨f1, c1⟩ := Pack_flatten _ (d ++ zeros k) (Nat.le_refl _)
  obtain ⟨f0, c0⟩ := Pack_flatten _ d (Nat.le_refl _)
  apply chunks32_ext _ _ c1
  · intro c hc
    rcases List.mem_append.mp hc with h | h
    · exact c0 c h
    · rw [List.eq_of_mem_replicate h]; simp
  · rw [f1, List.flatten_append, f0, flatten_replicate_zeros, List.append_assoc,
      List.append_assoc, ← zeros_add, ← zeros_add]
    simp only [List.length_append, zeros_length]
    congr 2
    omega

theorem treeRoot_zeros (H : Chunk → Chunk → Chunk) : ∀ k : Nat,
    treeRoot H k (List.replicate (2 ^ k) (zeros 32)) = ZeroHash H k := by
  intro k
  induction k with
  | zero => simp [treeRoot, ZeroHash]
  | succ k ih =>
    have hp : 2 ^ (k + 1) = 2 ^ k + 2 ^ k := by rw [Nat.pow_succ]; omega
    rw [treeRoot, hp, List.replicate_add, List.take_left' (by simp), List.drop_left' (by simp),
      ih, ZeroHash]

/-- Zero chunks after the chunks do not change the root, as long as all of them fit the
tree. -/
theorem Merkleize_append_zeros (H : Chunk → Chunk → Chunk) (cs : List Chunk) (m limit : Nat)
    (hfit : cs.length + m ≤ 2 ^ bitsLen (uintSub limit 1)) :
    Merkleize H (cs ++ List.replicate m (zeros 32)) limit = Merkleize H cs limit := by
  unfold Merkleize
  simp only
  generalize bitsLen (uintSub limit 1) = k at hfit
  have hz : ZeroHash H 0 = zeros 32 := rfl
  by_cases hm : m = 0
  · subst hm; simp
  · by_cases hcs : cs = []
    · subst hcs
      simp only [List.nil_append, List.length_replicate, hm, ↓reduceIte, List.length_nil]
      simp only [List.length_nil, Nat.zero_add] at hfit
      rw [MerkleizeLoop_eq H k 0 _ (by simp; omega) (by simpa using hfit)]
      unfold padTo
      rw [hz, List.length_replicate, ← List.replicate_add,
        (by omega : m + (2 ^ k - m) = 2 ^ k), treeRoot_zeros]
    · have hpos : 0 < cs.length := List.length_pos.mpr hcs
      have h1 : ¬ (cs ++ List.replicate m (zeros 32)).length = 0 := by simp; omega
      have h2 : ¬ cs.length = 0 := by omega
      rw [if_neg h1, if_neg h2,
        MerkleizeLoop_eq H k 0 _ (by simp; omega) (by simpa using hfit),
        MerkleizeLoop_eq H k 0 cs (by omega) (by omega)]
      unfold padTo
      rw [hz, List.append_assoc, ← List.replicate_add]
      congr 3
      simp only [List.length_append, List.length_replicate]
      omega

/-- Two byte strings with the same bit at every index, an absent byte counting as zero bits,
differ by trailing zero bytes. -/
theorem zero_extension (a b : List Nat) (ha : IsBytes a) (hb : IsBytes b)
    (hbits : ∀ i, bitAt a i = bitAt b i) (hle : a.length ≤ b.length) :
    b = a ++ zeros (b.length - a.length) := by
  apply data_ext _ _ hb (isBytes_append.mpr ⟨ha, isBytes_zeros _⟩)
    (by simp only [List.length_append, zeros_length]; omega)
  intro i
  by_cases hi : i / 8 < a.length
  · rw [bitAt_append_left _ _ _ hi, hbits i]
  · have h1 : bitAt a i = false := bitAt_of_le _ _ (by omega)
    have h2 : bitAt (a ++ zeros (b.length - a.length)) i = false := by
      unfold bitAt
      rw [List.getD_eq_getElem?_getD, List.getElem?_append_right (by omega)]
      unfold zeros
      by_cases hr : i / 8 - a.length < b.length - a.length
      · simp [List.getElem?_replicate, hr]
      · simp [List.getElem?_replicate, hr]
    rw [← hbits i, h1, h2]

/-- Of a layer with more chunks than the tree has leaves, only the first `2^k` reach the
root. -/
theorem MerkleizeLoop_take (H : Chunk → Chunk → Chunk) : ∀ (k i : Nat) (ys : List Chunk),
    2 ^ k ≤ ys.length →
    (MerkleizeLoop H k i ys).headD (zeros 32)
      = (MerkleizeLoop H k i (ys.take (2 ^ k))).headD (zeros 32) := by
  intro k
  induction k with
  | zero =>
    intro i ys h
    cases ys with
    | nil => simp at h
    | cons y ys => simp [MerkleizeLoop, List.take]
  | succ k ih =>
    intro i ys h
    have hp : 2 ^ (k + 1) = 2 * 2 ^ k := by rw [Nat.pow_succ]; omega
    have hlt : (ys.take (2 ^ (k + 1))).length = 2 ^ (k + 1) := by
      rw [List.length_take]; omega
    have heven : ¬ (ys.take (2 ^ (k + 1))).length % 2 = 1 := by rw [hlt, hp]; omega
    have hL : MerkleizeLoop H (k + 1) i ys = MerkleizeLoop H k (i + 1)
        (HashChunks H (if ys.length % 2 = 1 then ys ++ [ZeroHash H i] else ys)) := rfl
    have hR : MerkleizeLoop H (k + 1) i (ys.take (2 ^ (k + 1)))
        = MerkleizeLoop H k (i + 1) (HashChunks H (ys.take (2 ^ (k + 1)))) := by
      rw [MerkleizeLoop]
      simp only [heven, ↓reduceIte]
    have hXlen : 2 ^ k
        ≤ (HashChunks H (if ys.length % 2 = 1 then ys ++ [ZeroHash H i] else ys)).length := by
      rw [HashChunks_length H _ _ rfl]
      split
      · simp only [List.length_append, List.length_singleton]; omega
      · omega
    have hX : (HashChunks H (if ys.length % 2 = 1 then ys ++ [ZeroHash H i] else ys)).take (2 ^ k)
        = HashChunks H (ys.take (2 ^ (k + 1))) := by
      rw [HashChunks_take, ← hp]
      split
      · rw [List.take_append_of_le_length h]
      · rfl
    rw [hL, hR, ih (i + 1) _ hXlen, hX]

theorem Merkleize_take (H : Chunk → Chunk → Chunk) (ys : List Chunk) (limit : Nat)
    (h : 2 ^ bitsLen (uintSub limit 1) ≤ ys.length) :
    Merkleize H ys limit = Merkleize H (ys.take (2 ^ bitsLen (uintSub limit 1))) limit := by
  have hpos : 0 < 2 ^ bitsLen (uintSub limit 1) := Nat.pow_pos (by decide)
  unfold Merkleize
  simp only
  rw [if_neg (by omega), if_neg (by rw [List.length_take]; omega)]
  exact MerkleizeLoop_take H _ 0 ys h

/-- Zero chunks after the chunks never change the root. -/
theorem Merkleize_append_zeros_all (H : Chunk → Chunk → Chunk) (cs : List Chunk)
    (m limit : Nat) :
    Merkleize H (cs ++ List.replicate m (zeros 32)) limit = Merkleize H cs limit := by
  by_cases hfit : cs.length + m ≤ 2 ^ bitsLen (uintSub limit 1)
  · exact Merkleize_append_zeros H cs m limit hfit
  · rw [Merkleize_take H _ limit (by simp only [List.length_append, List.length_replicate]; omega)]
    by_cases hc : 2 ^ bitsLen (uintSub limit 1) ≤ cs.length
    · rw [List.take_append_of_le_length hc, ← Merkleize_take H cs limit hc]
    · have ht : (cs ++ List.replicate m (zeros 32)).take (2 ^ bitsLen (uintSub limit 1))
          = cs ++ List.replicate (2 ^ bitsLen (uintSub limit 1) - cs.length) (zeros 32) := by
        rw [List.take_append_eq_append_take, List.take_of_length_le (by omega),
          List.take_replicate]
        congr 2
        omega
      rw [ht]
      exact Merkleize_append_zeros H cs _ limit (by omega)

theorem bitAt_append_zeros (a : List Nat) (k i : Nat) : bitAt (a ++ zeros k) i = bitAt a i := by
  by_cases hi : i / 8 < a.length
  · exact bitAt_append_left _ _ _ hi
  · rw [bitAt_of_le a i (by omega)]
    unfold bitAt
    rw [List.getD_eq_getElem?_getD, List.getElem?_append_right (by omega)]
    unfold zeros
    by_cases hr : i / 8 - a.length < k
    · simp [List.getElem?_replicate, hr]
    · simp [List.getElem?_replicate, hr]

/-- The root of a bit array under `BitList(L)` and `BitVector(L)` does not change when zero
bytes are added after the data. -/
theorem root_append_zeros (H : Chunk → Chunk → Chunk) (L : Nat) (d : List Nat) (k B : Nat) :
    (BitList L).HashTreeRoot H (.bitArray { Data := d ++ zeros k, Bitlen := B })
      = (BitList L).HashTreeRoot H (.bitArray { Data := d, Bitlen := B }) ∧
    (BitVector L).HashTreeRoot H (.bitArray { Data := d ++ zeros k, Bitlen := B })
      = (BitVector L).HashTreeRoot H (.bitArray { Data := d, Bitlen := B }) := by
  have hL : ∀ v, (BitList L).HashTreeRoot H v = BitListType.HashTreeRoot L H v := fun _ => rfl
  have hV : ∀ v, (BitVector L).HashTreeRoot H v = BitVectorType.HashTreeRoot L H v :=
    fun _ => rfl
  have hM : Merkleize H (Pack (d ++ zeros k)) ((L + 255) / 256)
      = Merkleize H (Pack d) ((L + 255) / 256) := by
    rw [Pack_append_zeros]
    exact Merkleize_append_zeros_all H _ _ _
  refine ⟨?_, ?_⟩
  · rw [hL, hL]
    simp only [BitListType.HashTreeRoot, hM]
  · rw [hV, hV]
    simp only [BitVectorType.HashTreeRoot, hM]

/-- **C29 (amended).** For every `BitList(L)` or `BitVector(L)` and any two bit arrays with
the same bit length, the same bit at every index below that length and the same bit at every
index at or above it (a data byte that is absent counting as zero bits; so in particular when
neither has an unused bit set), `HashTreeRoot(a)` equals `HashTreeRoot(b)`, whatever the
number of trailing zero bytes either carries. -/
theorem C29_root_ignores_trailing_zero_bytes (H : Chunk → Chunk → Chunk) (L : Nat)
    (a b : BitArray) (ha : IsBytes a.Data) (hb : IsBytes b.Data) (hlen : a.Bitlen = b.Bitlen)
    (hbits : ∀ i, i < a.Bitlen → bitAt a.Data i = bitAt b.Data i)
    (hun : ∀ i, a.Bitlen ≤ i → bitAt a.Data i = bitAt b.Data i) :
    (BitList L).HashTreeRoot H (.bitArray a) = (BitList L).HashTreeRoot H (.bitArray b) ∧
    (BitVector L).HashTreeRoot H (.bitArray a) = (BitVector L).HashTreeRoot H (.bitArray b) := by
  have hall : ∀ i, bitAt a.Data i = bitAt b.Data i := by
    intro i
    by_cases hi : i < a.Bitlen
    · exact hbits i hi
    · exact hun i (by omega)
  obtain ⟨da, Ba⟩ := a
  obtain ⟨db, Bb⟩ := b
  simp only at ha hb hlen hall
  subst hlen
  rcases Nat.le_total da.length db.length with hle | hle
  · have hz := zero_extension da db ha hb hall hle
    have := root_append_zeros H L da (db.length - da.length) Ba
    rw [← hz] at this
    exact ⟨this.1.symm, this.2.symm⟩
  · have hz := zero_extension db da hb ha (fun i => (hall i).symm) hle
    have := root_append_zeros H L db (da.length - db.length) Ba
    rw [← hz] at this
    exact this

/-- Witness for C29 (amended): the 4-bit arrays with the data `01` and `01 00 00` are different
values with the same bits, and have the same root. -/
theorem C29_root_ignores_trailing_zero_bytes_witness :
    (BitArray.mk [1] 4 ≠ BitArray.mk [1, 0, 0] 4) ∧
    (BitVector 4).HashTreeRoot constHash (.bitArray { Data := [1], Bitlen := 4 })
      = (BitVector 4).HashTreeRoot constHash (.bitArray { Data := [1, 0, 0], Bitlen := 4 }) ∧
    (BitList 4).HashTreeRoot constHash (.bitArray { Data := [1], Bitlen := 4 })
      = (BitList 4).HashTreeRoot constHash (.bitArray { Data := [1, 0, 0], Bitlen := 4 }) :=
  have hall : ∀ i, bitAt [1] i = bitAt [1, 0, 0] i :=
    fun i => (bitAt_append_zeros [1] 2 i).symm
  have h := C29_root_ignores_trailing_zero_bytes constHash 4 { Data := [1], Bitlen := 4 }
    { Data := [1, 0, 0], Bitlen := 4 } (by decide) (by decide) rfl (fun i _ => hall i)
    (fun i _ => hall i)
  ⟨by decide, h.2, h.1⟩

end Ssz
